import Mathlib

/-!
# gophish: per-recipient phishing template context

A shallow embedding of `models/template_context.go` (`NewPhishingTemplateContext`,
`ExecuteTemplate`, `ValidateTemplate`) together with the parts of the Go standard
library the function composes: `net/url` (`Parse`, `URL.String`, `URL.Query`,
`Values.Set`, `Values.Encode`), `path.Join`/`path.Clean` and
`base64.StdEncoding.EncodeToString`.  The library functions follow the Go 1.22
sources.  The mail address parser, the `text/template` engine, the QR encoder and
the package constant `RecipientParameter` (declared in another file of the package)
are taken as parameters, bundled in `Deps`.

Go strings are byte sequences, so a Go `string` is a `List (Fin 256)` here.  A
function that returns a value and an `error` returns a pair whose second component
is `none` for a nil error.

The theorems `C1_...` to `C10_...` state the properties of the specification they
are numbered after; the sections before them hold the lemmas on escaping, query
values, URL texts and `path.Clean` they rest on.
-/

set_option linter.dupNamespace false

namespace Gophish

/-! ## Bytes and strings -/

/-- A byte. -/
abbrev Byte := Fin 256

/-- A Go `string`: an immutable sequence of bytes. -/
abbrev GoString := List Byte

/-- The byte of an ASCII character literal. -/
def ch (c : Char) : Byte := Fin.ofNat c.toNat

/-- UTF-8 encoding of one code point (Go source text is UTF-8). -/
def utf8 (c : Char) : GoString :=
  let n := c.toNat
  if n < 0x80 then [Fin.ofNat n]
  else if n < 0x800 then [Fin.ofNat (0xC0 + n / 64), Fin.ofNat (0x80 + n % 64)]
  else if n < 0x10000 then
    [Fin.ofNat (0xE0 + n / 4096), Fin.ofNat (0x80 + n / 64 % 64), Fin.ofNat (0x80 + n % 64)]
  else
    [Fin.ofNat (0xF0 + n / 262144), Fin.ofNat (0x80 + n / 4096 % 64),
     Fin.ofNat (0x80 + n / 64 % 64), Fin.ofNat (0x80 + n % 64)]

/-- The Go string written as the given literal. -/
def str (s : String) : GoString := s.toList.flatMap utf8

/-- Result of `strings.Cut(s, sep)` for a one-byte separator: the text before the
first separator, the text after it, and whether the separator was found. -/
def cut (sep : Byte) : GoString → GoString × GoString × Bool
  | [] => ([], [], false)
  | c :: rest =>
    if c = sep then ([], rest, true)
    else
      let r := cut sep rest
      (c :: r.1, r.2.1, r.2.2)

/-- Split at the last occurrence of `sep` (`strings.LastIndex` with a one-byte
separator, followed by slicing): `none` when `sep` does not occur. -/
def cutLast (sep : Byte) : GoString → Option (GoString × GoString)
  | [] => none
  | c :: rest =>
    match cutLast sep rest with
    | some (a, b) => some (c :: a, b)
    | none => if c = sep then some ([], rest) else none

/-- Split at the first occurrence of the substring `pat`
(`strings.Index` followed by slicing `s[:i]`, `s[i:]`). -/
def cutAtSub (pat : GoString) : GoString → Option (GoString × GoString)
  | [] => if pat = [] then some ([], []) else none
  | c :: rest =>
    if pat.isPrefixOf (c :: rest) then some ([], c :: rest)
    else
      match cutAtSub pat rest with
      | some (a, b) => some (c :: a, b)
      | none => none

/-- The pieces of `s` between occurrences of `sep`. -/
def splitByte (sep : Byte) : GoString → List GoString
  | [] => [[]]
  | c :: rest =>
    if c = sep then [] :: splitByte sep rest
    else
      match splitByte sep rest with
      | [] => [[c]]
      | h :: t => (c :: h) :: t

/-- Byte-wise lexicographic `a <= b`, the order of Go string comparison. -/
def strLe : GoString → GoString → Bool
  | [], _ => true
  | _ :: _, [] => false
  | a :: as, b :: bs => if a < b then true else if b < a then false else strLe as bs

/-- Function `strings.ToLower` on the ASCII letters (a scheme has no other letters). -/
def toLowerASCII (s : GoString) : GoString :=
  s.map (fun c => if ch 'A' ≤ c ∧ c ≤ ch 'Z' then c + 32 else c)

deriving instance DecidableEq for Except

/-! ## net/url: escaping -/

/-- The `encoding` modes of `net/url`. -/
inductive Encoding where
  | encodePath
  | encodePathSegment
  | encodeHost
  | encodeZone
  | encodeUserPassword
  | encodeQueryComponent
  | encodeFragment
  deriving DecidableEq, Repr

open Encoding

/-- Errors of `net/url`: `EscapeError`, `InvalidHostError`, the error
`fmt.Errorf("invalid port %q after host", colonPort)` of `parseHost`, which carries
the text `colonPort`, and the errors with a constant message. -/
inductive URLError where
  | escape (s : GoString)
  | invalidHost (s : GoString)
  | invalidPort (colonPort : GoString)
  | other (msg : String)
  deriving DecidableEq, Repr

def ishex (c : Byte) : Bool :=
  (ch '0' ≤ c && c ≤ ch '9') || (ch 'a' ≤ c && c ≤ ch 'f') || (ch 'A' ≤ c && c ≤ ch 'F')

def unhex (c : Byte) : Nat :=
  if ch '0' ≤ c ∧ c ≤ ch '9' then c.val - 48
  else if ch 'a' ≤ c ∧ c ≤ ch 'f' then c.val - 97 + 10
  else if ch 'A' ≤ c ∧ c ≤ ch 'F' then c.val - 65 + 10
  else 0

/-- The byte `unhex(a)<<4 | unhex(b)`. -/
def unhexPair (a b : Byte) : Byte := Fin.ofNat ((unhex a * 16 + unhex b) % 256)

/-- The byte `upperhex[n]` for `n < 16`. -/
def upperhex (n : Nat) : Byte := if n < 10 then Fin.ofNat (48 + n) else Fin.ofNat (55 + n)

def isAlnum (c : Byte) : Bool :=
  (ch 'a' ≤ c && c ≤ ch 'z') || (ch 'A' ≤ c && c ≤ ch 'Z') || (ch '0' ≤ c && c ≤ ch '9')

/-- Function `shouldEscape` of `net/url`. -/
def shouldEscape (c : Byte) (mode : Encoding) : Bool :=
  if isAlnum c then false
  else if (mode = encodeHost ∨ mode = encodeZone) ∧
      c ∈ [ch '!', ch '$', ch '&', 39, ch '(', ch ')', ch '*', ch '+', ch ',', ch ';',
           ch '=', ch ':', ch '[', ch ']', ch '<', ch '>', ch '"'] then false
  else if c ∈ [ch '-', ch '_', ch '.', ch '~'] then false
  else if c ∈ [ch '$', ch '&', ch '+', ch ',', ch '/', ch ':', ch ';', ch '=', ch '?', ch '@'] then
    match mode with
    | encodePath => c = ch '?'
    | encodePathSegment => c = ch '/' || c = ch ';' || c = ch ',' || c = ch '?'
    | encodeUserPassword => c = ch '@' || c = ch '/' || c = ch '?' || c = ch ':'
    | encodeQueryComponent => true
    | encodeFragment => false
    | _ => true
  else if mode = encodeFragment ∧ c ∈ [ch '!', ch '(', ch ')', ch '*'] then false
  else true

/-- First pass of `unescape`: the error for the first malformed escape or
forbidden host byte, if any. -/
def unescapeCheck (mode : Encoding) : GoString → Option URLError
  | [] => none
  | c :: rest =>
    if c = ch '%' then
      match rest with
      | h :: l :: rest2 =>
        if ishex h && ishex l then
          if mode = encodeHost ∧ unhex h < 8 ∧ ¬ (h = ch '2' ∧ l = ch '5') then
            some (URLError.escape [c, h, l])
          else if mode = encodeZone ∧ ¬ (h = ch '2' ∧ l = ch '5') ∧ unhexPair h l ≠ ch ' ' ∧
              shouldEscape (unhexPair h l) encodeHost then
            some (URLError.escape [c, h, l])
          else unescapeCheck mode rest2
        else some (URLError.escape [c, h, l])
      | _ => some (URLError.escape (c :: rest))
    else if c = ch '+' then unescapeCheck mode rest
    else if (mode = encodeHost ∨ mode = encodeZone) ∧ c.val < 0x80 ∧ shouldEscape c encodeHost then
      some (URLError.invalidHost [c])
    else unescapeCheck mode rest

/-- Second pass of `unescape`: decode `%XX`, and `+` as a space in a query component. -/
def unescapeDecode (mode : Encoding) : GoString → GoString
  | [] => []
  | c :: rest =>
    if c = ch '%' then
      match rest with
      | h :: l :: rest2 => unhexPair h l :: unescapeDecode mode rest2
      | _ => []
    else if c = ch '+' then
      (if mode = encodeQueryComponent then ch ' ' else ch '+') :: unescapeDecode mode rest
    else c :: unescapeDecode mode rest

/-- Function `unescape` of `net/url`. -/
def unescape (s : GoString) (mode : Encoding) : Except URLError GoString :=
  match unescapeCheck mode s with
  | some e => .error e
  | none => .ok (unescapeDecode mode s)

/-- Function `escape` of `net/url`. -/
def escape (s : GoString) (mode : Encoding) : GoString :=
  s.flatMap (fun c =>
    if c = ch ' ' ∧ mode = encodeQueryComponent then [ch '+']
    else if shouldEscape c mode then [ch '%', upperhex (c.val / 16), upperhex (c.val % 16)]
    else [c])

def QueryEscape (s : GoString) : GoString := escape s encodeQueryComponent

def QueryUnescape (s : GoString) : Except URLError GoString := unescape s encodeQueryComponent

/-! ## net/url: the URL type, Parse and String -/

/-- Type `url.Userinfo`. -/
structure Userinfo where
  username : GoString
  password : GoString
  passwordSet : Bool
  deriving DecidableEq, Repr

/-- Type `url.URL`; `User` is `none` for a nil pointer. -/
structure URL where
  Scheme : GoString := []
  Opaque : GoString := []
  User : Option Userinfo := none
  Host : GoString := []
  Path : GoString := []
  RawPath : GoString := []
  OmitHost : Bool := false
  ForceQuery : Bool := false
  RawQuery : GoString := []
  Fragment : GoString := []
  RawFragment : GoString := []
  deriving DecidableEq, Repr

/-- Type `url.Error`: the operation, the URL text and the underlying error. -/
structure URLOpError where
  Op : String
  URL : GoString
  Err : URLError
  deriving DecidableEq, Repr

def isLetter (c : Byte) : Bool := (ch 'a' ≤ c && c ≤ ch 'z') || (ch 'A' ≤ c && c ≤ ch 'Z')

def isDigit (c : Byte) : Bool := ch '0' ≤ c && c ≤ ch '9'

/-- Function `stringContainsCTLByte`. -/
def stringContainsCTLByte (s : GoString) : Bool := s.any (fun b => b < ch ' ' || b = 0x7f)

/-- Loop of `getScheme`: `pre` is `rawURL[:i]`, the second list is `rawURL[i:]`. -/
def getSchemeLoop (rawURL : GoString) (pre : GoString) :
    GoString → Except URLError (GoString × GoString)
  | [] => .ok ([], rawURL)
  | c :: rest =>
    if isLetter c then getSchemeLoop rawURL (pre ++ [c]) rest
    else if isDigit c ∨ c = ch '+' ∨ c = ch '-' ∨ c = ch '.' then
      if pre = [] then .ok ([], rawURL) else getSchemeLoop rawURL (pre ++ [c]) rest
    else if c = ch ':' then
      if pre = [] then .error (URLError.other "missing protocol scheme") else .ok (pre, rest)
    else .ok ([], rawURL)

/-- Function `getScheme`: the scheme and the text after its colon. -/
def getScheme (rawURL : GoString) : Except URLError (GoString × GoString) :=
  getSchemeLoop rawURL [] rawURL

/-- Function `validOptionalPort`. -/
def validOptionalPort (port : GoString) : Bool :=
  match port with
  | [] => true
  | c :: digits => c = ch ':' && digits.all isDigit

/-- Function `validUserinfo`; a byte outside ASCII belongs to a rune outside the
allowed set. -/
def validUserinfo (s : GoString) : Bool :=
  s.all (fun r => isAlnum r ||
    r ∈ [ch '-', ch '.', ch '_', ch ':', ch '~', ch '!', ch '$', ch '&', 39,
         ch '(', ch ')', ch '*', ch '+', ch ',', ch ';', ch '=', ch '%', ch '@'])

/-- Function `parseHost`. -/
def parseHost (host : GoString) : Except URLError GoString :=
  if (str "[").isPrefixOf host then
    match cutLast (ch ']') host with
    | none => .error (URLError.other "missing ']' in host")
    | some (beforeBracket, colonPort) =>
      if ¬ validOptionalPort colonPort then .error (URLError.invalidPort colonPort)
      else
        match cutAtSub (str "%25") beforeBracket with
        | some (h1, zone) =>
          match unescape h1 encodeHost with
          | .error e => .error e
          | .ok host1 =>
            match unescape zone encodeZone with
            | .error e => .error e
            | .ok host2 =>
              match unescape (ch ']' :: colonPort) encodeHost with
              | .error e => .error e
              | .ok host3 => .ok (host1 ++ host2 ++ host3)
        | none => unescape host encodeHost
  else
    match cutLast (ch ':') host with
    | some (_, port) =>
      if ¬ validOptionalPort (ch ':' :: port) then
        .error (URLError.invalidPort (ch ':' :: port))
      else unescape host encodeHost
    | none => unescape host encodeHost

/-- Function `parseAuthority`. -/
def parseAuthority (authority : GoString) : Except URLError (Option Userinfo × GoString) :=
  match cutLast (ch '@') authority with
  | none =>
    match parseHost authority with
    | .error e => .error e
    | .ok host => .ok (none, host)
  | some (userinfo, hostpart) =>
    match parseHost hostpart with
    | .error e => .error e
    | .ok host =>
      if ¬ validUserinfo userinfo then .error (URLError.other "net/url: invalid userinfo")
      else if ch ':' ∉ userinfo then
        match unescape userinfo encodeUserPassword with
        | .error e => .error e
        | .ok u => .ok (some ⟨u, [], false⟩, host)
      else
        let c := cut (ch ':') userinfo
        match unescape c.1 encodeUserPassword with
        | .error e => .error e
        | .ok username =>
          match unescape c.2.1 encodeUserPassword with
          | .error e => .error e
          | .ok password => .ok (some ⟨username, password, true⟩, host)

/-- Method `setPath`. -/
def URL.setPath (u : URL) (p : GoString) : Except URLError URL :=
  match unescape p encodePath with
  | .error e => .error e
  | .ok path =>
    .ok { u with Path := path, RawPath := if p = escape path encodePath then [] else p }

/-- Method `setFragment`. -/
def URL.setFragment (u : URL) (f : GoString) : Except URLError URL :=
  match unescape f encodeFragment with
  | .error e => .error e
  | .ok frag =>
    .ok { u with Fragment := frag, RawFragment := if f = escape frag encodeFragment then [] else f }

/-- The part of `parse` after the scheme and the query are split off: `u0` holds
the scheme and the query, `rest` is the text between them. -/
def parseRest (u0 : URL) (rest : GoString) : Except URLError URL :=
  if ¬ (str "/").isPrefixOf rest ∧ u0.Scheme ≠ [] then .ok { u0 with Opaque := rest }
  else if ¬ (str "/").isPrefixOf rest ∧ ch ':' ∈ (cut (ch '/') rest).1 then
    .error (URLError.other "first path segment in URL cannot contain colon")
  else if (u0.Scheme ≠ [] ∨ ¬ (str "///").isPrefixOf rest) ∧ (str "//").isPrefixOf rest then
    let c := cut (ch '/') (rest.drop 2)
    match parseAuthority c.1 with
    | .error e => .error e
    | .ok (user, host) =>
      URL.setPath { u0 with User := user, Host := host } (if c.2.2 then ch '/' :: c.2.1 else [])
  else if u0.Scheme ≠ [] ∧ (str "/").isPrefixOf rest then
    URL.setPath { u0 with OmitHost := true } rest
  else URL.setPath u0 rest

/-- Function `parse(rawURL, viaRequest)` at `viaRequest = false`. -/
def parse (rawURL : GoString) : Except URLError URL :=
  if stringContainsCTLByte rawURL then
    .error (URLError.other "net/url: invalid control character in URL")
  else if rawURL = str "*" then .ok { Path := str "*" }
  else
    match getScheme rawURL with
    | .error e => .error e
    | .ok (scheme, rest0) =>
      let force : Bool := rest0.getLast? = some (ch '?') && rest0.count (ch '?') = 1
      parseRest
        { Scheme := toLowerASCII scheme, ForceQuery := force,
          RawQuery := if force then [] else (cut (ch '?') rest0).2.1 }
        (if force then rest0.dropLast else (cut (ch '?') rest0).1)

/-- Function `url.Parse`. -/
def Parse (rawURL : GoString) : Except URLOpError URL :=
  let c := cut (ch '#') rawURL
  match parse c.1 with
  | .error e => .error ⟨"parse", c.1, e⟩
  | .ok url =>
    if c.2.1 = [] then .ok url
    else
      match URL.setFragment url c.2.1 with
      | .error e => .error ⟨"parse", rawURL, e⟩
      | .ok url2 => .ok url2

/-- Function `validEncoded`. -/
def validEncoded (s : GoString) (mode : Encoding) : Bool :=
  s.all (fun c =>
    c ∈ [ch '!', ch '$', ch '&', 39, ch '(', ch ')', ch '*', ch '+', ch ',', ch ';',
         ch '=', ch ':', ch '@', ch '[', ch ']', ch '%'] || ! shouldEscape c mode)

/-- Method `EscapedPath`. -/
def URL.EscapedPath (u : URL) : GoString :=
  if u.RawPath ≠ [] ∧ validEncoded u.RawPath encodePath ∧
      unescape u.RawPath encodePath = .ok u.Path then u.RawPath
  else if u.Path = str "*" then str "*"
  else escape u.Path encodePath

/-- Method `EscapedFragment`. -/
def URL.EscapedFragment (u : URL) : GoString :=
  if u.RawFragment ≠ [] ∧ validEncoded u.RawFragment encodeFragment ∧
      unescape u.RawFragment encodeFragment = .ok u.Fragment then u.RawFragment
  else escape u.Fragment encodeFragment

/-- Method `Userinfo.String`. -/
def Userinfo.String (u : Userinfo) : GoString :=
  escape u.username encodeUserPassword ++
    (if u.passwordSet then ch ':' :: escape u.password encodeUserPassword else [])

/-- The part of `URL.String` written when `Opaque` is empty: authority and path. -/
def URL.hierPart (u : URL) : GoString :=
  let auth : GoString :=
    if u.Scheme ≠ [] ∨ u.Host ≠ [] ∨ u.User ≠ none then
      if u.OmitHost ∧ u.Host = [] ∧ u.User = none then []
      else
        (if u.Host ≠ [] ∨ u.Path ≠ [] ∨ u.User ≠ none then str "//" else []) ++
        (match u.User with
         | some ui => ui.String ++ [ch '@']
         | none => []) ++
        (if u.Host ≠ [] then escape u.Host encodeHost else [])
    else []
  let path := u.EscapedPath
  let slash : GoString :=
    if path ≠ [] ∧ path.head? ≠ some (ch '/') ∧ u.Host ≠ [] then [ch '/'] else []
  let buf : GoString := (if u.Scheme ≠ [] then u.Scheme ++ [ch ':'] else []) ++ auth ++ slash
  let dot : GoString :=
    if buf = [] ∧ ch ':' ∈ (cut (ch '/') path).1 then str "./" else []
  auth ++ slash ++ dot ++ path

/-- Method `URL.String`. -/
def URL.String (u : URL) : GoString :=
  (if u.Scheme ≠ [] then u.Scheme ++ [ch ':'] else []) ++
  (if u.Opaque ≠ [] then u.Opaque else u.hierPart) ++
  (if u.ForceQuery ∨ u.RawQuery ≠ [] then ch '?' :: u.RawQuery else []) ++
  (if u.Fragment ≠ [] then ch '#' :: u.EscapedFragment else [])

/-- The URL parsed from a literal, or the empty URL when it does not parse. -/
def parsed (s : String) : URL :=
  match Parse (str s) with
  | .ok u => u
  | .error _ => {}

/-! ## net/url: query values -/

/-- Type `url.Values` (`map[string][]string`) as an association list;
lookups take the first entry of a key. -/
abbrev Values := List (GoString × List GoString)

/-- Map index `v[key]`: the nil slice when the key is absent. -/
def Values.get : Values → GoString → List GoString
  | [], _ => []
  | (k, vs) :: rest, key => if k = key then vs else Values.get rest key

/-- Method `Values.Get`: the first value of the key, or the empty string. -/
def Values.Get (v : Values) (key : GoString) : GoString := (v.get key).headD []

/-- Map assignment `v[key] = vs`. -/
def Values.put : Values → GoString → List GoString → Values
  | [], key, vs => [(key, vs)]
  | (k, old) :: rest, key, vs =>
    if k = key then (k, vs) :: rest else (k, old) :: Values.put rest key vs

/-- Method `Values.Set`: `v[key] = []string{value}`. -/
def Values.Set (v : Values) (key value : GoString) : Values := v.put key [value]

/-- The statement `m[key] = append(m[key], value)` of `parseQuery`. -/
def Values.append (v : Values) (key value : GoString) : Values :=
  v.put key (v.get key ++ [value])

/-- The key set of the map. -/
def Values.keys (v : Values) : List GoString := (v.map Prod.fst).dedup

/-- One `key=value` piece written by `Values.Encode`. -/
def encodePair (k x : GoString) : GoString := QueryEscape k ++ ch '=' :: QueryEscape x

/-- The write of one piece in `Values.Encode`: an `&` first when the buffer is
not empty. -/
def writePiece (buf piece : GoString) : GoString :=
  (if buf ≠ [] then buf ++ [ch '&'] else buf) ++ piece

/-- Method `Values.Encode`: the keys sorted, every value of a key in order, each
written as `key=value` after an `&` when the buffer is not empty. -/
def Values.Encode (v : Values) : GoString :=
  (((v.keys).insertionSort (fun a b => strLe a b = true)).flatMap
    (fun k => (v.get k).map (encodePair k))).foldl writePiece []

/-- One iteration of the loop of `parseQuery` on the piece `seg` cut off at `&`;
a piece with a semicolon, an empty piece and a piece with a bad escape are skipped. -/
def parseQueryStep (m : Values) (seg : GoString) : Values :=
  if ch ';' ∈ seg then m
  else if seg = [] then m
  else
    let c := cut (ch '=') seg
    match QueryUnescape c.1 with
    | .error _ => m
    | .ok key =>
      match QueryUnescape c.2.1 with
      | .error _ => m
      | .ok value => m.append key value

/-- Method `URL.Query`: `ParseQuery(u.RawQuery)` with its error dropped. The loop of
`parseQuery` cuts the query at each `&` in turn, which visits the pieces of the
split in order. -/
def parseQuery (query : GoString) : Values :=
  (splitByte (ch '&') query).foldl parseQueryStep []

def URL.Query (u : URL) : Values := parseQuery u.RawQuery

/-! ## path.Join and path.Clean -/

/-- The `..` case of `path.Clean` when it can backtrack, on the reversed buffer:
`out.w--`, then again while `out.w > dotdot` and the byte just dropped is not `/`. -/
def backtrack (dotdot : Nat) : GoString → GoString
  | [] => []
  | c :: rest => if rest.length > dotdot ∧ c ≠ ch '/' then backtrack dotdot rest else rest

/-- The slash `path.Clean` writes before a real path element, on the reversed
buffer: `if rooted && out.w != 1 || !rooted && out.w != 0 { out.append('/') }`. -/
def withSlash (rooted : Bool) (out : GoString) : GoString :=
  if (rooted ∧ out.length ≠ 1) ∨ (¬ rooted ∧ out.length ≠ 0) then ch '/' :: out else out

/-- The main loop of `path.Clean`, one byte of the unread input at a time.
`out` is the written buffer in reverse, `inElem` says that the loop copying a real
path element is running; dropping the `/` that ends an element is the next
iteration of the outer loop (its empty-element case). -/
def cleanLoop (rooted : Bool) : Bool → GoString → Nat → GoString → GoString
  | _, out, _, [] => out
  | true, out, dotdot, c :: rest =>
    if c = ch '/' then cleanLoop rooted false out dotdot rest
    else cleanLoop rooted true (c :: out) dotdot rest
  | false, out, dotdot, c :: rest =>
    if c = ch '/' then cleanLoop rooted false out dotdot rest
    else if c = ch '.' ∧ (rest = [] ∨ rest.head? = some (ch '/')) then
      cleanLoop rooted false out dotdot rest
    else if c = ch '.' ∧ rest.head? = some (ch '.') ∧
        (rest.tail = [] ∨ rest.tail.head? = some (ch '/')) then
      match rest with
      | [] => out
      | _ :: rest2 =>
        if out.length > dotdot then cleanLoop rooted false (backtrack dotdot out) dotdot rest2
        else if ¬ rooted then
          let out2 := ch '.' :: ch '.' :: (if out.length > 0 then ch '/' :: out else out)
          cleanLoop rooted false out2 out2.length rest2
        else cleanLoop rooted false out dotdot rest2
    else cleanLoop rooted true (c :: withSlash rooted out) dotdot rest

/-- Function `path.Clean`. -/
def Clean (path : GoString) : GoString :=
  match path with
  | [] => str "."
  | c :: rest =>
    let out :=
      if c = ch '/' then cleanLoop true false [ch '/'] 1 rest
      else cleanLoop false false [] 0 (c :: rest)
    if out.length = 0 then str "." else out.reverse

/-- Function `path.Join`: the non-empty elements joined by `/`, then cleaned;
the empty string when every element is empty. -/
def Join (elem : List GoString) : GoString :=
  if (elem.map List.length).sum = 0 then []
  else
    Clean (elem.foldl
      (fun buf e => if buf ≠ [] ∨ e ≠ [] then (if buf ≠ [] then buf ++ [ch '/'] else buf) ++ e else buf)
      [])

/-! ## encoding/base64 -/

/-- The alphabet of `base64.StdEncoding`. -/
def encodeStd : GoString :=
  str "ABCDEFGHIJKLMNOPQRSTUVWXYZabcdefghijklmnopqrstuvwxyz0123456789+/"

/-- Method `StdEncoding.EncodeToString`: three bytes give four digits, the
remainder is padded with `=`. -/
def EncodeToString : List Byte → GoString
  | a :: b :: c :: rest =>
    encodeStd.getD (a.val / 4) 0 :: encodeStd.getD (a.val % 4 * 16 + b.val / 16) 0 ::
    encodeStd.getD (b.val % 16 * 4 + c.val / 64) 0 :: encodeStd.getD (c.val % 64) 0 ::
    EncodeToString rest
  | [a, b] =>
    [encodeStd.getD (a.val / 4) 0, encodeStd.getD (a.val % 4 * 16 + b.val / 16) 0,
     encodeStd.getD (b.val % 16 * 4) 0, ch '=']
  | [a] => [encodeStd.getD (a.val / 4) 0, encodeStd.getD (a.val % 4 * 16) 0, ch '=', ch '=']
  | [] => []

/-! ## models/template_context.go -/

/-- Type `BaseRecipient`, declared in another file of the package; these are the
fields `ValidateTemplate` sets. -/
structure BaseRecipient where
  Email : GoString := []
  FirstName : GoString := []
  LastName : GoString := []
  Position : GoString := []
  deriving DecidableEq, Repr

/-- Type `mail.Address`. -/
structure Address where
  Name : GoString
  Address : GoString
  deriving DecidableEq, Repr

/-- A Go `error` value: one returned by a library outside `net/url`, with its
message, or a `*url.Error`. -/
inductive GoError where
  | external (msg : String)
  | url (e : URLOpError)
  deriving DecidableEq, Repr

/-- Type `PhishingTemplateContext`; the default value of every field is the zero value. -/
structure PhishingTemplateContext where
  From : GoString := []
  URL : GoString := []
  Tracker : GoString := []
  TrackingURL : GoString := []
  RId : GoString := []
  BaseURL : GoString := []
  QRCode : GoString := []
  QRFile : GoString := []
  toBaseRecipient : BaseRecipient := {}
  deriving DecidableEq, Repr

/-- Interface `TemplateContext`: the results of its two getters. -/
structure TemplateContext where
  getFromAddress : GoString
  getBaseURL : GoString
  deriving DecidableEq, Repr

/-- The `data interface{}` values handed to `ExecuteTemplate` in this file. -/
inductive TemplateData where
  | recipient (r : BaseRecipient)
  | context (c : PhishingTemplateContext)
  deriving DecidableEq, Repr

/-- Type `qrcode.RecoveryLevel`. -/
inductive RecoveryLevel where
  | Low
  | Medium
  | High
  | Highest
  deriving DecidableEq, Repr

/-- What the file uses and does not define: the package constant
`RecipientParameter`, `mail.ParseAddress`, `template.New("template").Parse`
(a parsed template is its `Execute`: the text written to the buffer and the error)
and `qrcode.Encode`. -/
structure Deps where
  RecipientParameter : GoString
  ParseAddress : GoString → Except GoError Address
  templateParse : GoString → Except GoError (TemplateData → GoString × Option GoError)
  qrcodeEncode : GoString → RecoveryLevel → Int → Except GoError (List Byte)

/-- Function `ExecuteTemplate`: the buffer contents and the error. -/
def ExecuteTemplate (d : Deps) (text : GoString) (data : TemplateData) :
    GoString × Option GoError :=
  match d.templateParse text with
  | .error err => ([], some err)
  | .ok tmpl => tmpl data

/-- The landing URL of `NewPhishingTemplateContext`: the parsed URL with the
recipient parameter set in its query (`q.Set`, then `RawQuery = q.Encode()`). -/
def phishURLOf (d : Deps) (u : URL) (rid : GoString) : URL :=
  { u with RawQuery := (u.Query.Set d.RecipientParameter rid).Encode }

/-- The tracking URL of `NewPhishingTemplateContext`: the path joined with
`/track`, and the same encoded query. -/
def trackingURLOf (d : Deps) (u : URL) (rid : GoString) : URL :=
  { u with Path := Join [u.Path, str "/track"],
           RawQuery := (u.Query.Set d.RecipientParameter rid).Encode }

/-- The base URL of `NewPhishingTemplateContext`: path and query reset. -/
def baseURLOf (u : URL) : URL := { u with Path := [], RawQuery := [] }

/-- A `url.Parse` whose error is dropped (`u, _ := url.Parse(s)`). The function
calls it on the text its first `url.Parse` accepted, so the error case, a nil
pointer in Go, is never reached. -/
def parseDroppingError (s : GoString) : URL :=
  match Parse s with
  | .ok u => u
  | .error _ => {}

/-- Function `NewPhishingTemplateContext`: the returned context and error. -/
def NewPhishingTemplateContext (d : Deps) (ctx : TemplateContext) (r : BaseRecipient)
    (rid : GoString) : PhishingTemplateContext × Option GoError :=
  match d.ParseAddress ctx.getFromAddress with
  | .error err => ({}, some err)
  | .ok f =>
    let fn := if f.Name = [] then f.Address else f.Name
    match ExecuteTemplate d ctx.getBaseURL (TemplateData.recipient r) with
    | (_, some err) => ({}, some err)
    | (templateURL, none) =>
      match Parse templateURL with
      | .error e => ({}, some (GoError.url e))
      | .ok parsedURL =>
        -- `err` is the variable assigned by `url.Parse`: nil from here on
        let err : Option GoError := none
        let baseURL := baseURLOf parsedURL
        let phishURL := phishURLOf d (parseDroppingError templateURL) rid
        match d.qrcodeEncode phishURL.String RecoveryLevel.High 256 with
        | .error _ => ({}, err)
        | .ok qrCodeImageData =>
          let QRCode := EncodeToString qrCodeImageData
          let trackingURL := trackingURLOf d (parseDroppingError templateURL) rid
          ({ toBaseRecipient := r,
             BaseURL := baseURL.String,
             URL := phishURL.String,
             TrackingURL := trackingURL.String,
             Tracker := str "<img alt='' style='display: none' src='" ++ trackingURL.String ++
               str "'/>",
             From := fn,
             RId := rid,
             QRCode := str "<img src='cid:" ++ str "qr.png" ++ str "'>",
             QRFile := QRCode }, none)

/-- Type `ValidationContext`. -/
structure ValidationContext where
  FromAddress : GoString
  BaseURL : GoString
  deriving DecidableEq, Repr

/-- The `TemplateContext` a `ValidationContext` implements. -/
def ValidationContext.toTemplateContext (vc : ValidationContext) : TemplateContext :=
  { getFromAddress := vc.FromAddress, getBaseURL := vc.BaseURL }

/-- The sender configuration `vc` of `ValidateTemplate`. -/
def validationVC : ValidationContext :=
  { FromAddress := str "foo@bar.com", BaseURL := str "http://example.com" }

/-- The recipient `td.BaseRecipient` of `ValidateTemplate`. -/
def validationRecipient : BaseRecipient :=
  { Email := str "foo@bar.com", FirstName := str "Foo", LastName := str "Bar",
    Position := str "Test" }

/-- The token `td.RId` of `ValidateTemplate`. -/
def validationRId : GoString := str "123456"

/-- Function `ValidateTemplate`: the returned error. -/
def ValidateTemplate (d : Deps) (text : GoString) : Option GoError :=
  match NewPhishingTemplateContext d validationVC.toTemplateContext validationRecipient
      validationRId with
  | (_, some err) => some err
  | (ptx, none) =>
    match ExecuteTemplate d text (TemplateData.context ptx) with
    | (_, some err) => some err
    | (_, none) => none

/-- Every step of one call of `NewPhishingTemplateContext` succeeds: the sender
address parses to `f`, the base-URL template renders to `templateURL`, that text
parses to `u`, and the encoder returns `png` for the landing URL. -/
structure BuildSteps (d : Deps) (cfg : TemplateContext) (r : BaseRecipient) (rid : GoString)
    (f : Address) (templateURL : GoString) (u : URL) (png : List Byte) : Prop where
  address : d.ParseAddress cfg.getFromAddress = .ok f
  rendered : ExecuteTemplate d cfg.getBaseURL (TemplateData.recipient r) = (templateURL, none)
  parsed : Parse templateURL = .ok u
  encoded : d.qrcodeEncode (phishURLOf d u rid).String RecoveryLevel.High 256 = .ok png

/-- The context assembled by the final `return` of `NewPhishingTemplateContext`. -/
def builtContext (d : Deps) (r : BaseRecipient) (rid : GoString) (f : Address) (u : URL)
    (png : List Byte) : PhishingTemplateContext :=
  { toBaseRecipient := r,
    BaseURL := (baseURLOf u).String,
    URL := (phishURLOf d u rid).String,
    TrackingURL := (trackingURLOf d u rid).String,
    Tracker := str "<img alt='' style='display: none' src='" ++ (trackingURLOf d u rid).String ++
      str "'/>",
    From := if f.Name = [] then f.Address else f.Name,
    RId := rid,
    QRCode := str "<img src='cid:" ++ str "qr.png" ++ str "'>",
    QRFile := EncodeToString png }

/-- The query that `url.Parse` splits off a URL text: what follows the first `?` of
the part before the first `#`. -/
def rawQueryOf (s : GoString) : GoString := (cut (ch '?') (cut (ch '#') s).1).2.1

/-- The scheme that `url.Parse` reads from a URL text, in lower case: what
`getScheme` returns for the part before the first `#`; empty when the text has no
scheme or `getScheme` fails. -/
def schemeOf (s : GoString) : GoString :=
  match getScheme (cut (ch '#') s).1 with
  | .ok (scheme, _) => toLowerASCII scheme
  | .error _ => []

/-- The text that `url.Parse` finds between the scheme and the query of a URL text:
authority and path, or the opaque part; empty when `getScheme` fails. -/
def hierOf (s : GoString) : GoString :=
  match getScheme (cut (ch '#') s).1 with
  | .ok (_, rest) => (cut (ch '?') rest).1
  | .error _ => []

/-- The authority `userinfo@host:port` that `url.Parse` hands to `parseAuthority`
for a URL text, still escaped: what stands between a leading `//` and the next `/`;
`none` when `url.Parse` reads no authority from the text. -/
def authorityOf (s : GoString) : Option GoString :=
  if (schemeOf s ≠ [] ∨ ¬ (str "///").isPrefixOf (hierOf s)) ∧
      (str "//").isPrefixOf (hierOf s) then
    some (cut (ch '/') ((hierOf s).drop 2)).1
  else none

/-- The path that `url.Parse` hands to `setPath` for a URL text, still escaped;
empty when the text has an opaque part. -/
def rawPathOf (s : GoString) : GoString :=
  if ¬ (str "/").isPrefixOf (hierOf s) ∧ schemeOf s ≠ [] then []
  else if (schemeOf s ≠ [] ∨ ¬ (str "///").isPrefixOf (hierOf s)) ∧
      (str "//").isPrefixOf (hierOf s) then
    if (cut (ch '/') ((hierOf s).drop 2)).2.2 then
      ch '/' :: (cut (ch '/') ((hierOf s).drop 2)).2.1
    else []
  else hierOf s

/-- The authority `userinfo@host` as `URL.String` writes it. -/
def URL.authority (u : URL) : GoString :=
  (match u.User with
   | some ui => ui.String ++ [ch '@']
   | none => []) ++
  escape u.Host encodeHost

/-- The fragment as `URL.String` writes it, with its `#`. -/
def URL.fragmentText (u : URL) : GoString :=
  if u.Fragment ≠ [] then ch '#' :: u.EscapedFragment else []

/-- A byte allowed in a scheme after its first letter. -/
def isSchemeByte (c : Byte) : Prop :=
  isLetter c = true ∨ isDigit c = true ∨ c = ch '+' ∨ c = ch '-' ∨ c = ch '.'

/-- A scheme as `getScheme` accepts it, in lower case: a letter followed by letters,
digits, `+`, `-` and `.`. -/
def SchemeText (s : GoString) : Prop :=
  toLowerASCII s = s ∧ ∃ c cs, s = c :: cs ∧ isLetter c = true ∧ ∀ x ∈ cs, isSchemeByte x

/-- Invariant of the reversed buffer of `Clean` on a rooted path: read forwards it
starts with a slash, it has no two adjacent slashes, and it ends in a slash only
when it is the root alone. -/
def RootedBuf (out : GoString) : Prop :=
  out.getLast? = some (ch '/') ∧
  out.Chain' (fun a b => ¬ (a = ch '/' ∧ b = ch '/')) ∧
  (out.head? = some (ch '/') → out.length = 1)

/-- Invariant of the reversed buffer of `Clean` on a path that is not rooted: it
has no two adjacent slashes, it does not end in a slash, and neither does its part
below the mark `dotdot`. -/
def RelBuf (out : GoString) (dotdot : Nat) : Prop :=
  out.Chain' (fun a b => ¬ (a = ch '/' ∧ b = ch '/')) ∧
  out.head? ≠ some (ch '/') ∧
  dotdot ≤ out.length ∧
  (out.drop (out.length - dotdot)).head? ≠ some (ch '/')

/-- The text `scheme://userinfo@host` with which `URL.String` starts for a URL that
has a host and no opaque part. -/
def URL.origin (u : URL) : GoString :=
  (if u.Scheme ≠ [] then u.Scheme ++ [ch ':'] else []) ++ str "//" ++
  (match u.User with
   | some ui => ui.String ++ [ch '@']
   | none => []) ++
  escape u.Host encodeHost

/-! ## Concrete collaborators for evaluating the functions -/

/-- A fragment of `mail.ParseAddress`: its results on three addresses. -/
def sampleParseAddress (s : GoString) : Except GoError Address :=
  if s = str "Foo Bar <foo@bar.com>" then .ok ⟨str "Foo Bar", str "foo@bar.com"⟩
  else if s = str "<foo@bar.com>" then .ok ⟨[], str "foo@bar.com"⟩
  else if s = str "foo@bar.com" then .ok ⟨[], str "foo@bar.com"⟩
  else .error (GoError.external "mail: no angle-addr")

/-- A fragment of `text/template`: a text without the action delimiter renders to
itself; any other text is refused. -/
def sampleTemplateParse (text : GoString) :
    Except GoError (TemplateData → GoString × Option GoError) :=
  if (cutAtSub (str "\x7b\x7b") text).isSome then
    .error (GoError.external "template: unsupported")
  else .ok (fun _ => (text, none))

/-- An encoder that accepts a payload of at most `cap` bytes and returns it as the
image bytes. The level `qrcode.High` of go-qrcode is the QR level Q (25% recovery),
at which the largest symbol holds 1663 bytes. -/
def sampleEncode (cap : Nat) (content : GoString) (_ : RecoveryLevel) (_ : Int) :
    Except GoError (List Byte) :=
  if content.length ≤ cap then .ok content
  else .error (GoError.external "content too long to encode")

/-- Collaborators with the recipient parameter `rid` and an encoder of capacity
1663 bytes. -/
def sampleDeps : Deps :=
  { RecipientParameter := str "rid",
    ParseAddress := sampleParseAddress,
    templateParse := sampleTemplateParse,
    qrcodeEncode := sampleEncode 1663 }

/-- The parse of `http://example.com/a/?x=1&rid=old`. -/
def sampleURL : URL :=
  { Scheme := str "http", Host := str "example.com", Path := str "/a/",
    RawQuery := str "x=1&rid=old" }

/-- A sender configuration with the given base URL. -/
def sampleConfig (baseURL : String) : TemplateContext :=
  { getFromAddress := str "Foo Bar <foo@bar.com>", getBaseURL := str baseURL }

/-! ## Evaluation checks of the embedding -/

example : QueryEscape (str "a b&c=d/é") = str "a+b%26c%3Dd%2F%C3%A9" := by decide
example : QueryUnescape (str "a+b%26c%3Dd%2F%C3%A9") = .ok (str "a b&c=d/é") := by decide
example : QueryUnescape (str "a%2") = .error (URLError.escape (str "%2")) := by decide
example : Parse (str "http://example.com/a/b?x=1#frag") =
    .ok { Scheme := str "http", Host := str "example.com", Path := str "/a/b",
          RawQuery := str "x=1", Fragment := str "frag" } := by decide
example : Parse (str "not a url ::") = .error ⟨"parse", str "not a url ::",
    URLError.other "first path segment in URL cannot contain colon"⟩ := by decide
example : (parsed "HTTP://user:pw@Example.com:80/a%2Fb/c d?x#y z").String =
    str "http://user:pw@Example.com:80/a/b/c%20d?x#y%20z" := by decide
example : (parsed "HTTP://user:pw@Example.com:80/a%2Fb/c?x#y z").String =
    str "http://user:pw@Example.com:80/a%2Fb/c?x#y%20z" := by decide
example : Parse (str "http://example.com:8x/a") = .error ⟨"parse", str "http://example.com:8x/a",
    URLError.invalidPort (str ":8x")⟩ := by decide
example : Parse (str "http://[::1]x/a") = .error ⟨"parse", str "http://[::1]x/a",
    URLError.invalidPort (str "x")⟩ := by decide
example : schemeOf (str "HTTP://user:pw@Example.com:80/a%2Fb/c d?x#y z") = str "http" := by decide
example : authorityOf (str "HTTP://user:pw@Example.com:80/a%2Fb/c d?x#y z") =
    some (str "user:pw@Example.com:80") := by decide
example : rawPathOf (str "HTTP://user:pw@Example.com:80/a%2Fb/c d?x#y z") =
    str "/a%2Fb/c d" := by decide
example : authorityOf (str "file:/etc/passwd") = none := by decide
example : rawPathOf (str "file:/etc/passwd") = str "/etc/passwd" := by decide
example : authorityOf (str "mailto:foo@bar.com") = none ∧
    rawPathOf (str "mailto:foo@bar.com") = [] := by decide
example : (parsed "mailto:foo@bar.com").Opaque = str "foo@bar.com" := by decide
example : (parsed "http://example.com?").String = str "http://example.com?" := by decide
example : (parsed "file:/etc/passwd").String = str "file:/etc/passwd" := by decide
example : (parsed "http://[fe80::1%25en0]:8080/").Host = str "[fe80::1%en0]:8080" := by decide
example : parseQuery (str "b=2&a=1&b=3&&c;d=4&e=%zz&f") =
    [(str "b", [str "2", str "3"]), (str "a", [str "1"]), (str "f", [[]])] := by decide
example : Values.Encode ((parseQuery (str "b=2&a=1&b=3&rid=old&rid=x")).Set (str "rid") (str "t k")) =
    str "a=1&b=2&b=3&rid=t+k" := by decide
example : Clean (str "/a/./b/../../c//d/") = str "/c/d" := by decide
example : Clean (str "a/../../b/..") = str ".." := by decide
example : Clean (str "/../a/b/../c") = str "/a/c" := by decide
example : Clean (str "abc/def/../ghi/.") = str "abc/ghi" := by decide
example : Join [str "", str "/track"] = str "/track" := by decide
example : Join [str "/a/b/", str "/track"] = str "/a/b/track" := by decide
example : Join [str ".", str "/track"] = str "track" := by decide
example : EncodeToString (str "Man") = str "TWFu" := by decide
example : EncodeToString (str "light w") = str "bGlnaHQgdw==" := by decide
example : EncodeToString (str "light wo") = str "bGlnaHQgd28=" := by decide
set_option maxRecDepth 100000 in
example : NewPhishingTemplateContext sampleDeps validationVC.toTemplateContext
    validationRecipient validationRId =
    ({ From := str "foo@bar.com",
       URL := str "http://example.com?rid=123456",
       Tracker := str "<img alt='' style='display: none' src='http://example.com/track?rid=123456'/>",
       TrackingURL := str "http://example.com/track?rid=123456",
       RId := str "123456",
       BaseURL := str "http://example.com",
       QRCode := str "<img src='cid:qr.png'>",
       QRFile := str "aHR0cDovL2V4YW1wbGUuY29tP3JpZD0xMjM0NTY=",
       toBaseRecipient := validationRecipient }, none) := by decide

/-! ## The shape of a build -/

theorem parseDroppingError_of_ok {s : GoString} {u : URL} (h : Parse s = .ok u) :
    parseDroppingError s = u := by
  simp [parseDroppingError, h]

/-- When every step succeeds the function returns the assembled context and a nil error. -/
theorem build_of_steps {d : Deps} {cfg : TemplateContext} {r : BaseRecipient} {rid : GoString}
    {f : Address} {t : GoString} {u : URL} {png : List Byte}
    (h : BuildSteps d cfg r rid f t u png) :
    NewPhishingTemplateContext d cfg r rid = (builtContext d r rid f u png, none) := by
  unfold NewPhishingTemplateContext
  simp only [h.address, h.rendered, h.parsed, parseDroppingError_of_ok h.parsed, h.encoded]
  rfl

/-- Every call either runs all its steps and returns the assembled context, or
returns the zero context. -/
theorem build_cases (d : Deps) (cfg : TemplateContext) (r : BaseRecipient) (rid : GoString) :
    (∃ f t u png, BuildSteps d cfg r rid f t u png ∧
      NewPhishingTemplateContext d cfg r rid = (builtContext d r rid f u png, none)) ∨
    (NewPhishingTemplateContext d cfg r rid).1 = {} := by
  cases ha : d.ParseAddress cfg.getFromAddress with
  | error e => right; simp [NewPhishingTemplateContext, ha]
  | ok f =>
    rcases ht : ExecuteTemplate d cfg.getBaseURL (TemplateData.recipient r) with ⟨t, _ | e⟩
    · cases hp : Parse t with
      | error e => right; simp [NewPhishingTemplateContext, ha, ht, hp]
      | ok u =>
        cases hq : d.qrcodeEncode (phishURLOf d u rid).String RecoveryLevel.High 256 with
        | error e =>
          right
          simp [NewPhishingTemplateContext, ha, ht, hp, parseDroppingError_of_ok hp, hq]
        | ok png =>
          left
          exact ⟨f, t, u, png, ⟨ha, ht, hp, hq⟩, build_of_steps ⟨ha, ht, hp, hq⟩⟩
    · right; simp [NewPhishingTemplateContext, ha, ht]

/-! ## Query escaping round trip -/

theorem unhexPair_upperhex (c : Byte) :
    unhexPair (upperhex (c.val / 16)) (upperhex (c.val % 16)) = c := by
  revert c
  set_option maxRecDepth 100000 in decide

theorem ishex_upperhex (c : Byte) :
    ishex (upperhex (c.val / 16)) = true ∧ ishex (upperhex (c.val % 16)) = true := by
  revert c
  set_option maxRecDepth 100000 in decide

/-- The bytes `QueryEscape` leaves alone are not structural in a query. -/
theorem not_shouldEscape_query (c : Byte) (h : shouldEscape c encodeQueryComponent = false) :
    c ≠ ch '%' ∧ c ≠ ch '+' ∧ c ≠ ch '&' ∧ c ≠ ch '=' ∧ c ≠ ch ';' := by
  revert c
  set_option maxRecDepth 100000 in decide

/-- A hex digit written by `escape` is not structural in a query. -/
theorem upperhex_not_structural (c : Byte) :
    (upperhex (c.val / 16) ≠ ch '&' ∧ upperhex (c.val / 16) ≠ ch '=' ∧
      upperhex (c.val / 16) ≠ ch ';') ∧
    (upperhex (c.val % 16) ≠ ch '&' ∧ upperhex (c.val % 16) ≠ ch '=' ∧
      upperhex (c.val % 16) ≠ ch ';') := by
  revert c
  set_option maxRecDepth 100000 in decide

theorem escape_cons (c : Byte) (s : GoString) (mode : Encoding) :
    escape (c :: s) mode =
      (if c = ch ' ' ∧ mode = encodeQueryComponent then [ch '+']
       else if shouldEscape c mode then [ch '%', upperhex (c.val / 16), upperhex (c.val % 16)]
       else [c]) ++ escape s mode := by
  simp [escape]

theorem unescapeCheck_query_plain (c : Byte) (rest : GoString) (h : c ≠ ch '%') :
    unescapeCheck encodeQueryComponent (c :: rest) = unescapeCheck encodeQueryComponent rest := by
  rcases rest with _ | ⟨x, _ | ⟨y, r⟩⟩ <;> simp [unescapeCheck, h]

theorem unescapeCheck_query_hex (h l : Byte) (rest : GoString)
    (hh : ishex h = true) (hl : ishex l = true) :
    unescapeCheck encodeQueryComponent (ch '%' :: h :: l :: rest) =
      unescapeCheck encodeQueryComponent rest := by
  simp [unescapeCheck, hh, hl]

theorem unescapeDecode_query_plain (c : Byte) (rest : GoString) (h : c ≠ ch '%')
    (h2 : c ≠ ch '+') :
    unescapeDecode encodeQueryComponent (c :: rest) =
      c :: unescapeDecode encodeQueryComponent rest := by
  rcases rest with _ | ⟨x, _ | ⟨y, r⟩⟩ <;> simp [unescapeDecode, h, h2]

theorem unescapeDecode_query_plus (rest : GoString) :
    unescapeDecode encodeQueryComponent (ch '+' :: rest) =
      ch ' ' :: unescapeDecode encodeQueryComponent rest := by
  have h : ch '+' ≠ ch '%' := by decide
  rcases rest with _ | ⟨x, _ | ⟨y, r⟩⟩ <;> simp [unescapeDecode, h]

theorem unescapeDecode_query_hex (h l : Byte) (rest : GoString) :
    unescapeDecode encodeQueryComponent (ch '%' :: h :: l :: rest) =
      unhexPair h l :: unescapeDecode encodeQueryComponent rest := by
  simp [unescapeDecode]
theorem unescapeCheck_QueryEscape (s : GoString) :
    unescapeCheck encodeQueryComponent (QueryEscape s) = none := by
  induction s with
  | nil => rfl
  | cons c s ih =>
    unfold QueryEscape at ih ⊢
    rw [escape_cons]
    by_cases hsp : c = ch ' '
    · subst hsp
      have hp : ch '+' ≠ ch '%' := by decide
      simpa [unescapeCheck_query_plain _ _ hp] using ih
    · by_cases hesc : shouldEscape c encodeQueryComponent = true
      · have hh := ishex_upperhex c
        simp [hsp, hesc, unescapeCheck_query_hex _ _ _ hh.1 hh.2, ih]
      · have hesc2 : shouldEscape c encodeQueryComponent = false := by simpa using hesc
        have hne := not_shouldEscape_query c hesc2
        simp [hsp, hesc2, unescapeCheck_query_plain _ _ hne.1, ih]

theorem unescapeDecode_QueryEscape (s : GoString) :
    unescapeDecode encodeQueryComponent (QueryEscape s) = s := by
  induction s with
  | nil => rfl
  | cons c s ih =>
    unfold QueryEscape at ih ⊢
    rw [escape_cons]
    by_cases hsp : c = ch ' '
    · subst hsp
      simpa [unescapeDecode_query_plus] using ih
    · by_cases hesc : shouldEscape c encodeQueryComponent = true
      · simp [hsp, hesc, unescapeDecode_query_hex, unhexPair_upperhex, ih]
      · have hesc2 : shouldEscape c encodeQueryComponent = false := by simpa using hesc
        have hne := not_shouldEscape_query c hesc2
        simp [hsp, hesc2, unescapeDecode_query_plain _ _ hne.1 hne.2.1, ih]

/-- Function `QueryUnescape` inverts `QueryEscape` on every byte string. -/
theorem QueryUnescape_QueryEscape (s : GoString) : QueryUnescape (QueryEscape s) = .ok s := by
  simp [QueryUnescape, unescape, unescapeCheck_QueryEscape, unescapeDecode_QueryEscape]

/-- The output of `QueryEscape` has no `&`, `=` or `;`. -/
theorem QueryEscape_not_structural (s : GoString) :
    ch '&' ∉ QueryEscape s ∧ ch '=' ∉ QueryEscape s ∧ ch ';' ∉ QueryEscape s := by
  induction s with
  | nil => simp [QueryEscape, escape]
  | cons c s ih =>
    unfold QueryEscape at ih ⊢
    rw [escape_cons]
    by_cases hsp : c = ch ' '
    · subst hsp
      have h1 : ch '&' ≠ ch '+' := by decide
      have h2 : ch '=' ≠ ch '+' := by decide
      have h3 : ch ';' ≠ ch '+' := by decide
      simp [h1, h2, h3, ih]
    · by_cases hesc : shouldEscape c encodeQueryComponent = true
      · have hh := upperhex_not_structural c
        have h1 : ch '&' ≠ ch '%' := by decide
        have h2 : ch '=' ≠ ch '%' := by decide
        have h3 : ch ';' ≠ ch '%' := by decide
        simp [hsp, hesc, ih, h1, h2, h3, Ne.symm hh.1.1, Ne.symm hh.1.2.1, Ne.symm hh.1.2.2,
          Ne.symm hh.2.1, Ne.symm hh.2.2.1, Ne.symm hh.2.2.2]
      · have hesc2 : shouldEscape c encodeQueryComponent = false := by simpa using hesc
        have hne := not_shouldEscape_query c hesc2
        simp [hsp, hesc2, ih, Ne.symm hne.2.2.1, Ne.symm hne.2.2.2.1, Ne.symm hne.2.2.2.2]

/-! ## Query values: parsing the encoded form -/

theorem cut_append_of_not_mem (sep : Byte) (a b : GoString) (h : sep ∉ a) :
    cut sep (a ++ sep :: b) = (a, b, true) := by
  induction a with
  | nil => simp [cut]
  | cons c a ih =>
    have hc : c ≠ sep := fun e => h (by simp [e])
    have ha : sep ∉ a := fun e => h (by simp [e])
    simp [cut, hc, ih ha]

theorem splitByte_of_not_mem (sep : Byte) (a : GoString) (h : sep ∉ a) :
    splitByte sep a = [a] := by
  induction a with
  | nil => rfl
  | cons c a ih =>
    have hc : c ≠ sep := fun e => h (by simp [e])
    have ha : sep ∉ a := fun e => h (by simp [e])
    simp [splitByte, hc, ih ha]

theorem splitByte_append (sep : Byte) (a b : GoString) (h : sep ∉ a) :
    splitByte sep (a ++ sep :: b) = a :: splitByte sep b := by
  induction a with
  | nil => simp [splitByte]
  | cons c a ih =>
    have hc : c ≠ sep := fun e => h (by simp [e])
    have ha : sep ∉ a := fun e => h (by simp [e])
    simp [splitByte, hc, ih ha]

/-- Writing pieces into a non-empty buffer puts an `&` before each. -/
theorem foldl_writePiece_of_ne_nil (buf : GoString) (ps : List GoString) (h : buf ≠ []) :
    ps.foldl writePiece buf = buf ++ (ps.map (fun p => ch '&' :: p)).flatten := by
  induction ps generalizing buf with
  | nil => simp
  | cons p ps ih =>
    have h2 : writePiece buf p ≠ [] := by simp [writePiece, h]
    rw [List.foldl_cons, ih _ h2]
    simp [writePiece, h]

theorem splitByte_pieces (sep : Byte) (p : GoString) (ps : List GoString)
    (h : ∀ s ∈ p :: ps, sep ∉ s) :
    splitByte sep (p ++ (ps.map (fun q => sep :: q)).flatten) = p :: ps := by
  induction ps generalizing p with
  | nil => simpa using splitByte_of_not_mem sep p (h p (by simp))
  | cons q ps ih =>
    have h1 : sep ∉ p := h p (by simp)
    have h2 : ∀ s ∈ q :: ps, sep ∉ s := fun s hs => h s (List.mem_cons_of_mem _ hs)
    simp only [List.map_cons, List.flatten_cons, List.cons_append]
    rw [splitByte_append sep p _ h1, ih q h2]

/-- Parsing the text written from pieces without `&` visits exactly those pieces. -/
theorem parseQuery_foldl_writePiece (ps : List GoString)
    (h1 : ∀ s ∈ ps, ch '&' ∉ s) (h2 : ∀ s ∈ ps, s ≠ []) :
    parseQuery (ps.foldl writePiece []) = ps.foldl parseQueryStep [] := by
  cases ps with
  | nil => simp [parseQuery, splitByte, parseQueryStep]
  | cons p ps =>
    have hp : p ≠ [] := h2 p (by simp)
    have hw : writePiece [] p = p := by simp [writePiece]
    rw [List.foldl_cons, hw, foldl_writePiece_of_ne_nil p ps hp]
    unfold parseQuery
    rw [splitByte_pieces (ch '&') p ps h1]

theorem Values.get_put (v : Values) (k : GoString) (vs : List GoString) (k2 : GoString) :
    (v.put k vs).get k2 = if k2 = k then vs else v.get k2 := by
  induction v with
  | nil =>
    by_cases h : k = k2
    · simp [Values.put, Values.get, h]
    · have h3 : ¬ k2 = k := fun e => h e.symm
      simp [Values.put, Values.get, h, h3]
  | cons e v ih =>
    obtain ⟨k0, old⟩ := e
    by_cases h0 : k0 = k
    · subst h0
      by_cases h : k0 = k2
      · simp [Values.put, Values.get, h]
      · have h3 : ¬ k2 = k0 := fun e => h e.symm
        simp [Values.put, Values.get, h, h3]
    · by_cases h : k0 = k2
      · subst h
        simp [Values.put, Values.get, h0]
      · simp [Values.put, Values.get, h0, h, ih]

theorem parseQueryStep_encodePair (m : Values) (k x : GoString) :
    parseQueryStep m (encodePair k x) = m.append k x := by
  have hk := QueryEscape_not_structural k
  have hx := QueryEscape_not_structural x
  have h1 : ch ';' ∉ encodePair k x := by
    have : ch ';' ≠ ch '=' := by decide
    simp [encodePair, hk.2.2, hx.2.2, this]
  have h2 : encodePair k x ≠ [] := by simp [encodePair]
  have h3 : cut (ch '=') (encodePair k x) = (QueryEscape k, QueryEscape x, true) := by
    unfold encodePair
    exact cut_append_of_not_mem _ _ _ hk.2.1
  simp [parseQueryStep, h1, h2, h3, QueryUnescape_QueryEscape]

/-- Appending a list of decoded pairs: the values of a key are its old values
followed by the new ones in order. -/
theorem Values.get_foldl_append (pairs : List (GoString × GoString)) (m : Values)
    (k : GoString) :
    (pairs.foldl (fun acc p => acc.append p.1 p.2) m).get k =
      m.get k ++ (pairs.filter (fun p => p.1 = k)).map Prod.snd := by
  induction pairs generalizing m with
  | nil => simp
  | cons p pairs ih =>
    rw [List.foldl_cons, ih]
    by_cases h : p.1 = k
    · simp [Values.append, Values.get_put, h]
    · have h3 : ¬ k = p.1 := fun e => h e.symm
      simp [Values.append, Values.get_put, h, h3]

theorem Values.get_of_not_mem (v : Values) (k : GoString) (h : k ∉ v.map Prod.fst) :
    v.get k = [] := by
  induction v with
  | nil => rfl
  | cons e v ih =>
    obtain ⟨k0, vs⟩ := e
    have h0 : k0 ≠ k := fun e => h (by simp [e])
    have h1 : k ∉ v.map Prod.fst := fun e => h (by simp [List.mem_cons] at e ⊢; tauto)
    simp [Values.get, h0, ih h1]

/-- Among the pairs written for a duplicate-free key list, those of one key are
its values in order. -/
theorem filter_pairs_of_nodup (v : Values) (ks : List GoString) (hnd : ks.Nodup)
    (k : GoString) :
    ((ks.flatMap (fun k2 => (v.get k2).map (fun x => (k2, x)))).filter
      (fun p => p.1 = k)).map Prod.snd = if k ∈ ks then v.get k else [] := by
  induction ks with
  | nil => simp
  | cons k2 ks ih =>
    have hnd2 := List.nodup_cons.mp hnd
    rw [List.flatMap_cons, List.filter_append, List.map_append, ih hnd2.2]
    by_cases h : k2 = k
    · subst h
      simp [hnd2.1, List.filter_map, Function.comp_def]
    · have h3 : ¬ k = k2 := fun e => h e.symm
      simp [h, h3, List.filter_map, Function.comp_def]

/-- The values `URL.Query` reads back from `Values.Encode` are the values of the map,
key by key. -/
theorem parseQuery_Encode_get (v : Values) (k : GoString) :
    (parseQuery v.Encode).get k = v.get k := by
  have hsorted_perm := List.perm_insertionSort (fun a b => strLe a b = true) v.keys
  have hnd : ((v.keys).insertionSort (fun a b => strLe a b = true)).Nodup :=
    hsorted_perm.nodup_iff.mpr (List.nodup_dedup _)
  have hmem : k ∈ (v.keys).insertionSort (fun a b => strLe a b = true) ↔ k ∈ v.map Prod.fst := by
    rw [hsorted_perm.mem_iff]
    simp [Values.keys]
  have hpieces : ((v.keys).insertionSort (fun a b => strLe a b = true)).flatMap
      (fun k2 => (v.get k2).map (encodePair k2)) =
      (((v.keys).insertionSort (fun a b => strLe a b = true)).flatMap
        (fun k2 => (v.get k2).map (fun x => (k2, x)))).map (fun p => encodePair p.1 p.2) := by
    simp [List.map_flatMap, Function.comp_def]
  unfold Values.Encode
  rw [hpieces, parseQuery_foldl_writePiece, List.foldl_map]
  · have hstep : (fun (acc : Values) (p : GoString × GoString) =>
        parseQueryStep acc (encodePair p.1 p.2)) = fun acc p => acc.append p.1 p.2 := by
      funext acc p
      exact parseQueryStep_encodePair acc p.1 p.2
    rw [hstep, Values.get_foldl_append, filter_pairs_of_nodup v _ hnd k]
    by_cases hk : k ∈ v.map Prod.fst
    · simp [hmem.mpr hk, Values.get]
    · have : k ∉ (v.keys).insertionSort (fun a b => strLe a b = true) := fun e => hk (hmem.mp e)
      simp [this, Values.get, Values.get_of_not_mem v k hk]
  · intro s hs
    obtain ⟨p, _, rfl⟩ := List.mem_map.mp hs
    have hk := QueryEscape_not_structural p.1
    have hx := QueryEscape_not_structural p.2
    have : ch '&' ≠ ch '=' := by decide
    simp [encodePair, hk.1, hx.1, this]
  · intro s hs
    obtain ⟨p, _, rfl⟩ := List.mem_map.mp hs
    simp [encodePair]

theorem Values.get_Set_self (v : Values) (key x : GoString) : (v.Set key x).get key = [x] := by
  simp [Values.Set, Values.get_put]

theorem Values.get_Set_of_ne (v : Values) (key x k : GoString) (h : k ≠ key) :
    (v.Set key x).get k = v.get k := by
  simp [Values.Set, Values.get_put, h]

/-! ## Shape of a parsed URL with a host -/

theorem unescapeDecode_path_head (p : GoString) :
    (unescapeDecode encodePath (ch '/' :: p)).head? = some (ch '/') := by
  have h1 : ch '/' ≠ ch '%' := by decide
  have h2 : ch '/' ≠ ch '+' := by decide
  rcases p with _ | ⟨x, _ | ⟨y, r⟩⟩ <;> simp [unescapeDecode, h1, h2]

theorem setPath_props (v u : URL) (p : GoString) (h : URL.setPath v p = .ok u) :
    u.Host = v.Host ∧ u.Opaque = v.Opaque ∧ u.Path = unescapeDecode encodePath p := by
  cases hc : unescapeCheck encodePath p with
  | some e => simp [URL.setPath, unescape, hc] at h
  | none =>
    simp only [URL.setPath, unescape, hc, Except.ok.injEq] at h
    subst h
    exact ⟨rfl, rfl, rfl⟩

theorem parseRest_host_props (u0 : URL) (rest : GoString) (u : URL)
    (h0 : u0.Host = []) (h1 : u0.Opaque = [])
    (h : parseRest u0 rest = .ok u) (hh : u.Host ≠ []) :
    u.Opaque = [] ∧ (u.Path = [] ∨ u.Path.head? = some (ch '/')) := by
  unfold parseRest at h
  split at h
  · simp only [Except.ok.injEq] at h
    subst h
    exact absurd h0 hh
  · split at h
    · simp at h
    · split at h
      · simp only at h
        split at h
        · simp at h
        · obtain ⟨_, h3, h4⟩ := setPath_props _ _ _ h
          refine ⟨h3.trans h1, ?_⟩
          rw [h4]
          split
          · right; exact unescapeDecode_path_head _
          · left; rfl
      · split at h
        · obtain ⟨h2, _, _⟩ := setPath_props _ _ _ h
          exact absurd (h2.trans h0) hh
        · obtain ⟨h2, _, _⟩ := setPath_props _ _ _ h
          exact absurd (h2.trans h0) hh

theorem parse_host_props (s : GoString) (u : URL) (h : parse s = .ok u) (hh : u.Host ≠ []) :
    u.Opaque = [] ∧ (u.Path = [] ∨ u.Path.head? = some (ch '/')) := by
  unfold parse at h
  split at h
  · simp at h
  · split at h
    · simp only [Except.ok.injEq] at h
      subst h
      exact absurd rfl hh
    · split at h
      · simp at h
      · exact parseRest_host_props _ _ _ rfl rfl h hh

/-- A URL that `url.Parse` returns with a host has no opaque part, and its path is
empty or starts with a slash. -/
theorem Parse_host_props (s : GoString) (u : URL) (h : Parse s = .ok u) (hh : u.Host ≠ []) :
    u.Opaque = [] ∧ (u.Path = [] ∨ u.Path.head? = some (ch '/')) := by
  unfold Parse at h
  simp only at h
  split at h
  · simp at h
  · rename_i url hp
    split at h
    · simp only [Except.ok.injEq] at h
      subst h
      exact parse_host_props _ _ hp hh
    · split at h
      · simp at h
      · rename_i url2 hf
        simp only [Except.ok.injEq] at h
        subst h
        cases hc : unescapeCheck encodeFragment (cut (ch '#') s).2.1 with
        | some e => simp [URL.setFragment, unescape, hc] at hf
        | none =>
          simp only [URL.setFragment, unescape, hc, Except.ok.injEq] at hf
          subst hf
          exact parse_host_props _ url hp hh

/-! ## The text of a built URL -/

/-- The query of the landing URL read back by `URL.Query`: the recipient parameter
has the single value `rid`. -/
theorem phishURL_query_get_key (d : Deps) (u : URL) (rid : GoString) :
    (phishURLOf d u rid).Query.get d.RecipientParameter = [rid] := by
  simp [phishURLOf, URL.Query, parseQuery_Encode_get, Values.get_Set_self]

theorem trackingURL_query_get_key (d : Deps) (u : URL) (rid : GoString) :
    (trackingURLOf d u rid).Query.get d.RecipientParameter = [rid] := by
  simp [trackingURLOf, URL.Query, parseQuery_Encode_get, Values.get_Set_self]

/-- The encoded query with the recipient parameter set is never empty. -/
theorem encoded_query_ne_nil (d : Deps) (u : URL) (rid : GoString) :
    (u.Query.Set d.RecipientParameter rid).Encode ≠ [] := by
  intro h
  have h1 := parseQuery_Encode_get (u.Query.Set d.RecipientParameter rid) d.RecipientParameter
  rw [h, Values.get_Set_self] at h1
  exact absurd h1 (by simp [parseQuery, splitByte, parseQueryStep, Values.get])

/-- The text of a URL with a host and no opaque part starts with its origin; the
origin depends on the scheme, the user and the host only. -/
theorem origin_prefix_String (u : URL) (hh : u.Host ≠ []) (ho : u.Opaque = []) :
    u.origin <+: u.String := by
  unfold URL.String URL.hierPart URL.origin
  simp only [ho, hh, ne_eq, not_true_eq_false, not_false_eq_true, ite_true, ite_false,
    or_true, true_or, and_false, false_and, if_false, if_true]
  simp only [List.append_assoc]
  refine (List.prefix_append_right_inj _).mpr ?_
  exact (List.prefix_append_right_inj _).mpr
    ((List.prefix_append_right_inj _).mpr (List.prefix_append _ _))

/-- The text of a URL with a non-empty query: what precedes the query, the
question mark, the query, and the fragment part. -/
theorem String_of_query_ne_nil (v : URL) (h : v.RawQuery ≠ []) :
    v.String =
      ((if v.Scheme ≠ [] then v.Scheme ++ [ch ':'] else []) ++
        (if v.Opaque ≠ [] then v.Opaque else v.hierPart)) ++
      ch '?' :: v.RawQuery ++ (if v.Fragment ≠ [] then ch '#' :: v.EscapedFragment else []) := by
  unfold URL.String
  simp [h]

theorem cut_of_not_mem (sep : Byte) (s : GoString) (h : sep ∉ s) : cut sep s = (s, [], false) := by
  induction s with
  | nil => rfl
  | cons c s ih =>
    have hc : c ≠ sep := fun e => h (by simp [e])
    have hs : sep ∉ s := fun e => h (by simp [e])
    simp [cut, hc, ih hs]

theorem cut_fst_not_mem (sep : Byte) (s : GoString) : sep ∉ (cut sep s).1 := by
  induction s with
  | nil => simp [cut]
  | cons c s ih =>
    by_cases hc : c = sep
    · simp [cut, hc]
    · have hc2 : sep ≠ c := fun e => hc e.symm
      simp [cut, hc, hc2, ih]

theorem mem_of_mem_cut_fst (sep x : Byte) (s : GoString) (h : x ∈ (cut sep s).1) : x ∈ s := by
  induction s with
  | nil => simp [cut] at h
  | cons c s ih =>
    by_cases hc : c = sep
    · simp [cut, hc] at h
    · simp only [cut, hc, if_false, List.mem_cons] at h ⊢
      rcases h with h | h
      · exact Or.inl h
      · exact Or.inr (ih h)

theorem mem_of_mem_cut_snd (sep x : Byte) (s : GoString) (h : x ∈ (cut sep s).2.1) : x ∈ s := by
  induction s with
  | nil => simp [cut] at h
  | cons c s ih =>
    by_cases hc : c = sep
    · simp only [cut, hc, if_true] at h
      exact List.mem_cons_of_mem _ h
    · simp only [cut, hc, if_false] at h
      exact List.mem_cons_of_mem _ (ih h)

/-- A text whose only `sep` is its last byte is cut at that byte. -/
theorem cut_of_last (sep : Byte) (s : GoString) (h1 : s.getLast? = some sep)
    (h2 : s.count sep = 1) : cut sep s = (s.dropLast, [], true) := by
  induction s with
  | nil => simp at h1
  | cons c s ih =>
    by_cases hc : c = sep
    · subst hc
      have hs : c ∉ s := by
        rw [List.count_cons_self] at h2
        exact List.count_eq_zero.mp (by omega)
      cases s with
      | nil => simp [cut]
      | cons x xs =>
        exfalso
        rw [List.getLast?_cons_cons] at h1
        exact hs (List.mem_of_getLast?_eq_some h1)
    · cases s with
      | nil =>
        simp at h1
        exact absurd h1 hc
      | cons x xs =>
        rw [List.getLast?_cons_cons] at h1
        rw [List.count_cons_of_ne (fun e => hc e.symm)] at h2
        have hrec := ih h1 h2
        rw [cut, if_neg hc, hrec]
        simp

/-- What `getScheme` returns: no scheme and the whole text, or the scheme bytes that
precede the first colon and the text after it. -/
theorem getSchemeLoop_ok (raw pre rest scheme rest0 : GoString)
    (h : getSchemeLoop raw pre rest = .ok (scheme, rest0)) :
    (scheme = [] ∧ rest0 = raw) ∨
    (∃ mid, scheme = pre ++ mid ∧ rest = mid ++ ch ':' :: rest0 ∧ ∀ c ∈ mid, isSchemeByte c) := by
  induction rest generalizing pre with
  | nil =>
    simp only [getSchemeLoop, Except.ok.injEq, Prod.mk.injEq] at h
    exact Or.inl ⟨h.1.symm, h.2.symm⟩
  | cons c rest ih =>
    unfold getSchemeLoop at h
    split at h
    · rename_i hl
      rcases ih _ h with h1 | ⟨mid, h1, h2, h3⟩
      · exact Or.inl h1
      · refine Or.inr ⟨c :: mid, ?_, ?_, ?_⟩
        · simpa using h1
        · simp [h2]
        · intro x hx
          rcases List.mem_cons.mp hx with rfl | hx
          · exact Or.inl hl
          · exact h3 x hx
    · split at h
      · rename_i hd
        split at h
        · simp only [Except.ok.injEq, Prod.mk.injEq] at h
          exact Or.inl ⟨h.1.symm, h.2.symm⟩
        · rcases ih _ h with h1 | ⟨mid, h1, h2, h3⟩
          · exact Or.inl h1
          · refine Or.inr ⟨c :: mid, ?_, ?_, ?_⟩
            · simpa using h1
            · simp [h2]
            · intro x hx
              rcases List.mem_cons.mp hx with rfl | hx
              · rcases hd with hd | hd | hd | hd
                · exact Or.inr (Or.inl hd)
                · exact Or.inr (Or.inr (Or.inl hd))
                · exact Or.inr (Or.inr (Or.inr (Or.inl hd)))
                · exact Or.inr (Or.inr (Or.inr (Or.inr hd)))
              · exact h3 x hx
      · split at h
        · rename_i hcolon
          split at h
          · simp at h
          · simp only [Except.ok.injEq, Prod.mk.injEq] at h
            refine Or.inr ⟨[], ?_, ?_, ?_⟩
            · simpa using h.1.symm
            · simp [hcolon, h.2]
            · simp
        · simp only [Except.ok.injEq, Prod.mk.injEq] at h
          exact Or.inl ⟨h.1.symm, h.2.symm⟩

theorem getScheme_ok (raw scheme rest0 : GoString) (h : getScheme raw = .ok (scheme, rest0)) :
    (scheme = [] ∧ rest0 = raw) ∨
    (raw = scheme ++ ch ':' :: rest0 ∧ ∀ c ∈ scheme, isSchemeByte c) := by
  rcases getSchemeLoop_ok raw [] raw scheme rest0 h with h1 | ⟨mid, h1, h2, h3⟩
  · exact Or.inl h1
  · simp only [List.nil_append] at h1
    subst h1
    exact Or.inr ⟨h2, h3⟩

theorem isSchemeByte_props (c : Byte) (h : isSchemeByte c) :
    c ≠ ch '?' ∧ c ≠ ch '#' ∧
    (if ch 'A' ≤ c ∧ c ≤ ch 'Z' then c + 32 else c) ≠ ch '?' ∧
    (if ch 'A' ≤ c ∧ c ≤ ch 'Z' then c + 32 else c) ≠ ch '#' := by
  revert c
  unfold isSchemeByte
  set_option maxRecDepth 100000 in decide

theorem cut_append_left (sep : Byte) (p s : GoString) (h : sep ∉ p) :
    cut sep (p ++ s) = (p ++ (cut sep s).1, (cut sep s).2.1, (cut sep s).2.2) := by
  induction p with
  | nil => simp
  | cons c p ih =>
    have hc : c ≠ sep := fun e => h (by simp [e])
    have hp : sep ∉ p := fun e => h (by simp [e])
    simp [cut, hc, ih hp]

/-- The text before the query and the query as `parse` splits them: both come from
one cut at the first `?`, also when the only `?` is the last byte. -/
theorem cut_question (rest0 : GoString) :
    (if (rest0.getLast? = some (ch '?') && rest0.count (ch '?') = 1) = true then rest0.dropLast
      else (cut (ch '?') rest0).1) = (cut (ch '?') rest0).1 ∧
    (if (rest0.getLast? = some (ch '?') && rest0.count (ch '?') = 1) = true then []
      else (cut (ch '?') rest0).2.1) = (cut (ch '?') rest0).2.1 := by
  by_cases hf : (rest0.getLast? = some (ch '?') && rest0.count (ch '?') = 1) = true
  · have hf2 : rest0.getLast? = some (ch '?') ∧ rest0.count (ch '?') = 1 := by simpa using hf
    rw [if_pos hf, if_pos hf, cut_of_last _ _ hf2.1 hf2.2]
    exact ⟨rfl, rfl⟩
  · rw [if_neg hf, if_neg hf]
    exact ⟨rfl, rfl⟩

theorem setPath_fields (v u : URL) (p : GoString) (h : URL.setPath v p = .ok u) :
    u.Scheme = v.Scheme ∧ u.Opaque = v.Opaque ∧ u.RawQuery = v.RawQuery := by
  cases hc : unescapeCheck encodePath p with
  | some e => simp [URL.setPath, unescape, hc] at h
  | none =>
    simp only [URL.setPath, unescape, hc, Except.ok.injEq] at h
    subst h
    exact ⟨rfl, rfl, rfl⟩

theorem parseRest_fields (u0 : URL) (rest : GoString) (u : URL)
    (h : parseRest u0 rest = .ok u) :
    u.Scheme = u0.Scheme ∧ u.RawQuery = u0.RawQuery ∧ (u.Opaque = u0.Opaque ∨ u.Opaque = rest) := by
  unfold parseRest at h
  split at h
  · simp only [Except.ok.injEq] at h
    subst h
    exact ⟨rfl, rfl, Or.inr rfl⟩
  · split at h
    · simp at h
    · split at h
      · simp only at h
        split at h
        · simp at h
        · obtain ⟨h1, h2, h3⟩ := setPath_fields _ _ _ h
          exact ⟨h1, h3, Or.inl h2⟩
      · split at h
        · obtain ⟨h1, h2, h3⟩ := setPath_fields _ _ _ h
          exact ⟨h1, h3, Or.inl h2⟩
        · obtain ⟨h1, h2, h3⟩ := setPath_fields _ _ _ h
          exact ⟨h1, h3, Or.inl h2⟩

/-- The scheme, the opaque part and the query of a URL returned by `parse`. -/
theorem parse_shape (r : GoString) (u : URL) (hr : ch '#' ∉ r) (h : parse r = .ok u) :
    (∀ c ∈ u.Scheme, c ≠ ch '?' ∧ c ≠ ch '#') ∧
    ch '?' ∉ u.Opaque ∧ ch '#' ∉ u.Opaque ∧
    u.RawQuery = (cut (ch '?') r).2.1 := by
  unfold parse at h
  split at h
  · simp at h
  · split at h
    · rename_i hstar
      simp only [Except.ok.injEq] at h
      subst h
      subst hstar
      refine ⟨by simp, by simp, by simp, by decide⟩
    · split at h
      · simp at h
      · rename_i scheme rest0 hgs
        simp only at h
        obtain ⟨hq1, hq2⟩ := cut_question rest0
        rw [hq1, hq2] at h
        obtain ⟨h1, h2, h3⟩ := parseRest_fields _ _ _ h
        simp only at h1 h2 h3
        have hshape := getScheme_ok r scheme rest0 hgs
        have hrest0 : ∀ x, x ∈ rest0 → x ∈ r := by
          rcases hshape with ⟨_, he⟩ | ⟨he, _⟩
          · intro x hx; rw [← he]; exact hx
          · intro x hx; rw [he]; simp [hx]
        refine ⟨?_, ?_, ?_, ?_⟩
        · intro c hc
          rw [h1] at hc
          rcases hshape with ⟨he, _⟩ | ⟨_, hall⟩
          · subst he
            simp [toLowerASCII] at hc
          · obtain ⟨c0, hc0, rfl⟩ := List.mem_map.mp hc
            have := isSchemeByte_props c0 (hall c0 hc0)
            exact ⟨this.2.2.1, this.2.2.2⟩
        · rcases h3 with h3 | h3
          · rw [h3]; simp
          · rw [h3]; exact cut_fst_not_mem _ _
        · rcases h3 with h3 | h3
          · rw [h3]; simp
          · rw [h3]
            intro hm
            exact hr (hrest0 _ (mem_of_mem_cut_fst _ _ _ hm))
        · rw [h2]
          rcases hshape with ⟨_, he⟩ | ⟨he, hall⟩
          · rw [he]
          · have hno : ch '?' ∉ scheme ++ [ch ':'] := by
              intro hm
              rcases List.mem_append.mp hm with hm | hm
              · exact (isSchemeByte_props _ (hall _ hm)).1 rfl
              · simp at hm
                exact absurd hm (by decide)
            have : r = (scheme ++ [ch ':']) ++ rest0 := by rw [he]; simp
            rw [this, cut_append_left _ _ _ hno]

theorem setFragment_fields (v u : URL) (f : GoString) (h : URL.setFragment v f = .ok u) :
    u.Scheme = v.Scheme ∧ u.Opaque = v.Opaque ∧ u.RawQuery = v.RawQuery := by
  cases hc : unescapeCheck encodeFragment f with
  | some e => simp [URL.setFragment, unescape, hc] at h
  | none =>
    simp only [URL.setFragment, unescape, hc, Except.ok.injEq] at h
    subst h
    exact ⟨rfl, rfl, rfl⟩

/-- The scheme and the opaque part of a URL returned by `url.Parse` hold no `?` and
no `#`, and its `RawQuery` is the query of the text. -/
theorem Parse_shape (s : GoString) (u : URL) (h : Parse s = .ok u) :
    (∀ c ∈ u.Scheme, c ≠ ch '?' ∧ c ≠ ch '#') ∧
    ch '?' ∉ u.Opaque ∧ ch '#' ∉ u.Opaque ∧
    u.RawQuery = rawQueryOf s := by
  have hr := cut_fst_not_mem (ch '#') s
  unfold Parse at h
  simp only at h
  split at h
  · simp at h
  · rename_i url hp
    have hshape := parse_shape _ url hr hp
    split at h
    · simp only [Except.ok.injEq] at h
      subst h
      exact hshape
    · split at h
      · simp at h
      · rename_i url2 hf
        simp only [Except.ok.injEq] at h
        subst h
        obtain ⟨h1, h2, h3⟩ := setFragment_fields _ _ _ hf
        rw [h1, h2, h3]
        exact hshape

theorem upperhex_not_delim (c : Byte) :
    upperhex (c.val / 16) ≠ ch '?' ∧ upperhex (c.val / 16) ≠ ch '#' ∧
    upperhex (c.val % 16) ≠ ch '?' ∧ upperhex (c.val % 16) ≠ ch '#' := by
  revert c
  set_option maxRecDepth 100000 in decide

/-- In every mode `shouldEscape` asks for `?` and `#` to be escaped, except that a
fragment keeps `?`. -/
theorem shouldEscape_delims :
    shouldEscape (ch '#') encodePath = true ∧ shouldEscape (ch '?') encodePath = true ∧
    shouldEscape (ch '#') encodeHost = true ∧ shouldEscape (ch '?') encodeHost = true ∧
    shouldEscape (ch '#') encodeUserPassword = true ∧
    shouldEscape (ch '?') encodeUserPassword = true ∧
    shouldEscape (ch '#') encodeQueryComponent = true ∧
    shouldEscape (ch '?') encodeQueryComponent = true := by
  decide

/-- The output of `escape` holds no byte that the mode escapes, apart from `%`, the
hex digits and `+`. -/
theorem escape_not_mem (s : GoString) (mode : Encoding) (x : Byte)
    (hx : shouldEscape x mode = true) (h1 : x ≠ ch '%') (h2 : x ≠ ch '+')
    (h3 : ∀ c : Byte, upperhex (c.val / 16) ≠ x ∧ upperhex (c.val % 16) ≠ x) :
    x ∉ escape s mode := by
  induction s with
  | nil => simp [escape]
  | cons c s ih =>
    rw [escape_cons]
    intro hm
    rcases List.mem_append.mp hm with hm | hm
    · split at hm
      · simp at hm
        exact h2 hm
      · split at hm
        · simp at hm
          rcases hm with hm | hm | hm
          · exact h1 hm
          · exact (h3 c).1 hm.symm
          · exact (h3 c).2 hm.symm
        · rename_i hne
          simp at hm
          subst hm
          exact hne hx
    · exact ih hm

theorem escape_no_delims (s : GoString) (mode : Encoding)
    (hq : shouldEscape (ch '?') mode = true) (hh : shouldEscape (ch '#') mode = true) :
    ch '?' ∉ escape s mode ∧ ch '#' ∉ escape s mode := by
  constructor
  · exact escape_not_mem s mode _ hq (by decide) (by decide)
      (fun c => ⟨(upperhex_not_delim c).1, (upperhex_not_delim c).2.2.1⟩)
  · exact escape_not_mem s mode _ hh (by decide) (by decide)
      (fun c => ⟨(upperhex_not_delim c).2.1, (upperhex_not_delim c).2.2.2⟩)

theorem validEncoded_path_byte (c : Byte)
    (h : (c ∈ [ch '!', ch '$', ch '&', 39, ch '(', ch ')', ch '*', ch '+', ch ',', ch ';',
         ch '=', ch ':', ch '@', ch '[', ch ']', ch '%'] || ! shouldEscape c encodePath) = true) :
    c ≠ ch '?' ∧ c ≠ ch '#' := by
  revert c
  set_option maxRecDepth 100000 in decide

/-- The escaped path of a URL holds no `?` and no `#`. -/
theorem EscapedPath_no_delims (v : URL) :
    ch '?' ∉ v.EscapedPath ∧ ch '#' ∉ v.EscapedPath := by
  unfold URL.EscapedPath
  split
  · rename_i h
    have hv := h.2.1
    simp only [validEncoded, List.all_eq_true] at hv
    exact ⟨fun hm => (validEncoded_path_byte _ (hv _ hm)).1 rfl,
      fun hm => (validEncoded_path_byte _ (hv _ hm)).2 rfl⟩
  · split
    · exact ⟨by decide, by decide⟩
    · exact escape_no_delims _ _ shouldEscape_delims.2.1 shouldEscape_delims.1

theorem Userinfo_String_no_delims (ui : Userinfo) :
    ch '?' ∉ ui.String ∧ ch '#' ∉ ui.String := by
  have h1 := escape_no_delims ui.username encodeUserPassword shouldEscape_delims.2.2.2.2.2.1
    shouldEscape_delims.2.2.2.2.1
  have h2 := escape_no_delims ui.password encodeUserPassword shouldEscape_delims.2.2.2.2.2.1
    shouldEscape_delims.2.2.2.2.1
  have hc1 : ch '?' ≠ ch ':' := by decide
  have hc2 : ch '#' ≠ ch ':' := by decide
  unfold Userinfo.String
  constructor
  · intro hm
    rcases List.mem_append.mp hm with hm | hm
    · exact h1.1 hm
    · split at hm
      · rcases List.mem_cons.mp hm with hm | hm
        · exact hc1 hm
        · exact h2.1 hm
      · simp at hm
  · intro hm
    rcases List.mem_append.mp hm with hm | hm
    · exact h1.2 hm
    · split at hm
      · rcases List.mem_cons.mp hm with hm | hm
        · exact hc2 hm
        · exact h2.2 hm
      · simp at hm

theorem not_mem_ite {x : Byte} {c : Prop} [Decidable c] {a b : GoString}
    (ha : x ∉ a) (hb : x ∉ b) : x ∉ (if c then a else b) := by
  split
  · exact ha
  · exact hb

/-- The authority and path that `URL.String` writes hold no `?` and no `#`. -/
theorem hierPart_no_delims (v : URL) (x : Byte) (hx : x = ch '?' ∨ x = ch '#') :
    x ∉ v.hierPart := by
  have hpath := EscapedPath_no_delims v
  have hhost := escape_no_delims v.Host encodeHost shouldEscape_delims.2.2.2.1
    shouldEscape_delims.2.2.1
  have hs : str "//" = [ch '/', ch '/'] := by decide
  have hd : str "./" = [ch '.', ch '/'] := by decide
  have hx1 : x ≠ ch '/' := by rcases hx with rfl | rfl <;> decide
  have hx2 : x ≠ ch '.' := by rcases hx with rfl | rfl <;> decide
  have hx3 : x ≠ ch '@' := by rcases hx with rfl | rfl <;> decide
  have hxp : x ∉ v.EscapedPath := by rcases hx with rfl | rfl; exact hpath.1; exact hpath.2
  have hxh : x ∉ escape v.Host encodeHost := by
    rcases hx with rfl | rfl; exact hhost.1; exact hhost.2
  have hxu : ∀ ui : Userinfo, x ∉ ui.String := by
    intro ui
    rcases hx with rfl | rfl
    · exact (Userinfo_String_no_delims ui).1
    · exact (Userinfo_String_no_delims ui).2
  have hnil : x ∉ ([] : GoString) := by simp
  unfold URL.hierPart
  simp only [hs, hd, List.mem_append, not_or]
  refine ⟨⟨⟨?_, ?_⟩, ?_⟩, hxp⟩
  · refine not_mem_ite ?_ hnil
    refine not_mem_ite hnil ?_
    simp only [List.mem_append, not_or]
    refine ⟨⟨not_mem_ite (by simp [hx1]) hnil, ?_⟩, not_mem_ite hxh hnil⟩
    cases v.User with
    | none => exact hnil
    | some ui =>
      simp only [List.mem_append, not_or, List.mem_singleton]
      exact ⟨hxu ui, hx3⟩
  · exact not_mem_ite (by simp [hx1]) hnil
  · exact not_mem_ite (by simp [hx1, hx2]) hnil

theorem foldl_writePiece_not_mem (x : Byte) (hx : x ≠ ch '&') (ps : List GoString)
    (buf : GoString) (hb : x ∉ buf) (hp : ∀ p ∈ ps, x ∉ p) : x ∉ ps.foldl writePiece buf := by
  induction ps generalizing buf with
  | nil => simpa using hb
  | cons p ps ih =>
    rw [List.foldl_cons]
    apply ih
    · unfold writePiece
      simp only [List.mem_append, not_or]
      refine ⟨not_mem_ite ?_ hb, hp p (by simp)⟩
      simp only [List.mem_append, not_or, List.mem_singleton]
      exact ⟨hb, hx⟩
    · intro q hq
      exact hp q (List.mem_cons_of_mem _ hq)

/-- The text written by `Values.Encode` holds no `#`. -/
theorem Encode_no_hash (v : Values) : ch '#' ∉ v.Encode := by
  unfold Values.Encode
  apply foldl_writePiece_not_mem _ (by decide) _ _ (by simp)
  intro p hp
  obtain ⟨k, _, hp2⟩ := List.mem_flatMap.mp hp
  obtain ⟨x, _, rfl⟩ := List.mem_map.mp hp2
  have hk := escape_no_delims k encodeQueryComponent shouldEscape_delims.2.2.2.2.2.2.2
    shouldEscape_delims.2.2.2.2.2.2.1
  have hv := escape_no_delims x encodeQueryComponent shouldEscape_delims.2.2.2.2.2.2.2
    shouldEscape_delims.2.2.2.2.2.2.1
  have hne : ch '#' ≠ ch '=' := by decide
  unfold encodePair QueryEscape
  simp only [List.mem_append, List.mem_cons, not_or]
  exact ⟨hk.2, hne, hv.2⟩

/-- The query of the text `URL.String` writes is `RawQuery`, for a URL as `url.Parse`
returns it whose query is not empty and holds no `#`. -/
theorem rawQueryOf_String (v : URL) (hq : v.RawQuery ≠ [])
    (h1 : ∀ c ∈ v.Scheme, c ≠ ch '?' ∧ c ≠ ch '#')
    (h2 : ch '?' ∉ v.Opaque) (h3 : ch '#' ∉ v.Opaque) (h4 : ch '#' ∉ v.RawQuery) :
    rawQueryOf v.String = v.RawQuery := by
  have hpre : ∀ x : Byte, x = ch '?' ∨ x = ch '#' →
      x ∉ (if v.Scheme ≠ [] then v.Scheme ++ [ch ':'] else []) ++
        (if v.Opaque ≠ [] then v.Opaque else v.hierPart) := by
    intro x hx
    have hxc : x ≠ ch ':' := by rcases hx with rfl | rfl <;> decide
    simp only [List.mem_append, not_or]
    constructor
    · refine not_mem_ite ?_ (by simp)
      simp only [List.mem_append, not_or, List.mem_singleton]
      refine ⟨fun hm => ?_, hxc⟩
      rcases hx with rfl | rfl
      · exact (h1 _ hm).1 rfl
      · exact (h1 _ hm).2 rfl
    · refine not_mem_ite ?_ (hierPart_no_delims v x hx)
      rcases hx with rfl | rfl
      · exact h2
      · exact h3
  rw [String_of_query_ne_nil v hq]
  generalize (if v.Scheme ≠ [] then v.Scheme ++ [ch ':'] else []) ++
    (if v.Opaque ≠ [] then v.Opaque else v.hierPart) = pre at hpre
  have hpq : ch '?' ∉ pre := hpre _ (Or.inl rfl)
  have hph : ch '#' ∉ pre ++ ch '?' :: v.RawQuery := by
    simp only [List.mem_append, List.mem_cons, not_or]
    exact ⟨hpre _ (Or.inr rfl), by decide, h4⟩
  unfold rawQueryOf
  have hcut : (cut (ch '#') (pre ++ ch '?' :: v.RawQuery ++
      (if v.Fragment ≠ [] then ch '#' :: v.EscapedFragment else []))).1 =
      pre ++ ch '?' :: v.RawQuery := by
    split
    · have := cut_append_of_not_mem (ch '#') (pre ++ ch '?' :: v.RawQuery) v.EscapedFragment hph
      simp only [List.append_assoc, List.cons_append] at this ⊢
      rw [this]
    · have := cut_of_not_mem (ch '#') (pre ++ ch '?' :: v.RawQuery) hph
      simp only [List.append_nil, List.append_assoc, List.cons_append] at this ⊢
      rw [this]
  rw [hcut, cut_append_of_not_mem _ _ _ hpq]

/-- The queries of the landing and the tracking text of a parsed URL are the encoded
values with the recipient parameter set. -/
theorem rawQueryOf_built (d : Deps) (t : GoString) (u : URL) (rid : GoString)
    (h : Parse t = .ok u) :
    rawQueryOf (phishURLOf d u rid).String = (u.Query.Set d.RecipientParameter rid).Encode ∧
    rawQueryOf (trackingURLOf d u rid).String =
      (u.Query.Set d.RecipientParameter rid).Encode := by
  obtain ⟨h1, h2, h3, _⟩ := Parse_shape t u h
  have hq := encoded_query_ne_nil d u rid
  have hh := Encode_no_hash (u.Query.Set d.RecipientParameter rid)
  exact ⟨rawQueryOf_String (phishURLOf d u rid) hq h1 h2 h3 hh,
    rawQueryOf_String (trackingURLOf d u rid) hq h1 h2 h3 hh⟩

theorem not_shouldEscape_path (c : Byte) (h : shouldEscape c encodePath = false) :
    c ≠ ch '%' := by
  revert c
  set_option maxRecDepth 100000 in decide

theorem unescapeCheck_path_plain (c : Byte) (rest : GoString) (h : c ≠ ch '%') :
    unescapeCheck encodePath (c :: rest) = unescapeCheck encodePath rest := by
  rcases rest with _ | ⟨x, _ | ⟨y, r⟩⟩ <;> simp [unescapeCheck, h]

theorem unescapeCheck_path_hex (h l : Byte) (rest : GoString)
    (hh : ishex h = true) (hl : ishex l = true) :
    unescapeCheck encodePath (ch '%' :: h :: l :: rest) = unescapeCheck encodePath rest := by
  simp [unescapeCheck, hh, hl]

theorem unescapeDecode_path_plain (c : Byte) (rest : GoString) (h : c ≠ ch '%') :
    unescapeDecode encodePath (c :: rest) = c :: unescapeDecode encodePath rest := by
  by_cases h2 : c = ch '+'
  · subst h2
    rcases rest with _ | ⟨x, _ | ⟨y, r⟩⟩ <;> simp [unescapeDecode, h]
  · rcases rest with _ | ⟨x, _ | ⟨y, r⟩⟩ <;> simp [unescapeDecode, h, h2]

theorem unescapeDecode_path_hex (h l : Byte) (rest : GoString) :
    unescapeDecode encodePath (ch '%' :: h :: l :: rest) =
      unhexPair h l :: unescapeDecode encodePath rest := by
  simp [unescapeDecode]

/-- Function `unescape` inverts `escape` in path mode. -/
theorem unescape_escape_path (s : GoString) :
    unescape (escape s encodePath) encodePath = .ok s := by
  have hc : unescapeCheck encodePath (escape s encodePath) = none := by
    induction s with
    | nil => rfl
    | cons c s ih =>
      rw [escape_cons]
      by_cases hesc : shouldEscape c encodePath = true
      · have hh := ishex_upperhex c
        simp [hesc, unescapeCheck_path_hex _ _ _ hh.1 hh.2, ih]
      · have hesc2 : shouldEscape c encodePath = false := by simpa using hesc
        simp [hesc2, unescapeCheck_path_plain _ _ (not_shouldEscape_path c hesc2), ih]
  have hd : unescapeDecode encodePath (escape s encodePath) = s := by
    clear hc
    induction s with
    | nil => rfl
    | cons c s ih =>
      rw [escape_cons]
      by_cases hesc : shouldEscape c encodePath = true
      · simp [hesc, unescapeDecode_path_hex, unhexPair_upperhex, ih]
      · have hesc2 : shouldEscape c encodePath = false := by simpa using hesc
        simp [hesc2, unescapeDecode_path_plain _ _ (not_shouldEscape_path c hesc2), ih]
  simp [unescape, hc, hd]

/-- The escaped path of a URL decodes to its path. -/
theorem unescape_EscapedPath (v : URL) : unescape v.EscapedPath encodePath = .ok v.Path := by
  unfold URL.EscapedPath
  split
  · rename_i h
    exact h.2.2
  · split
    · rename_i h
      rw [h]
      decide
    · exact unescape_escape_path _

theorem hierPart_ends_with_path (v : URL) : ∃ pre, v.hierPart = pre ++ v.EscapedPath := by
  unfold URL.hierPart
  exact ⟨_, rfl⟩

/-- The text of a URL without an opaque part and with a non-empty query: the
escaped path stands right before the question mark. -/
theorem String_path_before_query (v : URL) (hq : v.RawQuery ≠ []) (ho : v.Opaque = []) :
    ∃ pre frag, v.String = pre ++ v.EscapedPath ++ ch '?' :: v.RawQuery ++ frag := by
  obtain ⟨pre, hpre⟩ := hierPart_ends_with_path v
  rw [String_of_query_ne_nil v hq]
  simp only [ho, ne_eq, not_true_eq_false, if_false, hpre]
  refine ⟨(if ¬ v.Scheme = [] then v.Scheme ++ [ch ':'] else []) ++ pre,
    (if ¬ v.Fragment = [] then ch '#' :: v.EscapedFragment else []), ?_⟩
  simp only [List.append_assoc, List.cons_append]

theorem unescape_ne_nil (s : GoString) (mode : Encoding) (hs : s ≠ []) :
    unescape s mode ≠ .ok [] := by
  unfold unescape
  cases hc : unescapeCheck mode s with
  | some e => simp
  | none =>
    simp only [ne_eq, Except.ok.injEq]
    cases s with
    | nil => exact absurd rfl hs
    | cons c rest =>
      by_cases h1 : c = ch '%'
      · subst h1
        rcases rest with _ | ⟨x, _ | ⟨y, r⟩⟩
        · simp [unescapeCheck] at hc
        · simp [unescapeCheck] at hc
        · simp [unescapeDecode]
      · by_cases h2 : c = ch '+'
        · subst h2
          rcases rest with _ | ⟨x, _ | ⟨y, r⟩⟩ <;> simp [unescapeDecode, h1]
        · rcases rest with _ | ⟨x, _ | ⟨y, r⟩⟩ <;> simp [unescapeDecode, h1, h2]

/-- The base URL text of a parsed URL with a host, without fragment and without a
bare trailing question mark: the origin `scheme://userinfo@host`, with no `?`. -/
theorem baseURL_text_of_plain (t : GoString) (u : URL) (h : Parse t = .ok u)
    (hh : u.Host ≠ []) (hf : u.Fragment = []) (hq : u.ForceQuery = false) :
    (baseURLOf u).String = u.origin ∧ ch '?' ∉ (baseURLOf u).String := by
  have ho := (Parse_host_props t u h hh).1
  obtain ⟨hs, _, _, _⟩ := Parse_shape t u h
  have hep : (baseURLOf u).EscapedPath = [] := by
    unfold URL.EscapedPath baseURLOf
    simp only
    split
    · rename_i hc
      exact absurd hc.2.2 (unescape_ne_nil _ _ hc.1)
    · split
      · rename_i hstar
        exact absurd hstar (by decide)
      · rfl
  have heq : (baseURLOf u).String = u.origin := by
    unfold URL.String URL.hierPart
    rw [hep]
    unfold URL.origin baseURLOf
    simp [ho, hh, hf, hq, cut]
  refine ⟨heq, ?_⟩
  rw [heq]
  unfold URL.origin
  have hhost := escape_no_delims u.Host encodeHost shouldEscape_delims.2.2.2.1
    shouldEscape_delims.2.2.1
  have hsl : str "//" = [ch '/', ch '/'] := by decide
  have h1 : ch '?' ≠ ch ':' := by decide
  have h2 : ch '?' ≠ ch '/' := by decide
  have h3 : ch '?' ≠ ch '@' := by decide
  simp only [List.mem_append, not_or, hsl]
  refine ⟨⟨⟨?_, by simp [h2]⟩, ?_⟩, hhost.1⟩
  · refine not_mem_ite ?_ (by simp)
    simp only [List.mem_append, not_or, List.mem_singleton]
    exact ⟨fun hm => (hs _ hm).1 rfl, h1⟩
  · cases u.User with
    | none => simp
    | some ui =>
      simp only [List.mem_append, not_or, List.mem_singleton]
      exact ⟨(Userinfo_String_no_delims ui).1, h3⟩

/-! ## path.Clean and path.Join with /track -/

theorem RootedBuf.root : RootedBuf [ch '/'] := by
  simp [RootedBuf]

theorem RootedBuf.ne_nil {out : GoString} (h : RootedBuf out) : out ≠ [] := by
  intro e
  subst e
  simp [RootedBuf] at h

theorem RootedBuf.push {out : GoString} (h : RootedBuf out) {c : Byte} (hc : c ≠ ch '/') :
    RootedBuf (c :: out) := by
  obtain ⟨h1, h2, h3⟩ := h
  refine ⟨?_, ?_, ?_⟩
  · cases out with
    | nil => simp at h1
    | cons x xs => simpa [List.getLast?_cons_cons] using h1
  · cases out with
    | nil => simp
    | cons x xs => exact List.Chain'.cons (fun e => hc e.1) h2
  · intro e
    simp at e
    exact absurd e hc

theorem RootedBuf.startElem {out : GoString} (h : RootedBuf out) {c : Byte} (hc : c ≠ ch '/') :
    RootedBuf (c :: withSlash true out) := by
  unfold withSlash
  by_cases hl : out.length = 1
  · simp only [hl, ne_eq, not_true_eq_false, and_false, false_and, or_self, if_false]
    exact h.push hc
  · simp only [hl, ne_eq, not_false_eq_true, and_self, true_or, if_true]
    obtain ⟨h1, h2, h3⟩ := h
    refine ⟨?_, ?_, ?_⟩
    · cases out with
      | nil => simp at h1
      | cons x xs => simpa [List.getLast?_cons_cons] using h1
    · refine List.Chain'.cons (fun e => hc e.1) ?_
      cases out with
      | nil => simp
      | cons x xs =>
        refine List.Chain'.cons ?_ h2
        intro e
        exact hl (h3 (by simp [e.2]))
    · intro e
      simp at e
      exact absurd e hc

theorem RootedBuf.of_backtrack (out : GoString)
    (h1 : out.getLast? = some (ch '/'))
    (h2 : out.Chain' (fun a b => ¬ (a = ch '/' ∧ b = ch '/')))
    (hl : out.length > 1) : RootedBuf (backtrack 1 out) := by
  induction out with
  | nil => simp at hl
  | cons c rest ih =>
    have hrest : rest ≠ [] := by
      intro e
      subst e
      simp at hl
    have h1r : rest.getLast? = some (ch '/') := by
      cases rest with
      | nil => exact absurd rfl hrest
      | cons x xs => simpa [List.getLast?_cons_cons] using h1
    have h2r := h2.tail
    unfold backtrack
    by_cases hcond : rest.length > 1 ∧ c ≠ ch '/'
    · rw [if_pos hcond]
      exact ih h1r h2r hcond.1
    · rw [if_neg hcond]
      refine ⟨h1r, h2r, ?_⟩
      intro hh
      by_contra hne
      have hlen : rest.length > 1 := by
        cases rest with
        | nil => exact absurd rfl hrest
        | cons x xs =>
          cases xs with
          | nil => simp at hne
          | cons y ys => simp
      have hc : c = ch '/' := by
        by_contra hc
        exact hcond ⟨hlen, hc⟩
      cases rest with
      | nil => exact absurd rfl hrest
      | cons x xs =>
        simp at hh
        have := List.chain'_cons.mp h2
        exact this.1 ⟨hc, hh⟩

/-- One iteration of the outer loop of `Clean`, for any unread input. -/
theorem cleanLoop_false_cons (rooted : Bool) (out : GoString) (dd : Nat) (c : Byte)
    (rest : GoString) :
    cleanLoop rooted false out dd (c :: rest) =
      if c = ch '/' then cleanLoop rooted false out dd rest
      else if c = ch '.' ∧ (rest = [] ∨ rest.head? = some (ch '/')) then
        cleanLoop rooted false out dd rest
      else if c = ch '.' ∧ rest.head? = some (ch '.') ∧
          (rest.tail = [] ∨ rest.tail.head? = some (ch '/')) then
        (if out.length > dd then cleanLoop rooted false (backtrack dd out) dd rest.tail
         else if ¬ rooted then
           cleanLoop rooted false
             (ch '.' :: ch '.' :: (if out.length > 0 then ch '/' :: out else out))
             (ch '.' :: ch '.' :: (if out.length > 0 then ch '/' :: out else out)).length rest.tail
         else cleanLoop rooted false out dd rest.tail)
      else cleanLoop rooted true (c :: withSlash rooted out) dd rest := by
  cases rest with
  | nil =>
    rw [cleanLoop.eq_3]
    simp [cleanLoop]
  | cons head rest2 =>
    rw [cleanLoop.eq_4]
    rfl

theorem cleanLoop_true_cons (rooted : Bool) (out : GoString) (dd : Nat) (c : Byte)
    (rest : GoString) :
    cleanLoop rooted true out dd (c :: rest) =
      if c = ch '/' then cleanLoop rooted false out dd rest
      else cleanLoop rooted true (c :: out) dd rest := by
  rw [cleanLoop.eq_2]

/-- The buffer invariant holds for the result of the loop of `Clean` on a rooted path. -/
theorem cleanLoop_rooted_inv (inElem : Bool) (out : GoString) (dotdot : Nat) (s : GoString) :
    dotdot = 1 → RootedBuf out → RootedBuf (cleanLoop true inElem out dotdot s) := by
  induction inElem, out, dotdot, s using cleanLoop.induct true with
  | case1 m out dd => intro _ h; simpa [cleanLoop] using h
  | case2 out dd rest ih =>
    intro hd h
    rw [cleanLoop_true_cons, if_pos rfl]
    exact ih hd h
  | case3 out dd c rest hc ih =>
    intro hd h
    rw [cleanLoop_true_cons, if_neg hc]
    exact ih hd (h.push hc)
  | case4 out dd rest ih =>
    intro hd h
    rw [cleanLoop_false_cons, if_pos rfl]
    exact ih hd h
  | case5 out dd c rest hc hdot ih =>
    intro hd h
    rw [cleanLoop_false_cons, if_neg hc, if_pos hdot]
    exact ih hd h
  | case6 out dd c hc h1 h2 => simp at h2
  | case7 out dd c hc head rest2 hlen h1 h2 ih =>
    intro hd h
    rw [cleanLoop_false_cons, if_neg hc, if_neg h1, if_pos h2, if_pos hlen]
    subst hd
    exact ih rfl (RootedBuf.of_backtrack out h.1 h.2.1 hlen)
  | case8 out dd c hc head rest2 hlen hr out2 h1 h2 ih => simp at hr
  | case9 out dd c hc head rest2 hlen hr h1 h2 ih =>
    intro hd h
    rw [cleanLoop_false_cons, if_neg hc, if_neg h1, if_pos h2, if_neg hlen, if_neg hr]
    exact ih hd h
  | case10 out dd c rest hc h1 h2 ih =>
    intro hd h
    rw [cleanLoop_false_cons, if_neg hc, if_neg h1, if_neg h2]
    exact ih hd (h.startElem hc)

theorem str_track : str "/track" = [ch '/', ch 't', ch 'r', ch 'a', ch 'c', ch 'k'] := by decide

theorem str_slash_track : str "//track" = ch '/' :: str "/track" := by decide

theorem lookahead_dot (a : GoString) :
    (a ++ str "//track" = [] ∨ (a ++ str "//track").head? = some (ch '/')) ↔
      (a = [] ∨ a.head? = some (ch '/')) := by
  cases a with
  | nil => simp [str_slash_track]
  | cons x a2 => simp

theorem lookahead_dotdot (a : GoString) :
    ((a ++ str "//track").head? = some (ch '.') ∧
      ((a ++ str "//track").tail = [] ∨ (a ++ str "//track").tail.head? = some (ch '/'))) ↔
    (a.head? = some (ch '.') ∧ (a.tail = [] ∨ a.tail.head? = some (ch '/'))) := by
  have hne : ch '/' ≠ ch '.' := by decide
  cases a with
  | nil => simp [str_slash_track, hne]
  | cons x a2 =>
    cases a2 with
    | nil => simp [str_slash_track]
    | cons y a3 => simp

/-- The loop of `Clean` on the last element `/track`: the slash that goes before
an element, then `track`. -/
theorem cleanLoop_track (rooted : Bool) (out : GoString) (dd : Nat) :
    cleanLoop rooted false out dd (str "/track") =
      (str "track").reverse ++ withSlash rooted out := by
  have ht : ch 't' ≠ ch '/' := by decide
  have ht2 : ch 't' ≠ ch '.' := by decide
  have hr : ch 'r' ≠ ch '/' := by decide
  have ha : ch 'a' ≠ ch '/' := by decide
  have hc : ch 'c' ≠ ch '/' := by decide
  have hk : ch 'k' ≠ ch '/' := by decide
  have hs : (str "track").reverse = [ch 'k', ch 'c', ch 'a', ch 'r', ch 't'] := by decide
  rw [str_track, cleanLoop_false_cons, if_pos rfl, cleanLoop_false_cons, if_neg ht,
    if_neg (fun e => ht2 e.1), if_neg (fun e => ht2 e.1),
    cleanLoop_true_cons, if_neg hr, cleanLoop_true_cons, if_neg ha, cleanLoop_true_cons,
    if_neg hc, cleanLoop_true_cons, if_neg hk, cleanLoop.eq_1, hs]
  rfl

/-- The loop of `Clean` on a path followed by `//track`: the buffer it leaves for
the path alone, then the slash that goes before an element, then `track`. -/
theorem cleanLoop_append_track (rooted inElem : Bool) (out : GoString) (dotdot : Nat)
    (s : GoString) :
    cleanLoop rooted inElem out dotdot (s ++ str "//track") =
      (str "track").reverse ++ withSlash rooted (cleanLoop rooted inElem out dotdot s) := by
  induction inElem, out, dotdot, s using cleanLoop.induct rooted with
  | case1 m out dd =>
    cases m
    · rw [List.nil_append, str_slash_track, cleanLoop_false_cons, if_pos rfl, cleanLoop_track,
        cleanLoop.eq_1]
    · rw [List.nil_append, str_slash_track, cleanLoop_true_cons, if_pos rfl, cleanLoop_track,
        cleanLoop.eq_1]
  | case2 out dd rest ih =>
    rw [List.cons_append, cleanLoop_true_cons, if_pos rfl, cleanLoop_true_cons, if_pos rfl]
    exact ih
  | case3 out dd c rest hc ih =>
    rw [List.cons_append, cleanLoop_true_cons, if_neg hc, cleanLoop_true_cons, if_neg hc]
    exact ih
  | case4 out dd rest ih =>
    rw [List.cons_append, cleanLoop_false_cons, if_pos rfl, cleanLoop_false_cons, if_pos rfl]
    exact ih
  | case5 out dd c rest hc hdot ih =>
    have hdot2 : c = ch '.' ∧
        (rest ++ str "//track" = [] ∨ (rest ++ str "//track").head? = some (ch '/')) :=
      ⟨hdot.1, (lookahead_dot rest).mpr hdot.2⟩
    rw [List.cons_append, cleanLoop_false_cons, if_neg hc, if_pos hdot2, cleanLoop_false_cons,
      if_neg hc, if_pos hdot]
    exact ih
  | case6 out dd c hc h1 h2 => simp at h2
  | case7 out dd c hc head rest2 hlen h1 h2 ih =>
    have h1b : ¬ (c = ch '.' ∧ ((head :: rest2) ++ str "//track" = [] ∨
        ((head :: rest2) ++ str "//track").head? = some (ch '/'))) :=
      fun e => h1 ⟨e.1, (lookahead_dot (head :: rest2)).mp e.2⟩
    have h2b : c = ch '.' ∧ ((head :: rest2) ++ str "//track").head? = some (ch '.') ∧
        (((head :: rest2) ++ str "//track").tail = [] ∨
          ((head :: rest2) ++ str "//track").tail.head? = some (ch '/')) :=
      ⟨h2.1, (lookahead_dotdot (head :: rest2)).mpr h2.2⟩
    rw [List.cons_append, cleanLoop_false_cons, if_neg hc, if_neg h1b, if_pos h2b, if_pos hlen,
      cleanLoop_false_cons, if_neg hc, if_neg h1, if_pos h2, if_pos hlen]
    exact ih
  | case8 out dd c hc head rest2 hlen hr out2 h1 h2 ih =>
    have h1b : ¬ (c = ch '.' ∧ ((head :: rest2) ++ str "//track" = [] ∨
        ((head :: rest2) ++ str "//track").head? = some (ch '/'))) :=
      fun e => h1 ⟨e.1, (lookahead_dot (head :: rest2)).mp e.2⟩
    have h2b : c = ch '.' ∧ ((head :: rest2) ++ str "//track").head? = some (ch '.') ∧
        (((head :: rest2) ++ str "//track").tail = [] ∨
          ((head :: rest2) ++ str "//track").tail.head? = some (ch '/')) :=
      ⟨h2.1, (lookahead_dotdot (head :: rest2)).mpr h2.2⟩
    rw [List.cons_append, cleanLoop_false_cons, if_neg hc, if_neg h1b, if_pos h2b, if_neg hlen,
      if_pos hr, cleanLoop_false_cons, if_neg hc, if_neg h1, if_pos h2, if_neg hlen, if_pos hr]
    exact ih
  | case9 out dd c hc head rest2 hlen hr h1 h2 ih =>
    have h1b : ¬ (c = ch '.' ∧ ((head :: rest2) ++ str "//track" = [] ∨
        ((head :: rest2) ++ str "//track").head? = some (ch '/'))) :=
      fun e => h1 ⟨e.1, (lookahead_dot (head :: rest2)).mp e.2⟩
    have h2b : c = ch '.' ∧ ((head :: rest2) ++ str "//track").head? = some (ch '.') ∧
        (((head :: rest2) ++ str "//track").tail = [] ∨
          ((head :: rest2) ++ str "//track").tail.head? = some (ch '/')) :=
      ⟨h2.1, (lookahead_dotdot (head :: rest2)).mpr h2.2⟩
    rw [List.cons_append, cleanLoop_false_cons, if_neg hc, if_neg h1b, if_pos h2b, if_neg hlen,
      if_neg hr, cleanLoop_false_cons, if_neg hc, if_neg h1, if_pos h2, if_neg hlen, if_neg hr]
    exact ih
  | case10 out dd c rest hc h1 h2 ih =>
    have h1b : ¬ (c = ch '.' ∧ (rest ++ str "//track" = [] ∨
        (rest ++ str "//track").head? = some (ch '/'))) :=
      fun e => h1 ⟨e.1, (lookahead_dot rest).mp e.2⟩
    have h2b : ¬ (c = ch '.' ∧ (rest ++ str "//track").head? = some (ch '.') ∧
        ((rest ++ str "//track").tail = [] ∨
          (rest ++ str "//track").tail.head? = some (ch '/'))) :=
      fun e => h2 ⟨e.1, (lookahead_dotdot rest).mp e.2⟩
    rw [List.cons_append, cleanLoop_false_cons, if_neg hc, if_neg h1b, if_neg h2b,
      cleanLoop_false_cons, if_neg hc, if_neg h1, if_neg h2]
    exact ih

theorem RootedBuf.reverse_props {o : GoString} (h : RootedBuf o) :
    o.reverse.head? = some (ch '/') ∧ ¬ (str "//" <:+: o.reverse) := by
  obtain ⟨h1, h2, _⟩ := h
  refine ⟨by simpa [List.head?_reverse] using h1, ?_⟩
  intro hinf
  have hs : str "//" = [ch '/', ch '/'] := by decide
  rw [hs] at hinf
  have h3 : o.reverse.Chain' (fun a b => ¬ (a = ch '/' ∧ b = ch '/')) := by
    rw [List.chain'_reverse]
    exact h2.imp (fun a b hab e => hab ⟨e.2, e.1⟩)
  have h4 := h3.infix hinf
  simp at h4

/-- The result of `Clean` on a rooted path is the final buffer of its loop. -/
theorem Clean_rooted (rest : GoString) :
    Clean (ch '/' :: rest) = (cleanLoop true false [ch '/'] 1 rest).reverse ∧
    RootedBuf (cleanLoop true false [ch '/'] 1 rest) := by
  have hinv := cleanLoop_rooted_inv false [ch '/'] 1 rest rfl RootedBuf.root
  refine ⟨?_, hinv⟩
  have hne := hinv.ne_nil
  simp [Clean, hne]

/-- Function `path.Join` on a rooted path and `/track`: the cleaned path with
`/track` appended once; the root alone gives `/track`. -/
theorem Join_track_of_rooted (rest : GoString) :
    Join [ch '/' :: rest, str "/track"] =
      if Clean (ch '/' :: rest) = str "/" then str "/track"
      else Clean (ch '/' :: rest) ++ str "/track" := by
  have hjoin : Join [ch '/' :: rest, str "/track"] = Clean (ch '/' :: (rest ++ str "//track")) := by
    have h0 : ¬ ((rest.length + 1) + (str "/track").length = 0) := by omega
    simp [Join, h0, str_slash_track]
  obtain ⟨hc1, hinv1⟩ := Clean_rooted rest
  obtain ⟨hc2, _⟩ := Clean_rooted (rest ++ str "//track")
  have hsl : str "/" = [ch '/'] := by decide
  have htr : str "/track" = ch '/' :: str "track" := by decide
  rw [hjoin, hc2, hc1, cleanLoop_append_track true false [ch '/'] 1 rest]
  unfold withSlash
  by_cases hl : (cleanLoop true false [ch '/'] 1 rest).length = 1
  · obtain ⟨x, hx⟩ := List.length_eq_one.mp hl
    have hx2 : x = ch '/' := by
      have := hinv1.1
      rw [hx] at this
      simpa using this
    subst hx2
    simp [hx, hsl, htr]
  · have hne : ¬ (cleanLoop true false [ch '/'] 1 rest).reverse = str "/" := by
      intro e
      apply hl
      have := congrArg List.length e
      simpa [hsl] using this
    simp [hl, hne, htr]

/-- The path `path.Join(p, "/track")` for a path `p` that is empty or starts with
a slash: it starts with a slash, ends in `/track` and has no double slash. -/
theorem Join_track_props (p : GoString) (hp : p = [] ∨ p.head? = some (ch '/')) :
    (Join [p, str "/track"]).head? = some (ch '/') ∧
    str "/track" <:+ Join [p, str "/track"] ∧
    ¬ (str "//" <:+: Join [p, str "/track"]) := by
  rcases hp with rfl | hp
  · have h : Join [[], str "/track"] = str "/track" := by decide
    rw [h]
    exact ⟨by decide, List.suffix_refl _, by decide⟩
  · cases p with
    | nil => simp at hp
    | cons c rest =>
      have hc : c = ch '/' := by simpa using hp
      subst hc
      have hjoin : Join [ch '/' :: rest, str "/track"] =
          Clean (ch '/' :: (rest ++ str "//track")) := by
        have h0 : ¬ ((rest.length + 1) + (str "/track").length = 0) := by omega
        simp [Join, h0, str_slash_track]
      obtain ⟨hc2, hinv2⟩ := Clean_rooted (rest ++ str "//track")
      have hprops := hinv2.reverse_props
      refine ⟨?_, ?_, ?_⟩
      · rw [hjoin, hc2]; exact hprops.1
      · rw [Join_track_of_rooted]
        split
        · exact List.suffix_refl _
        · exact List.suffix_append _ _
      · rw [hjoin, hc2]; exact hprops.2

theorem relBuf_nil : RelBuf [] 0 := by
  simp [RelBuf]

theorem relBuf_push {out : GoString} {dd : Nat} (h : RelBuf out dd) {c : Byte}
    (hc : c ≠ ch '/') : RelBuf (c :: out) dd := by
  obtain ⟨h1, h2, h3, h4⟩ := h
  refine ⟨?_, ?_, ?_, ?_⟩
  · cases out with
    | nil => simp
    | cons x xs => exact List.Chain'.cons (fun e => hc e.1) h1
  · simpa using hc
  · simp only [List.length_cons]; omega
  · have : (c :: out).length - dd = (out.length - dd) + 1 := by
      simp only [List.length_cons]; omega
    rw [this, List.drop_succ_cons]
    exact h4

theorem relBuf_startElem {out : GoString} {dd : Nat} (h : RelBuf out dd) {c : Byte}
    (hc : c ≠ ch '/') : RelBuf (c :: withSlash false out) dd := by
  unfold withSlash
  by_cases hl : out.length = 0
  · simp only [hl, ne_eq, not_true_eq_false, and_false, false_and, or_self, if_false]
    exact relBuf_push h hc
  · simp only [hl, ne_eq, not_false_eq_true, and_true, Bool.false_eq_true, false_and,
      false_or, if_true, not_false_eq_true]
    obtain ⟨h1, h2, h3, h4⟩ := h
    refine ⟨?_, ?_, ?_, ?_⟩
    · refine List.Chain'.cons (fun e => hc e.1) ?_
      cases out with
      | nil => simp
      | cons x xs =>
        refine List.Chain'.cons ?_ h1
        intro e
        exact h2 (by simp [e.2])
    · simpa using hc
    · simp only [List.length_cons]; omega
    · have : (c :: ch '/' :: out).length - dd = (out.length - dd) + 2 := by
        simp only [List.length_cons]; omega
      rw [this, List.drop_succ_cons, List.drop_succ_cons]
      exact h4

theorem relBuf_dotdot {out : GoString} {dd : Nat} (h : RelBuf out dd) :
    RelBuf (ch '.' :: ch '.' :: (if out.length > 0 then ch '/' :: out else out))
      (ch '.' :: ch '.' :: (if out.length > 0 then ch '/' :: out else out)).length := by
  obtain ⟨h1, h2, h3, h4⟩ := h
  have hd : ch '.' ≠ ch '/' := by decide
  refine ⟨?_, by simpa using hd, le_refl _, ?_⟩
  · cases out with
    | nil =>
      simp only [List.length_nil, gt_iff_lt, lt_self_iff_false, if_false]
      exact List.Chain'.cons (fun e => hd e.1) (List.chain'_singleton _)
    | cons x xs =>
      have hx : x ≠ ch '/' := by simpa using h2
      simp only [List.length_cons, gt_iff_lt, Nat.zero_lt_succ, if_true]
      exact List.Chain'.cons (fun e => hd e.1) (List.Chain'.cons (fun e => hd e.1)
        (List.Chain'.cons (fun e => hx e.2) h1))
  · simp only [Nat.sub_self, List.drop_zero, List.head?_cons, ne_eq, Option.some.injEq]
    exact hd

theorem relBuf_of_backtrack (dd : Nat) (out : GoString)
    (h1 : out.Chain' (fun a b => ¬ (a = ch '/' ∧ b = ch '/')))
    (h3 : dd ≤ out.length) (h4 : (out.drop (out.length - dd)).head? ≠ some (ch '/'))
    (hl : out.length > dd) : RelBuf (backtrack dd out) dd := by
  induction out with
  | nil => simp at hl
  | cons c rest ih =>
    have hlen : dd ≤ rest.length := by simp only [List.length_cons] at hl; omega
    have h1r := h1.tail
    have h4r : (rest.drop (rest.length - dd)).head? ≠ some (ch '/') := by
      have : (c :: rest).length - dd = (rest.length - dd) + 1 := by
        simp only [List.length_cons]; omega
      rw [this, List.drop_succ_cons] at h4
      exact h4
    unfold backtrack
    by_cases hcond : rest.length > dd ∧ c ≠ ch '/'
    · rw [if_pos hcond]
      exact ih h1r hlen h4r hcond.1
    · rw [if_neg hcond]
      refine ⟨h1r, ?_, hlen, h4r⟩
      by_cases hlt : rest.length > dd
      · have hc : c = ch '/' := by
          by_contra hc
          exact hcond ⟨hlt, hc⟩
        intro hh
        cases rest with
        | nil => simp at hh
        | cons x xs =>
          simp at hh
          exact (List.chain'_cons.mp h1).1 ⟨hc, hh⟩
      · have heq : rest.length - dd = 0 := by omega
        rw [heq, List.drop_zero] at h4r
        exact h4r

/-- The buffer invariant holds for the result of the loop of `Clean` on a path that
is not rooted. -/
theorem cleanLoop_rel_inv (inElem : Bool) (out : GoString) (dotdot : Nat) (s : GoString) :
    RelBuf out dotdot → ∃ dd, RelBuf (cleanLoop false inElem out dotdot s) dd := by
  induction inElem, out, dotdot, s using cleanLoop.induct false with
  | case1 m out dd => intro h; exact ⟨dd, by simpa [cleanLoop] using h⟩
  | case2 out dd rest ih =>
    intro h
    rw [cleanLoop_true_cons, if_pos rfl]
    exact ih h
  | case3 out dd c rest hc ih =>
    intro h
    rw [cleanLoop_true_cons, if_neg hc]
    exact ih (relBuf_push h hc)
  | case4 out dd rest ih =>
    intro h
    rw [cleanLoop_false_cons, if_pos rfl]
    exact ih h
  | case5 out dd c rest hc hdot ih =>
    intro h
    rw [cleanLoop_false_cons, if_neg hc, if_pos hdot]
    exact ih h
  | case6 out dd c hc h1 h2 => simp at h2
  | case7 out dd c hc head rest2 hlen h1 h2 ih =>
    intro h
    rw [cleanLoop_false_cons, if_neg hc, if_neg h1, if_pos h2, if_pos hlen]
    exact ih (relBuf_of_backtrack dd out h.1 h.2.2.1 h.2.2.2 hlen)
  | case8 out dd c hc head rest2 hlen hr out2 h1 h2 ih =>
    intro h
    rw [cleanLoop_false_cons, if_neg hc, if_neg h1, if_pos h2, if_neg hlen, if_pos hr]
    exact ih (relBuf_dotdot h)
  | case9 out dd c hc head rest2 hlen hr h1 h2 ih => simp at hr
  | case10 out dd c rest hc h1 h2 ih =>
    intro h
    rw [cleanLoop_false_cons, if_neg hc, if_neg h1, if_neg h2]
    exact ih (relBuf_startElem h hc)

theorem Chain_no_double_slash {o : GoString}
    (h : o.Chain' (fun a b => ¬ (a = ch '/' ∧ b = ch '/'))) : ¬ (str "//" <:+: o.reverse) := by
  intro hinf
  have hs : str "//" = [ch '/', ch '/'] := by decide
  rw [hs] at hinf
  have h3 : o.reverse.Chain' (fun a b => ¬ (a = ch '/' ∧ b = ch '/')) := by
    rw [List.chain'_reverse]
    exact h.imp (fun a b hab e => hab ⟨e.2, e.1⟩)
  have h4 := h3.infix hinf
  simp at h4

/-- The result of `Clean` on a non-empty path that is not rooted: `.` when the loop
leaves an empty buffer, the buffer otherwise. -/
theorem Clean_unrooted (c : Byte) (rest : GoString) (hc : c ≠ ch '/') :
    Clean (c :: rest) =
      (if (cleanLoop false false [] 0 (c :: rest)).length = 0 then str "."
       else (cleanLoop false false [] 0 (c :: rest)).reverse) ∧
    ∃ dd, RelBuf (cleanLoop false false [] 0 (c :: rest)) dd := by
  refine ⟨?_, cleanLoop_rel_inv false [] 0 (c :: rest) relBuf_nil⟩
  simp [Clean, hc]

/-- No result of `Clean` has a double slash. -/
theorem Clean_no_double_slash (p : GoString) : ¬ (str "//" <:+: Clean p) := by
  cases p with
  | nil => decide
  | cons c rest =>
    by_cases hc : c = ch '/'
    · subst hc
      obtain ⟨h1, h2⟩ := Clean_rooted rest
      rw [h1]
      exact h2.reverse_props.2
    · obtain ⟨h1, dd, h2⟩ := Clean_unrooted c rest hc
      rw [h1]
      split
      · decide
      · exact Chain_no_double_slash h2.1

theorem Join_track_eq_Clean (p : GoString) (hp : p ≠ []) :
    Join [p, str "/track"] = Clean (p ++ str "//track") := by
  cases p with
  | nil => exact absurd rfl hp
  | cons c rest =>
    have h0 : ¬ ((rest.length + 1) + (str "/track").length = 0) := by omega
    simp [Join, h0, str_slash_track]

/-- Function `path.Join` on a non-empty path that `Clean` does not reduce to `.`,
and `/track`: the cleaned path with `/track` appended once; the root alone gives
`/track`. -/
theorem Join_track_eq (p : GoString) (hp : p ≠ []) (hdot : Clean p ≠ str ".") :
    Join [p, str "/track"] =
      if Clean p = str "/" then str "/track" else Clean p ++ str "/track" := by
  cases p with
  | nil => exact absurd rfl hp
  | cons c rest =>
    by_cases hc : c = ch '/'
    · subst hc
      exact Join_track_of_rooted rest
    · have hsl : str "/" = [ch '/'] := by decide
      have htr : str "/track" = ch '/' :: str "track" := by decide
      obtain ⟨h1, dd, h2⟩ := Clean_unrooted c rest hc
      have hne : ¬ (cleanLoop false false [] 0 (c :: rest)).length = 0 := by
        intro e
        rw [h1, if_pos e] at hdot
        exact hdot rfl
      have hroot : ¬ (cleanLoop false false [] 0 (c :: rest)).reverse = str "/" := by
        intro e
        have e2 : cleanLoop false false [] 0 (c :: rest) = [ch '/'] := by
          have := congrArg List.reverse e
          simpa [hsl] using this
        have := h2.2.1
        rw [e2] at this
        simp at this
      obtain ⟨h3, _⟩ := Clean_unrooted c (rest ++ str "//track") hc
      rw [Join_track_eq_Clean _ hp, List.cons_append, h3, h1, if_neg hne, if_neg hroot,
        ← List.cons_append, cleanLoop_append_track false false [] 0 (c :: rest)]
      unfold withSlash
      simp [hne, htr]

/-- The path `path.Join(p, "/track")`: it never has a double slash, and it ends in
`/track` when `p` is empty or `Clean` does not reduce `p` to `.`. -/
theorem Join_track_suffix (p : GoString) :
    ¬ (str "//" <:+: Join [p, str "/track"]) ∧
    (p = [] ∨ Clean p ≠ str "." → str "/track" <:+ Join [p, str "/track"]) := by
  by_cases hp : p = []
  · subst hp
    have h : Join [[], str "/track"] = str "/track" := by decide
    rw [h]
    exact ⟨by decide, fun _ => List.suffix_refl _⟩
  · refine ⟨?_, ?_⟩
    · rw [Join_track_eq_Clean p hp]
      exact Clean_no_double_slash _
    · intro h
      rcases h with h | h
      · exact absurd h hp
      · rw [Join_track_eq p hp h]
        split
        · exact List.suffix_refl _
        · exact List.suffix_append _ _

/-- The result of `Clean` on a rooted path is not `.`. -/
theorem Clean_rooted_ne_dot (p : GoString) (hp : p.head? = some (ch '/')) :
    Clean p ≠ str "." := by
  cases p with
  | nil => simp at hp
  | cons c rest =>
    have hc : c = ch '/' := by simpa using hp
    subst hc
    obtain ⟨h1, h2⟩ := Clean_rooted rest
    intro e
    have := h2.reverse_props.1
    rw [← h1, e] at this
    exact absurd this (by decide)

/-! ## What `url.Parse` reads from the text of a URL with a host -/

theorem getSchemeLoop_run (raw X : GoString) (mid : GoString) :
    ∀ pre : GoString, pre ≠ [] → (∀ x ∈ mid, isSchemeByte x) →
      getSchemeLoop raw pre (mid ++ ch ':' :: X) = .ok (pre ++ mid, X) := by
  induction mid with
  | nil =>
    intro pre hpre _
    have h1 : isLetter (ch ':') = false := by decide
    have h2 : ¬ (isDigit (ch ':') = true ∨ ch ':' = ch '+' ∨ ch ':' = ch '-' ∨ ch ':' = ch '.') := by
      decide
    simp [getSchemeLoop, h1, h2, hpre]
  | cons c mid ih =>
    intro pre hpre hall
    have hc := hall c (by simp)
    have hrest : ∀ x ∈ mid, isSchemeByte x := fun x hx => hall x (List.mem_cons_of_mem _ hx)
    have hne : pre ++ [c] ≠ [] := by simp
    rw [List.cons_append, getSchemeLoop]
    by_cases hl : isLetter c = true
    · rw [if_pos hl, ih _ hne hrest]
      simp
    · rw [if_neg hl]
      have hd : isDigit c = true ∨ c = ch '+' ∨ c = ch '-' ∨ c = ch '.' := by
        rcases hc with h | h
        · exact absurd h hl
        · exact h
      rw [if_pos hd, if_neg hpre, ih _ hne hrest]
      simp

/-- Function `getScheme` reads a well-formed scheme back from a text that starts
with it and a colon. -/
theorem getScheme_of_scheme (c : Byte) (cs X : GoString) (hc : isLetter c = true)
    (hcs : ∀ x ∈ cs, isSchemeByte x) :
    getScheme (c :: cs ++ ch ':' :: X) = .ok (c :: cs, X) := by
  unfold getScheme
  rw [List.cons_append, getSchemeLoop, if_pos hc]
  exact getSchemeLoop_run _ X cs [c] (by simp) hcs

theorem getSchemeLoop_first_letter (raw rest scheme rest0 : GoString)
    (h : getSchemeLoop raw [] rest = .ok (scheme, rest0)) (hne : scheme ≠ []) :
    ∃ c cs, scheme = c :: cs ∧ isLetter c = true ∧ ∀ x ∈ cs, isSchemeByte x := by
  cases rest with
  | nil =>
    simp only [getSchemeLoop, Except.ok.injEq, Prod.mk.injEq] at h
    exact absurd h.1.symm hne
  | cons c rest =>
    rw [getSchemeLoop] at h
    by_cases hl : isLetter c = true
    · rw [if_pos hl] at h
      rcases getSchemeLoop_ok _ _ _ _ _ h with ⟨h1, _⟩ | ⟨mid, h1, _, h3⟩
      · exact absurd h1 hne
      · exact ⟨c, mid, by simpa using h1, hl, h3⟩
    · rw [if_neg hl] at h
      by_cases hd : isDigit c = true ∨ c = ch '+' ∨ c = ch '-' ∨ c = ch '.'
      · rw [if_pos hd, if_pos rfl] at h
        simp only [Except.ok.injEq, Prod.mk.injEq] at h
        exact absurd h.1.symm hne
      · rw [if_neg hd] at h
        by_cases hcol : c = ch ':'
        · rw [if_pos hcol, if_pos rfl] at h
          simp at h
        · rw [if_neg hcol] at h
          simp only [Except.ok.injEq, Prod.mk.injEq] at h
          exact absurd h.1.symm hne

theorem getScheme_first_letter (raw scheme rest0 : GoString)
    (h : getScheme raw = .ok (scheme, rest0)) (hne : scheme ≠ []) :
    ∃ c cs, scheme = c :: cs ∧ isLetter c = true ∧ ∀ x ∈ cs, isSchemeByte x :=
  getSchemeLoop_first_letter raw raw scheme rest0 h hne

theorem lower_byte_props (c : Byte) :
    (if ch 'A' ≤ (if ch 'A' ≤ c ∧ c ≤ ch 'Z' then c + 32 else c) ∧
        (if ch 'A' ≤ c ∧ c ≤ ch 'Z' then c + 32 else c) ≤ ch 'Z'
      then (if ch 'A' ≤ c ∧ c ≤ ch 'Z' then c + 32 else c) + 32
      else (if ch 'A' ≤ c ∧ c ≤ ch 'Z' then c + 32 else c)) =
      (if ch 'A' ≤ c ∧ c ≤ ch 'Z' then c + 32 else c) ∧
    (isLetter c = true → isLetter (if ch 'A' ≤ c ∧ c ≤ ch 'Z' then c + 32 else c) = true) ∧
    (isSchemeByte c → isSchemeByte (if ch 'A' ≤ c ∧ c ≤ ch 'Z' then c + 32 else c)) := by
  revert c
  unfold isSchemeByte
  set_option maxRecDepth 100000 in decide

theorem toLowerASCII_idem (s : GoString) : toLowerASCII (toLowerASCII s) = toLowerASCII s := by
  unfold toLowerASCII
  rw [List.map_map]
  apply List.map_congr_left
  intro c _
  exact (lower_byte_props c).1

/-- The lower-case form of a scheme that `getScheme` returns is a scheme text. -/
theorem SchemeText_of_getScheme (raw scheme rest0 : GoString)
    (h : getScheme raw = .ok (scheme, rest0)) (hne : toLowerASCII scheme ≠ []) :
    SchemeText (toLowerASCII scheme) := by
  have hne2 : scheme ≠ [] := by
    intro e
    rw [e] at hne
    exact hne rfl
  obtain ⟨c, cs, rfl, hc, hcs⟩ := getScheme_first_letter raw scheme rest0 h hne2
  refine ⟨toLowerASCII_idem _, _, _, rfl, (lower_byte_props c).2.1 hc, ?_⟩
  intro x hx
  obtain ⟨y, hy, rfl⟩ := List.mem_map.mp hx
  exact (lower_byte_props y).2.2 (hcs y hy)

theorem setPath_parts (v u : URL) (p : GoString) (h : URL.setPath v p = .ok u) :
    u.Scheme = v.Scheme ∧ u.User = v.User ∧ u.Host = v.Host ∧
    unescape p encodePath = .ok u.Path ∧ (u.RawPath = [] ∨ u.RawPath = p) := by
  unfold URL.setPath at h
  split at h
  · simp at h
  · rename_i path hp
    simp only [Except.ok.injEq] at h
    subst h
    refine ⟨rfl, rfl, rfl, hp, ?_⟩
    simp only
    split
    · exact Or.inl rfl
    · exact Or.inr rfl

theorem setFragment_parts (v u : URL) (f : GoString) (h : URL.setFragment v f = .ok u) :
    u.Scheme = v.Scheme ∧ u.User = v.User ∧ u.Host = v.Host ∧ u.Path = v.Path ∧
    u.RawPath = v.RawPath := by
  unfold URL.setFragment at h
  split at h
  · simp at h
  · simp only [Except.ok.injEq] at h
    subst h
    exact ⟨rfl, rfl, rfl, rfl, rfl⟩

theorem isPrefixOf_slash2 (rest : GoString) (h : (str "//").isPrefixOf rest = true) :
    (str "/").isPrefixOf rest = true := by
  have h1 : str "//" = [ch '/', ch '/'] := by decide
  have h2 : str "/" = [ch '/'] := by decide
  rw [h1] at h
  rw [h2]
  rcases rest with _ | ⟨a, _ | ⟨b, r⟩⟩ <;> simp_all [List.isPrefixOf]

/-- The parts of the text from which `parseRest` fills the authority and the path
of the URL it returns. -/
theorem parseRest_parts (u0 : URL) (rest : GoString) (u : URL)
    (h0 : u0.Host = [] ∧ u0.User = none ∧ u0.Path = [] ∧ u0.RawPath = [])
    (h : parseRest u0 rest = .ok u) :
    u.Scheme = u0.Scheme ∧
    (if (u0.Scheme ≠ [] ∨ ¬ (str "///").isPrefixOf rest) ∧ (str "//").isPrefixOf rest then
       parseAuthority (cut (ch '/') (rest.drop 2)).1 = .ok (u.User, u.Host)
     else u.User = none ∧ u.Host = []) ∧
    unescape (if ¬ (str "/").isPrefixOf rest ∧ u0.Scheme ≠ [] then []
      else if (u0.Scheme ≠ [] ∨ ¬ (str "///").isPrefixOf rest) ∧ (str "//").isPrefixOf rest then
        (if (cut (ch '/') (rest.drop 2)).2.2 then ch '/' :: (cut (ch '/') (rest.drop 2)).2.1
         else [])
      else rest) encodePath = .ok u.Path ∧
    (u.Host ≠ [] → u.RawPath = [] ∨ u.RawPath.head? = some (ch '/')) := by
  obtain ⟨h01, h02, h03, h04⟩ := h0
  unfold parseRest at h
  by_cases c1 : ¬ (str "/").isPrefixOf rest ∧ u0.Scheme ≠ []
  · rw [if_pos c1] at h
    simp only [Except.ok.injEq] at h
    subst h
    have c3 : ¬ ((u0.Scheme ≠ [] ∨ ¬ (str "///").isPrefixOf rest) ∧
        (str "//").isPrefixOf rest) := fun hc => c1.1 (isPrefixOf_slash2 _ hc.2)
    rw [if_neg c3, if_pos c1]
    exact ⟨rfl, ⟨h02, h01⟩, by rw [h03]; rfl, fun hh => absurd h01 hh⟩
  · rw [if_neg c1] at h
    by_cases c2 : ¬ (str "/").isPrefixOf rest ∧ ch ':' ∈ (cut (ch '/') rest).1
    · rw [if_pos c2] at h
      simp at h
    · rw [if_neg c2] at h
      by_cases c3 : (u0.Scheme ≠ [] ∨ ¬ (str "///").isPrefixOf rest) ∧
          (str "//").isPrefixOf rest
      · rw [if_pos c3] at h
        rw [if_pos c3, if_neg c1, if_pos c3]
        simp only at h
        split at h
        · simp at h
        · rename_i user host hauth
          obtain ⟨hs, hu, hh, hp, hr⟩ := setPath_parts _ _ _ h
          simp only at hs hu hh
          refine ⟨hs, ?_, hp, ?_⟩
          · rw [hu, hh]
            exact hauth
          · intro _
            rcases hr with hr | hr
            · exact Or.inl hr
            · rw [hr]
              split
              · exact Or.inr rfl
              · exact Or.inl rfl
      · rw [if_neg c3] at h
        rw [if_neg c3, if_neg c1, if_neg c3]
        by_cases c4 : u0.Scheme ≠ [] ∧ (str "/").isPrefixOf rest
        · rw [if_pos c4] at h
          obtain ⟨hs, hu, hh, hp, hr⟩ := setPath_parts _ _ _ h
          simp only at hs hu hh
          exact ⟨hs, ⟨hu.trans h02, hh.trans h01⟩, hp, fun hne => absurd (hh.trans h01) hne⟩
        · rw [if_neg c4] at h
          obtain ⟨hs, hu, hh, hp, hr⟩ := setPath_parts _ _ _ h
          exact ⟨hs, ⟨hu.trans h02, hh.trans h01⟩, hp, fun hne => absurd (hh.trans h01) hne⟩

theorem parse_parts (r : GoString) (u : URL) (h : parse r = .ok u) :
    (∃ scheme rest0, getScheme r = .ok (scheme, rest0) ∧ u.Scheme = toLowerASCII scheme ∧
      (if (u.Scheme ≠ [] ∨ ¬ (str "///").isPrefixOf (cut (ch '?') rest0).1) ∧
          (str "//").isPrefixOf (cut (ch '?') rest0).1 then
         parseAuthority (cut (ch '/') ((cut (ch '?') rest0).1.drop 2)).1 = .ok (u.User, u.Host)
       else u.User = none ∧ u.Host = []) ∧
      unescape (if ¬ (str "/").isPrefixOf (cut (ch '?') rest0).1 ∧ u.Scheme ≠ [] then []
        else if (u.Scheme ≠ [] ∨ ¬ (str "///").isPrefixOf (cut (ch '?') rest0).1) ∧
            (str "//").isPrefixOf (cut (ch '?') rest0).1 then
          (if (cut (ch '/') ((cut (ch '?') rest0).1.drop 2)).2.2 then
            ch '/' :: (cut (ch '/') ((cut (ch '?') rest0).1.drop 2)).2.1
           else [])
        else (cut (ch '?') rest0).1) encodePath = .ok u.Path) ∧
    (u.Host ≠ [] → u.RawPath = [] ∨ u.RawPath.head? = some (ch '/')) := by
  unfold parse at h
  split at h
  · simp at h
  · split at h
    · rename_i hstar
      simp only [Except.ok.injEq] at h
      subst h
      subst hstar
      refine ⟨⟨[], str "*", by decide, by decide, by decide, by decide⟩, ?_⟩
      intro hh
      exact absurd rfl hh
    · split at h
      · simp at h
      · rename_i scheme rest0 hgs
        simp only at h
        obtain ⟨hq1, hq2⟩ := cut_question rest0
        rw [hq1, hq2] at h
        obtain ⟨hs, ha, hp, hr⟩ := parseRest_parts _ _ _ ⟨rfl, rfl, rfl, rfl⟩ h
        simp only at hs ha hp
        rw [← hs] at ha hp
        exact ⟨⟨scheme, rest0, hgs, hs, ha, hp⟩, hr⟩

/-- What `url.Parse` reads from a URL text: the scheme is `schemeOf`, user and host
are `parseAuthority` of `authorityOf`, and the path is `rawPathOf` decoded. -/
theorem Parse_parts (s : GoString) (u : URL) (h : Parse s = .ok u) :
    u.Scheme = schemeOf s ∧
    (∀ a, authorityOf s = some a → parseAuthority a = .ok (u.User, u.Host)) ∧
    (authorityOf s = none → u.User = none ∧ u.Host = []) ∧
    unescape (rawPathOf s) encodePath = .ok u.Path ∧
    (u.Host ≠ [] → u.RawPath = [] ∨ u.RawPath.head? = some (ch '/')) ∧
    (u.Scheme = [] ∨ SchemeText u.Scheme) := by
  have key : ∀ url, parse (cut (ch '#') s).1 = .ok url →
      url.Scheme = schemeOf s ∧
      (∀ a, authorityOf s = some a → parseAuthority a = .ok (url.User, url.Host)) ∧
      (authorityOf s = none → url.User = none ∧ url.Host = []) ∧
      unescape (rawPathOf s) encodePath = .ok url.Path ∧
      (url.Host ≠ [] → url.RawPath = [] ∨ url.RawPath.head? = some (ch '/')) ∧
      (url.Scheme = [] ∨ SchemeText url.Scheme) := by
    intro url hp
    obtain ⟨⟨scheme, rest0, hgs, hs, ha, hpath⟩, hr⟩ := parse_parts _ url hp
    have hsch : schemeOf s = url.Scheme := by
      unfold schemeOf
      rw [hgs, hs]
    have hhier : hierOf s = (cut (ch '?') rest0).1 := by
      unfold hierOf
      rw [hgs]
    refine ⟨hsch.symm, ?_, ?_, ?_, hr, ?_⟩
    · intro a hauth
      unfold authorityOf at hauth
      rw [hsch, hhier] at hauth
      split at hauth
      · rename_i hc
        rw [if_pos hc] at ha
        simp only [Option.some.injEq] at hauth
        rw [← hauth]
        exact ha
      · simp at hauth
    · intro hauth
      unfold authorityOf at hauth
      rw [hsch, hhier] at hauth
      split at hauth
      · simp at hauth
      · rename_i hc
        rw [if_neg hc] at ha
        exact ha
    · unfold rawPathOf
      rw [hsch, hhier]
      exact hpath
    · by_cases hne : url.Scheme = []
      · exact Or.inl hne
      · right
        rw [hs] at hne ⊢
        exact SchemeText_of_getScheme _ scheme rest0 hgs hne
  unfold Parse at h
  simp only at h
  split at h
  · simp at h
  · rename_i url hp
    split at h
    · simp only [Except.ok.injEq] at h
      subst h
      exact key _ hp
    · split at h
      · simp at h
      · rename_i url2 hf
        simp only [Except.ok.injEq] at h
        subst h
        obtain ⟨h1, h2, h3, h4, h5⟩ := setFragment_parts _ _ _ hf
        rw [h1, h2, h3, h4, h5]
        exact key _ hp


theorem upperhex_not_slash (c : Byte) :
    upperhex (c.val / 16) ≠ ch '/' ∧ upperhex (c.val % 16) ≠ ch '/' := by
  revert c
  set_option maxRecDepth 100000 in decide

/-- The authority that `URL.String` writes holds no `/`, no `?` and no `#`. -/
theorem authority_no_delims (v : URL) :
    ch '/' ∉ v.authority ∧ ch '?' ∉ v.authority ∧ ch '#' ∉ v.authority := by
  have hslash : ∀ (s : GoString) (mode : Encoding), shouldEscape (ch '/') mode = true →
      ch '/' ∉ escape s mode := fun s mode hm =>
    escape_not_mem s mode _ hm (by decide) (by decide) upperhex_not_slash
  have hhost := escape_no_delims v.Host encodeHost shouldEscape_delims.2.2.2.1
    shouldEscape_delims.2.2.1
  have hhs := hslash v.Host encodeHost (by decide)
  unfold URL.authority
  cases v.User with
  | none =>
    simp only [List.nil_append]
    exact ⟨hhs, hhost.1, hhost.2⟩
  | some ui =>
    have hu := Userinfo_String_no_delims ui
    have hus : ch '/' ∉ ui.String := by
      unfold Userinfo.String
      simp only [List.mem_append, not_or]
      refine ⟨hslash _ _ (by decide), not_mem_ite ?_ (by simp)⟩
      simp only [List.mem_cons, not_or]
      exact ⟨by decide, hslash _ _ (by decide)⟩
    simp only [List.mem_append, List.mem_singleton, not_or]
    exact ⟨⟨⟨hus, by decide⟩, hhs⟩, ⟨⟨hu.1, by decide⟩, hhost.1⟩, ⟨⟨hu.2, by decide⟩, hhost.2⟩⟩

theorem escape_ne_nil (s : GoString) (mode : Encoding) (h : s ≠ []) : escape s mode ≠ [] := by
  cases s with
  | nil => exact absurd rfl h
  | cons c s =>
    rw [escape_cons]
    split
    · simp
    · split <;> simp

theorem authority_ne_nil (v : URL) (hh : v.Host ≠ []) : v.authority ≠ [] := by
  unfold URL.authority
  simp [escape_ne_nil _ encodeHost hh]

theorem origin_eq (v : URL) :
    v.origin = (if v.Scheme ≠ [] then v.Scheme ++ [ch ':'] else []) ++
      ch '/' :: ch '/' :: v.authority := by
  have hs : str "//" = [ch '/', ch '/'] := by decide
  unfold URL.origin URL.authority
  rw [hs]
  simp only [List.append_assoc, List.cons_append, List.nil_append]

/-- The escaped path of a URL is empty or starts with a slash when that holds for
its `Path` and its `RawPath`. -/
theorem EscapedPath_rooted (v : URL)
    (hp : v.Path = [] ∨ v.Path.head? = some (ch '/'))
    (hr : v.RawPath = [] ∨ v.RawPath.head? = some (ch '/')) :
    v.EscapedPath = [] ∨ v.EscapedPath.head? = some (ch '/') := by
  unfold URL.EscapedPath
  split
  · rename_i h
    rcases hr with hr | hr
    · exact absurd hr h.1
    · exact Or.inr hr
  · split
    · rename_i hstar
      rw [hstar] at hp
      rcases hp with hp | hp
      · exact absurd hp (by decide)
      · exact absurd hp (by decide)
    · rcases hp with hp | hp
      · rw [hp]
        exact Or.inl rfl
      · cases hpath : v.Path with
        | nil => exact Or.inl rfl
        | cons c p =>
          rw [hpath] at hp
          simp only [List.head?_cons, Option.some.injEq] at hp
          subst hp
          right
          rw [escape_cons]
          have h1 : shouldEscape (ch '/') encodePath = false := by decide
          have h2 : ¬ (ch '/' = ch ' ' ∧ encodePath = encodeQueryComponent) := by decide
          rw [if_neg h2, h1]
          rfl

theorem hier_split (A EP : GoString) (hA : A ≠ []) (hAs : ch '/' ∉ A)
    (hep : EP = [] ∨ EP.head? = some (ch '/')) :
    (str "/").isPrefixOf (ch '/' :: ch '/' :: (A ++ EP)) = true ∧
    (str "//").isPrefixOf (ch '/' :: ch '/' :: (A ++ EP)) = true ∧
    (str "///").isPrefixOf (ch '/' :: ch '/' :: (A ++ EP)) = false ∧
    (cut (ch '/') ((ch '/' :: ch '/' :: (A ++ EP)).drop 2)).1 = A ∧
    (if (cut (ch '/') ((ch '/' :: ch '/' :: (A ++ EP)).drop 2)).2.2 then
      ch '/' :: (cut (ch '/') ((ch '/' :: ch '/' :: (A ++ EP)).drop 2)).2.1 else []) = EP := by
  have h1 : str "/" = [ch '/'] := by decide
  have h2 : str "//" = [ch '/', ch '/'] := by decide
  have h3 : str "///" = [ch '/', ch '/', ch '/'] := by decide
  have hdrop : (ch '/' :: ch '/' :: (A ++ EP)).drop 2 = A ++ EP := rfl
  rw [h1, h2, h3, hdrop, cut_append_left _ _ _ hAs]
  refine ⟨by simp [List.isPrefixOf], by simp [List.isPrefixOf], ?_, ?_, ?_⟩
  · cases A with
    | nil => exact absurd rfl hA
    | cons a as =>
      have ha : a ≠ ch '/' := fun e => hAs (by simp [e])
      simp [List.isPrefixOf, ha.symm]
  · rcases hep with hep | hep
    · subst hep
      simp [cut]
    · cases EP with
      | nil => simp [cut]
      | cons c e =>
        simp only [List.head?_cons, Option.some.injEq] at hep
        subst hep
        simp [cut]
  · rcases hep with hep | hep
    · subst hep
      simp [cut]
    · cases EP with
      | nil => simp [cut]
      | cons c e =>
        simp only [List.head?_cons, Option.some.injEq] at hep
        subst hep
        simp [cut]

theorem SchemeText_no_delims (s : GoString) (h : s = [] ∨ SchemeText s) (x : Byte)
    (hx : x = ch '?' ∨ x = ch '#') : x ∉ s := by
  rcases h with h | ⟨_, c, cs, rfl, hc, hcs⟩
  · rw [h]
    simp
  · intro hm
    have hb : isSchemeByte x := by
      rcases List.mem_cons.mp hm with e | hm
      · rw [e]
        exact Or.inl hc
      · exact hcs x hm
    have := isSchemeByte_props x hb
    rcases hx with e | e
    · exact this.1 e
    · exact this.2.1 e

/-- The text of a URL that has a host and no opaque part, and what `url.Parse`
reads back from it: the text is the origin `scheme://userinfo@host`, the escaped
path, the query and the fragment; its scheme is the scheme of the URL, its
authority is the authority written, and its path is the escaped path. -/
theorem host_text (v : URL) (ho : v.Opaque = []) (hh : v.Host ≠ [])
    (hs : v.Scheme = [] ∨ SchemeText v.Scheme)
    (hep : v.EscapedPath = [] ∨ v.EscapedPath.head? = some (ch '/'))
    (hq : ch '#' ∉ v.RawQuery) :
    v.String = v.origin ++ v.EscapedPath ++
      (if v.ForceQuery ∨ v.RawQuery ≠ [] then ch '?' :: v.RawQuery else []) ++
      v.fragmentText ∧
    schemeOf v.String = v.Scheme ∧
    authorityOf v.String = some v.authority ∧
    rawPathOf v.String = v.EscapedPath := by
  have hstr : v.String = v.origin ++ v.EscapedPath ++
      (if v.ForceQuery ∨ v.RawQuery ≠ [] then ch '?' :: v.RawQuery else []) ++
      v.fragmentText := by
    have hsl : str "//" = [ch '/', ch '/'] := by decide
    unfold URL.String URL.hierPart URL.origin URL.fragmentText
    rcases hep with hep | hep
    · rw [hep]
      simp [ho, hh, hsl, cut]
    · cases hpath : v.EscapedPath with
      | nil => simp [ho, hh, hsl, cut]
      | cons c e =>
        rw [hpath] at hep
        simp only [List.head?_cons, Option.some.injEq] at hep
        subst hep
        simp [ho, hh, hsl, cut]
  refine ⟨hstr, ?_⟩
  obtain ⟨hA1, hA2, hA3⟩ := authority_no_delims v
  have hAne := authority_ne_nil v hh
  obtain ⟨hE1, hE2⟩ := EscapedPath_no_delims v
  obtain ⟨hp1, hp2, hp3, hp4, hp5⟩ := hier_split v.authority v.EscapedPath hAne hA1 hep
  rw [hstr, origin_eq]
  generalize hQ : (if v.ForceQuery ∨ v.RawQuery ≠ [] then ch '?' :: v.RawQuery else []) = Q
  generalize v.authority = A at *
  generalize v.EscapedPath = EP at *
  -- the text before the fragment
  have hQhash : ch '#' ∉ Q := by
    rw [← hQ]
    refine not_mem_ite ?_ (by simp)
    simp only [List.mem_cons, not_or]
    exact ⟨by decide, hq⟩
  have hHq : ch '?' ∉ ch '/' :: ch '/' :: (A ++ EP) := by
    simp only [List.mem_cons, List.mem_append, not_or]
    exact ⟨by decide, by decide, hA2, hE1⟩
  have hHh : ch '#' ∉ ch '/' :: ch '/' :: (A ++ EP) := by
    simp only [List.mem_cons, List.mem_append, not_or]
    exact ⟨by decide, by decide, hA3, hE2⟩
  have hcutQ : (cut (ch '?') (ch '/' :: ch '/' :: (A ++ EP) ++ Q)).1 =
      ch '/' :: ch '/' :: (A ++ EP) := by
    rw [← hQ]
    split
    · rw [cut_append_of_not_mem _ _ _ hHq]
    · rw [List.append_nil, cut_of_not_mem _ _ hHq]
  have hSh : ch '#' ∉ (if v.Scheme ≠ [] then v.Scheme ++ [ch ':'] else []) := by
    refine not_mem_ite ?_ (by simp)
    simp only [List.mem_append, List.mem_singleton, not_or]
    exact ⟨SchemeText_no_delims _ hs _ (Or.inr rfl), by decide⟩
  have hT0 : (cut (ch '#') ((if v.Scheme ≠ [] then v.Scheme ++ [ch ':'] else []) ++
      ch '/' :: ch '/' :: A ++ EP ++ Q ++ v.fragmentText)).1 =
      (if v.Scheme ≠ [] then v.Scheme ++ [ch ':'] else []) ++
        (ch '/' :: ch '/' :: (A ++ EP) ++ Q) := by
    have hno : ch '#' ∉ (if v.Scheme ≠ [] then v.Scheme ++ [ch ':'] else []) ++
        (ch '/' :: ch '/' :: (A ++ EP) ++ Q) := by
      simp only [List.mem_append, not_or] at hHh ⊢
      exact ⟨hSh, ⟨hHh, hQhash⟩⟩
    have hre : (if v.Scheme ≠ [] then v.Scheme ++ [ch ':'] else []) ++
        ch '/' :: ch '/' :: A ++ EP ++ Q ++ v.fragmentText =
        ((if v.Scheme ≠ [] then v.Scheme ++ [ch ':'] else []) ++
          (ch '/' :: ch '/' :: (A ++ EP) ++ Q)) ++ v.fragmentText := by
      simp only [List.append_assoc, List.cons_append]
    rw [hre]
    unfold URL.fragmentText
    by_cases hf : v.Fragment ≠ []
    · rw [if_pos hf, cut_append_of_not_mem _ _ _ hno]
    · rw [if_neg hf, List.append_nil, cut_of_not_mem _ _ hno]
  have hgs : ∃ scheme, getScheme ((if v.Scheme ≠ [] then v.Scheme ++ [ch ':'] else []) ++
      (ch '/' :: ch '/' :: (A ++ EP) ++ Q)) =
      .ok (scheme, ch '/' :: ch '/' :: (A ++ EP) ++ Q) ∧ toLowerASCII scheme = v.Scheme := by
    rcases hs with hs | ⟨hlow, c, cs, hcs, hc, hall⟩
    · refine ⟨[], ?_, by rw [hs]; rfl⟩
      have h1 : isLetter (ch '/') = false := by decide
      have h2 : ¬ (isDigit (ch '/') = true ∨ ch '/' = ch '+' ∨ ch '/' = ch '-' ∨
          ch '/' = ch '.') := by decide
      have h3 : ch '/' ≠ ch ':' := by decide
      simp [hs, getScheme, getSchemeLoop, h1, h2, h3]
    · refine ⟨v.Scheme, ?_, hlow⟩
      have hne : v.Scheme ≠ [] := by rw [hcs]; simp
      rw [if_pos hne, hcs]
      have := getScheme_of_scheme c cs (ch '/' :: ch '/' :: (A ++ EP) ++ Q) hc hall
      simpa using this
  obtain ⟨scheme, hgs, hlow⟩ := hgs
  have hsch : schemeOf ((if v.Scheme ≠ [] then v.Scheme ++ [ch ':'] else []) ++
      ch '/' :: ch '/' :: A ++ EP ++ Q ++ v.fragmentText) = v.Scheme := by
    unfold schemeOf
    rw [hT0, hgs]
    exact hlow
  have hhier : hierOf ((if v.Scheme ≠ [] then v.Scheme ++ [ch ':'] else []) ++
      ch '/' :: ch '/' :: A ++ EP ++ Q ++ v.fragmentText) = ch '/' :: ch '/' :: (A ++ EP) := by
    unfold hierOf
    rw [hT0, hgs]
    exact hcutQ
  refine ⟨hsch, ?_, ?_⟩
  · unfold authorityOf
    rw [hsch, hhier, hp2, hp3, hp4]
    simp
  · unfold rawPathOf
    rw [hsch, hhier, hp1, hp2, hp3, hp5]
    simp

theorem baseURL_EscapedPath (u : URL) : (baseURLOf u).EscapedPath = [] := by
  unfold URL.EscapedPath baseURLOf
  simp only
  split
  · rename_i hc
    exact absurd hc.2.2 (unescape_ne_nil _ _ hc.1)
  · split
    · rename_i hstar
      exact absurd hstar (by decide)
    · rfl

/-- The text of the base URL built from a rendered URL with a host, and what
`url.Parse` reads from it. -/
theorem base_host_text (t : GoString) (u : URL) (h : Parse t = .ok u) (hh : u.Host ≠ []) :
    (baseURLOf u).String =
      u.origin ++ (if u.ForceQuery then [ch '?'] else []) ++ u.fragmentText ∧
    schemeOf (baseURLOf u).String = u.Scheme ∧
    authorityOf (baseURLOf u).String = some u.authority ∧
    rawPathOf (baseURLOf u).String = [] := by
  have ho := (Parse_host_props t u h hh).1
  have hs := (Parse_parts t u h).2.2.2.2.2
  have hep := baseURL_EscapedPath u
  obtain ⟨h1, h2, h3, h4⟩ := host_text (baseURLOf u) ho hh hs (Or.inl hep) (by simp [baseURLOf])
  rw [hep] at h1 h4
  refine ⟨?_, h2, h3, h4⟩
  rw [h1]
  show u.origin ++ [] ++ (if u.ForceQuery = true ∨ ([] : GoString) ≠ [] then [ch '?'] else []) ++
    u.fragmentText = _
  simp

/-- The text of the landing URL built from a rendered URL with a host, and what
`url.Parse` reads from it. -/
theorem landing_host_text (d : Deps) (t : GoString) (u : URL) (rid : GoString)
    (h : Parse t = .ok u) (hh : u.Host ≠ []) :
    (phishURLOf d u rid).String =
      u.origin ++ u.EscapedPath ++ ch '?' :: (u.Query.Set d.RecipientParameter rid).Encode ++
        u.fragmentText ∧
    schemeOf (phishURLOf d u rid).String = u.Scheme ∧
    authorityOf (phishURLOf d u rid).String = some u.authority ∧
    rawPathOf (phishURLOf d u rid).String = u.EscapedPath := by
  obtain ⟨ho, hp⟩ := Parse_host_props t u h hh
  have hparts := Parse_parts t u h
  have hep : (phishURLOf d u rid).EscapedPath = [] ∨
      (phishURLOf d u rid).EscapedPath.head? = some (ch '/') :=
    EscapedPath_rooted (phishURLOf d u rid) hp (hparts.2.2.2.2.1 hh)
  obtain ⟨h1, h2, h3, h4⟩ := host_text (phishURLOf d u rid) ho hh hparts.2.2.2.2.2 hep
    (Encode_no_hash _)
  refine ⟨?_, h2, h3, h4⟩
  rw [h1]
  show u.origin ++ u.EscapedPath ++
    (if u.ForceQuery = true ∨ (u.Query.Set d.RecipientParameter rid).Encode ≠ [] then
      ch '?' :: (u.Query.Set d.RecipientParameter rid).Encode else []) ++ u.fragmentText = _
  rw [if_pos (Or.inr (encoded_query_ne_nil d u rid))]

/-- The text of the tracking URL built from a rendered URL with a host, and what
`url.Parse` reads from it. -/
theorem tracking_host_text (d : Deps) (t : GoString) (u : URL) (rid : GoString)
    (h : Parse t = .ok u) (hh : u.Host ≠ []) :
    (trackingURLOf d u rid).String =
      u.origin ++ (trackingURLOf d u rid).EscapedPath ++
        ch '?' :: (u.Query.Set d.RecipientParameter rid).Encode ++ u.fragmentText ∧
    schemeOf (trackingURLOf d u rid).String = u.Scheme ∧
    authorityOf (trackingURLOf d u rid).String = some u.authority ∧
    rawPathOf (trackingURLOf d u rid).String = (trackingURLOf d u rid).EscapedPath := by
  obtain ⟨ho, hp⟩ := Parse_host_props t u h hh
  have hparts := Parse_parts t u h
  have hep : (trackingURLOf d u rid).EscapedPath = [] ∨
      (trackingURLOf d u rid).EscapedPath.head? = some (ch '/') :=
    EscapedPath_rooted (trackingURLOf d u rid) (Or.inr (Join_track_props u.Path hp).1)
      (hparts.2.2.2.2.1 hh)
  obtain ⟨h1, h2, h3, h4⟩ := host_text (trackingURLOf d u rid) ho hh hparts.2.2.2.2.2 hep
    (Encode_no_hash _)
  refine ⟨?_, h2, h3, h4⟩
  rw [h1]
  show u.origin ++ (trackingURLOf d u rid).EscapedPath ++
    (if u.ForceQuery = true ∨ (u.Query.Set d.RecipientParameter rid).Encode ≠ [] then
      ch '?' :: (u.Query.Set d.RecipientParameter rid).Encode else []) ++ u.fragmentText = _
  rw [if_pos (Or.inr (encoded_query_ne_nil d u rid))]

/-! ## The claims -/

/-- The context `ValidateTemplate` obtains with the sample collaborators. -/
theorem validation_build :
    NewPhishingTemplateContext sampleDeps validationVC.toTemplateContext
      validationRecipient validationRId =
    ({ From := str "foo@bar.com",
       URL := str "http://example.com?rid=123456",
       Tracker :=
         str "<img alt='' style='display: none' src='http://example.com/track?rid=123456'/>",
       TrackingURL := str "http://example.com/track?rid=123456",
       RId := str "123456",
       BaseURL := str "http://example.com",
       QRCode := str "<img src='cid:qr.png'>",
       QRFile := str "aHR0cDovL2V4YW1wbGUuY29tP3JpZD0xMjM0NTY=",
       toBaseRecipient := validationRecipient }, none) := by
  set_option maxRecDepth 100000 in decide

/-- The steps of the build for the base URL `http://example.com/a/?x=1&rid=old`
and the token `t k`. -/
theorem sample_steps :
    BuildSteps sampleDeps (sampleConfig "http://example.com/a/?x=1&rid=old")
      validationRecipient (str "t k")
      ⟨str "Foo Bar", str "foo@bar.com"⟩ (str "http://example.com/a/?x=1&rid=old") sampleURL
      (str "http://example.com/a/?rid=t+k&x=1") := by
  set_option maxRecDepth 100000 in
  exact ⟨by decide, by decide, by decide, by decide⟩

/-- C1 (counterexample): the rendered base URL `http:/%2Fevil.com/x y` parses to a
URL without a host whose path is `//evil.com/x y`, and the build succeeds. The
returned `BaseURL` is `http:` and the returned `TrackingURL` is
`http:/evil.com/x%20y/track?rid=t`, both without a host, while the returned `URL` is
`http://evil.com/x%20y?rid=t`, from which `url.Parse` reads the host `evil.com`. -/
theorem C1_hostless_counterexample :
    Parse (str "http:/%2Fevil.com/x y") =
      .ok { Scheme := str "http", Path := str "//evil.com/x y",
            RawPath := str "/%2Fevil.com/x y", OmitHost := true } ∧
    (NewPhishingTemplateContext sampleDeps (sampleConfig "http:/%2Fevil.com/x y")
      validationRecipient (str "t")).2 = none ∧
    (NewPhishingTemplateContext sampleDeps (sampleConfig "http:/%2Fevil.com/x y")
      validationRecipient (str "t")).1.BaseURL = str "http:" ∧
    (NewPhishingTemplateContext sampleDeps (sampleConfig "http:/%2Fevil.com/x y")
      validationRecipient (str "t")).1.URL = str "http://evil.com/x%20y?rid=t" ∧
    (NewPhishingTemplateContext sampleDeps (sampleConfig "http:/%2Fevil.com/x y")
      validationRecipient (str "t")).1.TrackingURL = str "http:/evil.com/x%20y/track?rid=t" ∧
    Parse (str "http:") = .ok { Scheme := str "http" } ∧
    Parse (str "http://evil.com/x%20y?rid=t") =
      .ok { Scheme := str "http", Host := str "evil.com", Path := str "/x y",
            RawQuery := str "rid=t" } ∧
    Parse (str "http:/evil.com/x%20y/track?rid=t") =
      .ok { Scheme := str "http", Path := str "/evil.com/x y/track", OmitHost := true,
            RawQuery := str "rid=t" } ∧
    authorityOf (str "http:") = none ∧
    authorityOf (str "http://evil.com/x%20y?rid=t") = some (str "evil.com") ∧
    authorityOf (str "http:/evil.com/x%20y/track?rid=t") = none := by
  set_option maxRecDepth 100000 in decide

/-- C1 (amended): in every successful build the query of the returned `URL` text
equals the query of the returned `TrackingURL` text, and reading the recipient
parameter back from either gives the token passed in, whatever bytes it contains;
so does `Query().Get` on any URL that `url.Parse` returns for either text. When the
rendered base URL has a host, the three returned texts `BaseURL`, `URL` and
`TrackingURL` have the same scheme and the same authority as `url.Parse` reads them
from the text, namely the scheme and the `userinfo@host` of the rendered URL; each
text starts with the same `scheme://userinfo@host`; and any three URLs that
`url.Parse` returns for the three texts agree in `Scheme` and `Host`. -/
theorem C1_urls_share_host_and_token (d : Deps) (cfg : TemplateContext) (r : BaseRecipient)
    (rid : GoString) (f : Address) (t : GoString) (u : URL) (png : List Byte)
    (h : BuildSteps d cfg r rid f t u png) :
    rawQueryOf (NewPhishingTemplateContext d cfg r rid).1.URL =
      rawQueryOf (NewPhishingTemplateContext d cfg r rid).1.TrackingURL ∧
    (parseQuery (rawQueryOf (NewPhishingTemplateContext d cfg r rid).1.URL)).Get
      d.RecipientParameter = rid ∧
    (parseQuery (rawQueryOf (NewPhishingTemplateContext d cfg r rid).1.TrackingURL)).Get
      d.RecipientParameter = rid ∧
    (∀ v, Parse (NewPhishingTemplateContext d cfg r rid).1.URL = .ok v →
      v.Query.Get d.RecipientParameter = rid) ∧
    (∀ v, Parse (NewPhishingTemplateContext d cfg r rid).1.TrackingURL = .ok v →
      v.Query.Get d.RecipientParameter = rid) ∧
    (u.Host ≠ [] →
      (schemeOf (NewPhishingTemplateContext d cfg r rid).1.BaseURL = u.Scheme ∧
        schemeOf (NewPhishingTemplateContext d cfg r rid).1.URL = u.Scheme ∧
        schemeOf (NewPhishingTemplateContext d cfg r rid).1.TrackingURL = u.Scheme) ∧
      (authorityOf (NewPhishingTemplateContext d cfg r rid).1.BaseURL = some u.authority ∧
        authorityOf (NewPhishingTemplateContext d cfg r rid).1.URL = some u.authority ∧
        authorityOf (NewPhishingTemplateContext d cfg r rid).1.TrackingURL =
          some u.authority) ∧
      (u.origin <+: (NewPhishingTemplateContext d cfg r rid).1.BaseURL ∧
        u.origin <+: (NewPhishingTemplateContext d cfg r rid).1.URL ∧
        u.origin <+: (NewPhishingTemplateContext d cfg r rid).1.TrackingURL) ∧
      (∀ vb vl vt, Parse (NewPhishingTemplateContext d cfg r rid).1.BaseURL = .ok vb →
        Parse (NewPhishingTemplateContext d cfg r rid).1.URL = .ok vl →
        Parse (NewPhishingTemplateContext d cfg r rid).1.TrackingURL = .ok vt →
        (vl.Scheme = vb.Scheme ∧ vl.Host = vb.Host) ∧
        (vt.Scheme = vb.Scheme ∧ vt.Host = vb.Host))) := by
  rw [build_of_steps h]
  obtain ⟨hq1, hq2⟩ := rawQueryOf_built d t u rid h.parsed
  have hget : (parseQuery (u.Query.Set d.RecipientParameter rid).Encode).Get
      d.RecipientParameter = rid := by
    simp [Values.Get, parseQuery_Encode_get, Values.get_Set_self]
  refine ⟨?_, ?_, ?_, ?_, ?_, ?_⟩
  · show rawQueryOf (phishURLOf d u rid).String = rawQueryOf (trackingURLOf d u rid).String
    rw [hq1, hq2]
  · show (parseQuery (rawQueryOf (phishURLOf d u rid).String)).Get d.RecipientParameter = rid
    rw [hq1]
    exact hget
  · show (parseQuery (rawQueryOf (trackingURLOf d u rid).String)).Get d.RecipientParameter = rid
    rw [hq2]
    exact hget
  · intro v hv
    have hv2 : v.RawQuery = rawQueryOf (phishURLOf d u rid).String := (Parse_shape _ v hv).2.2.2
    rw [URL.Query, hv2, hq1]
    exact hget
  · intro v hv
    have hv2 : v.RawQuery = rawQueryOf (trackingURLOf d u rid).String :=
      (Parse_shape _ v hv).2.2.2
    rw [URL.Query, hv2, hq2]
    exact hget
  · intro hh
    have ho := (Parse_host_props t u h.parsed hh).1
    obtain ⟨_, hb2, hb3, _⟩ := base_host_text t u h.parsed hh
    obtain ⟨_, hl2, hl3, _⟩ := landing_host_text d t u rid h.parsed hh
    obtain ⟨_, ht2, ht3, _⟩ := tracking_host_text d t u rid h.parsed hh
    refine ⟨⟨hb2, hl2, ht2⟩, ⟨hb3, hl3, ht3⟩,
      ⟨origin_prefix_String (baseURLOf u) hh ho, origin_prefix_String (phishURLOf d u rid) hh ho,
        origin_prefix_String (trackingURLOf d u rid) hh ho⟩, ?_⟩
    intro vb vl vt hvb hvl hvt
    have pb := Parse_parts _ vb hvb
    have pl := Parse_parts _ vl hvl
    have pt := Parse_parts _ vt hvt
    have ab := pb.2.1 _ hb3
    have al := pl.2.1 _ hl3
    have at2 := pt.2.1 _ ht3
    have e1 : (vl.User, vl.Host) = (vb.User, vb.Host) := Except.ok.inj (al.symm.trans ab)
    have e2 : (vt.User, vt.Host) = (vb.User, vb.Host) := Except.ok.inj (at2.symm.trans ab)
    exact ⟨⟨pl.1.trans (hl2.trans (pb.1.trans hb2).symm), congrArg Prod.snd e1⟩,
      ⟨pt.1.trans (ht2.trans (pb.1.trans hb2).symm), congrArg Prod.snd e2⟩⟩

/-- Witness of C1: the build for `http://example.com/a/?x=1&rid=old` and the token
`t k`, which needs query escaping; the three returned texts parse, with the scheme
`http` and the host `example.com`. -/
theorem C1_urls_share_host_and_token_witness :
    BuildSteps sampleDeps (sampleConfig "http://example.com/a/?x=1&rid=old")
      validationRecipient (str "t k")
      ⟨str "Foo Bar", str "foo@bar.com"⟩ (str "http://example.com/a/?x=1&rid=old") sampleURL
      (str "http://example.com/a/?rid=t+k&x=1") ∧
    sampleURL.Host ≠ [] ∧
    (NewPhishingTemplateContext sampleDeps
      (sampleConfig "http://example.com/a/?x=1&rid=old") validationRecipient
      (str "t k")).1.BaseURL = str "http://example.com" ∧
    (NewPhishingTemplateContext sampleDeps
      (sampleConfig "http://example.com/a/?x=1&rid=old") validationRecipient (str "t k")).1.URL =
      str "http://example.com/a/?rid=t+k&x=1" ∧
    (NewPhishingTemplateContext sampleDeps
      (sampleConfig "http://example.com/a/?x=1&rid=old") validationRecipient
      (str "t k")).1.TrackingURL = str "http://example.com/a/track?rid=t+k&x=1" ∧
    Parse (str "http://example.com") =
      .ok { Scheme := str "http", Host := str "example.com" } ∧
    Parse (str "http://example.com/a/?rid=t+k&x=1") =
      .ok { Scheme := str "http", Host := str "example.com", Path := str "/a/",
            RawQuery := str "rid=t+k&x=1" } ∧
    Parse (str "http://example.com/a/track?rid=t+k&x=1") =
      .ok { Scheme := str "http", Host := str "example.com", Path := str "/a/track",
            RawQuery := str "rid=t+k&x=1" } ∧
    (parseQuery (rawQueryOf (NewPhishingTemplateContext sampleDeps
      (sampleConfig "http://example.com/a/?x=1&rid=old") validationRecipient
      (str "t k")).1.URL)).Get sampleDeps.RecipientParameter = str "t k" ∧
    (parseQuery (rawQueryOf (NewPhishingTemplateContext sampleDeps
      (sampleConfig "http://example.com/a/?x=1&rid=old") validationRecipient
      (str "t k")).1.TrackingURL)).Get sampleDeps.RecipientParameter = str "t k" ∧
    (authorityOf (NewPhishingTemplateContext sampleDeps
        (sampleConfig "http://example.com/a/?x=1&rid=old") validationRecipient
        (str "t k")).1.BaseURL = some sampleURL.authority ∧
      authorityOf (NewPhishingTemplateContext sampleDeps
        (sampleConfig "http://example.com/a/?x=1&rid=old") validationRecipient
        (str "t k")).1.URL = some sampleURL.authority ∧
      authorityOf (NewPhishingTemplateContext sampleDeps
        (sampleConfig "http://example.com/a/?x=1&rid=old") validationRecipient
        (str "t k")).1.TrackingURL = some sampleURL.authority) :=
  ⟨sample_steps, by decide,
   by set_option maxRecDepth 100000 in decide,
   by set_option maxRecDepth 100000 in decide,
   by set_option maxRecDepth 100000 in decide,
   by set_option maxRecDepth 100000 in decide,
   by set_option maxRecDepth 100000 in decide,
   by set_option maxRecDepth 100000 in decide,
   (C1_urls_share_host_and_token _ _ _ _ _ _ _ _ sample_steps).2.1,
   (C1_urls_share_host_and_token _ _ _ _ _ _ _ _ sample_steps).2.2.1,
   ((C1_urls_share_host_and_token _ _ _ _ _ _ _ _ sample_steps).2.2.2.2.2 (by decide)).2.1⟩

/-- C2: when a build succeeds (nil error and a populated context `c`), the encoder
was run on exactly the string in `c.URL`, at level High and size 256, and `c.QRFile`
is the standard base64 text of the bytes it returned for that payload. -/
theorem C2_qr_payload_is_landing_url (d : Deps) (cfg : TemplateContext) (r : BaseRecipient)
    (rid : GoString) (c : PhishingTemplateContext)
    (h : NewPhishingTemplateContext d cfg r rid = (c, none)) (hc : c ≠ {}) :
    ∃ png, d.qrcodeEncode c.URL RecoveryLevel.High 256 = .ok png ∧
      c.QRFile = EncodeToString png := by
  rcases build_cases d cfg r rid with ⟨f, t, u, png, hs, heq⟩ | hz
  · rw [heq] at h
    have hc2 : builtContext d r rid f u png = c := congrArg Prod.fst h
    subst hc2
    exact ⟨png, hs.encoded, rfl⟩
  · rw [h] at hz
    exact absurd hz hc

/-- Witness of C2: the build of the validation inputs with the sample collaborators. -/
theorem C2_qr_payload_is_landing_url_witness :
    ∃ png, sampleDeps.qrcodeEncode (str "http://example.com?rid=123456")
        RecoveryLevel.High 256 = .ok png ∧
      str "aHR0cDovL2V4YW1wbGUuY29tP3JpZD0xMjM0NTY=" = EncodeToString png :=
  C2_qr_payload_is_landing_url sampleDeps validationVC.toTemplateContext
    validationRecipient validationRId _ validation_build (by decide)

/-- C3 (the code at the failing input): for the rendered base URL
`http://example.com?` the returned `BaseURL` is `http://example.com?`, which
contains a question mark; for `http://example.com/a?x=1#frag?y` it is
`http://example.com#frag?y`, which is more than scheme and host. -/
theorem C3_base_url_keeps_question_mark :
    (NewPhishingTemplateContext sampleDeps (sampleConfig "http://example.com?")
      validationRecipient validationRId).2 = none ∧
    (NewPhishingTemplateContext sampleDeps (sampleConfig "http://example.com?")
      validationRecipient validationRId).1.BaseURL = str "http://example.com?" ∧
    (NewPhishingTemplateContext sampleDeps (sampleConfig "http://example.com/a?x=1#frag?y")
      validationRecipient validationRId).1.BaseURL = str "http://example.com#frag?y" := by
  set_option maxRecDepth 100000 in decide

/-- When the three steps before it succeed and the encoder rejects the landing URL,
the function returns the zero context together with a nil error: the `err` it
returns is the nil left by `url.Parse`, not the encoder's `taskError`. -/
theorem encoder_rejection_returns_nil (d : Deps) (cfg : TemplateContext) (r : BaseRecipient)
    (rid : GoString) (f : Address) (t : GoString) (u : URL) (e : GoError)
    (ha : d.ParseAddress cfg.getFromAddress = .ok f)
    (ht : ExecuteTemplate d cfg.getBaseURL (TemplateData.recipient r) = (t, none))
    (hp : Parse t = .ok u)
    (hq : d.qrcodeEncode (phishURLOf d u rid).String RecoveryLevel.High 256 = .error e) :
    NewPhishingTemplateContext d cfg r rid = ({}, none) := by
  simp [NewPhishingTemplateContext, ha, ht, hp, parseDroppingError_of_ok hp, hq]

theorem QueryEscape_replicate_a (n : Nat) :
    QueryEscape (List.replicate n (ch 'a')) = List.replicate n (ch 'a') := by
  unfold QueryEscape
  induction n with
  | zero => rfl
  | succ n ih =>
    rw [List.replicate_succ, escape_cons, ih]
    have h1 : ¬ (ch 'a' = ch ' ' ∧ encodeQueryComponent = encodeQueryComponent) := by decide
    have h2 : shouldEscape (ch 'a') encodeQueryComponent = false := by decide
    rw [if_neg h1, h2]
    rfl

/-- The landing URL of `http://example.com` for a token `rid`. -/
theorem validation_landing_text (rid : GoString) :
    (phishURLOf sampleDeps (parsed "http://example.com") rid).String =
      str "http://example.com?rid=" ++ QueryEscape rid := by
  have hp : parsed "http://example.com" = { Scheme := str "http", Host := str "example.com" } := by
    decide
  have hq : (phishURLOf sampleDeps { Scheme := str "http", Host := str "example.com" } rid).RawQuery =
      str "rid=" ++ QueryEscape rid := by
    have h1 : (str "rid=" : GoString) = QueryEscape (str "rid") ++ [ch '='] := by decide
    have hk : Values.keys [(str "rid", [rid])] = [str "rid"] := by simp [Values.keys]
    simp [phishURLOf, URL.Query, parseQuery, splitByte, sampleDeps, Values.Set, Values.put,
      Values.Encode, hk, Values.get, writePiece, encodePair, h1]
  have hne : str "rid=" ++ QueryEscape rid ≠ [] := by
    have : str "rid=" = ch 'r' :: str "id=" := by decide
    rw [this]
    simp
  have hpre : (({ Scheme := str "http", Host := str "example.com" } : URL).Scheme ++ [ch ':']) ++
      ({ Scheme := str "http", Host := str "example.com" } : URL).hierPart =
      str "http://example.com" := by decide
  rw [hp, String_of_query_ne_nil _ (by rw [hq]; exact hne), hq]
  have e1 : (phishURLOf sampleDeps { Scheme := str "http", Host := str "example.com" } rid).Scheme =
      str "http" := rfl
  have e2 : (phishURLOf sampleDeps { Scheme := str "http", Host := str "example.com" } rid).Opaque =
      [] := rfl
  have e3 : (phishURLOf sampleDeps { Scheme := str "http", Host := str "example.com" } rid).hierPart =
      ({ Scheme := str "http", Host := str "example.com" } : URL).hierPart := rfl
  have e4 : (phishURLOf sampleDeps { Scheme := str "http", Host := str "example.com" } rid).Fragment =
      [] := rfl
  have e5 : str "http" ≠ ([] : GoString) := by decide
  have e6 : (str "http://example.com?rid=" : GoString) =
      str "http://example.com" ++ ch '?' :: str "rid=" := by decide
  rw [e1, e2, e3, e4, if_pos e5, if_neg (fun h => h rfl), if_neg (fun h => h rfl), hpre, e6]
  simp

/-- The sample encoder rejects the landing URL of `http://example.com` for a token
whose escaped form has more than 1640 bytes. -/
theorem validation_landing_rejected (rid : GoString) (h : 1640 < (QueryEscape rid).length) :
    sampleDeps.qrcodeEncode
      (phishURLOf sampleDeps (parsed "http://example.com") rid).String RecoveryLevel.High 256 =
      .error (GoError.external "content too long to encode") := by
  have h23 : (str "http://example.com?rid=").length = 23 := by decide
  have hlen : ¬ (phishURLOf sampleDeps (parsed "http://example.com") rid).String.length ≤ 1663 := by
    rw [validation_landing_text, List.length_append, h23]
    omega
  have hd : sampleDeps.qrcodeEncode = sampleEncode 1663 := rfl
  rw [hd]
  unfold sampleEncode
  rw [if_neg hlen]

/-- C4 (the code at the failing input): for a token of 2000 bytes `a` the landing
URL `http://example.com?rid=aa...a` has 2023 bytes, more than the 1663 bytes the
encoder holds at level High; the encoder rejects it, and
`NewPhishingTemplateContext` returns the zero context with a nil error, where the
claim asks for a non-nil error. -/
theorem C4_encoder_rejection_gives_nil_error :
    sampleDeps.qrcodeEncode
      (phishURLOf sampleDeps (parsed "http://example.com")
        (List.replicate 2000 (ch 'a'))).String RecoveryLevel.High 256 =
      .error (GoError.external "content too long to encode") ∧
    (phishURLOf sampleDeps (parsed "http://example.com")
      (List.replicate 2000 (ch 'a'))).String.length = 2023 ∧
    NewPhishingTemplateContext sampleDeps validationVC.toTemplateContext
      validationRecipient (List.replicate 2000 (ch 'a')) = ({}, none) := by
  have h23 : (str "http://example.com?rid=").length = 23 := by decide
  have hesc : 1640 < (QueryEscape (List.replicate 2000 (ch 'a'))).length := by
    rw [QueryEscape_replicate_a, List.length_replicate]
    omega
  have henc := validation_landing_rejected _ hesc
  refine ⟨henc, ?_, ?_⟩
  · rw [validation_landing_text, QueryEscape_replicate_a, List.length_append,
      List.length_replicate, h23]
  · exact encoder_rejection_returns_nil sampleDeps _ _ _ ⟨[], str "foo@bar.com"⟩
      (str "http://example.com") (parsed "http://example.com") _ (by decide) (by decide)
      (by decide) henc

/-- C5: the first three steps short-circuit. A sender address that does not parse,
else a base-URL template that does not render, else a rendered text that does not
parse as a URL (such as `not a url ::`) makes the function return that step's error
with the zero context; and whenever the returned error is non-nil the context is
the zero value. -/
theorem C5_failure_returns_zero_context (d : Deps) (cfg : TemplateContext) (r : BaseRecipient)
    (rid : GoString) :
    (∀ e, d.ParseAddress cfg.getFromAddress = .error e →
      NewPhishingTemplateContext d cfg r rid = ({}, some e)) ∧
    (∀ f t e, d.ParseAddress cfg.getFromAddress = .ok f →
      ExecuteTemplate d cfg.getBaseURL (TemplateData.recipient r) = (t, some e) →
      NewPhishingTemplateContext d cfg r rid = ({}, some e)) ∧
    (∀ f t e, d.ParseAddress cfg.getFromAddress = .ok f →
      ExecuteTemplate d cfg.getBaseURL (TemplateData.recipient r) = (t, none) →
      Parse t = .error e →
      NewPhishingTemplateContext d cfg r rid = ({}, some (GoError.url e))) ∧
    (∀ f, d.ParseAddress cfg.getFromAddress = .ok f →
      ExecuteTemplate d cfg.getBaseURL (TemplateData.recipient r) = (str "not a url ::", none) →
      NewPhishingTemplateContext d cfg r rid =
        ({}, some (GoError.url ⟨"parse", str "not a url ::",
          URLError.other "first path segment in URL cannot contain colon"⟩))) ∧
    ((NewPhishingTemplateContext d cfg r rid).2 ≠ none →
      (NewPhishingTemplateContext d cfg r rid).1 = {}) := by
  refine ⟨?_, ?_, ?_, ?_, ?_⟩
  · intro e ha
    simp [NewPhishingTemplateContext, ha]
  · intro f t e ha ht
    simp [NewPhishingTemplateContext, ha, ht]
  · intro f t e ha ht hp
    simp [NewPhishingTemplateContext, ha, ht, hp]
  · intro f ha ht
    have hp : Parse (str "not a url ::") = .error ⟨"parse", str "not a url ::",
        URLError.other "first path segment in URL cannot contain colon"⟩ := by decide
    simp [NewPhishingTemplateContext, ha, ht, hp]
  · intro hne
    rcases build_cases d cfg r rid with ⟨f, t, u, png, _, heq⟩ | hz
    · rw [heq] at hne
      exact absurd rfl hne
    · exact hz

/-- C6: whatever the query of the rendered base URL holds for the recipient
parameter (no value, one value or several), the query of the landing URL text
returned by a successful build has that parameter exactly once: read back, its value
list is the one-element list holding the token, also in `Query()` of any URL that
`url.Parse` returns for that text. -/
theorem C6_recipient_parameter_overwritten (d : Deps) (cfg : TemplateContext)
    (r : BaseRecipient) (rid : GoString) (f : Address) (t : GoString) (u : URL)
    (png : List Byte) (h : BuildSteps d cfg r rid f t u png) :
    (parseQuery (rawQueryOf (NewPhishingTemplateContext d cfg r rid).1.URL)).get
      d.RecipientParameter = [rid] ∧
    ((parseQuery (rawQueryOf (NewPhishingTemplateContext d cfg r rid).1.URL)).get
      d.RecipientParameter).length = 1 ∧
    (∀ v, Parse (NewPhishingTemplateContext d cfg r rid).1.URL = .ok v →
      v.Query.get d.RecipientParameter = [rid]) := by
  rw [build_of_steps h]
  have hq := (rawQueryOf_built d t u rid h.parsed).1
  have hget : (parseQuery (rawQueryOf (phishURLOf d u rid).String)).get d.RecipientParameter =
      [rid] := by
    rw [hq, parseQuery_Encode_get, Values.get_Set_self]
  refine ⟨hget, ?_, ?_⟩
  · show ((parseQuery (rawQueryOf (phishURLOf d u rid).String)).get
      d.RecipientParameter).length = 1
    rw [hget]
    rfl
  · intro v hv
    have hv2 : v.RawQuery = rawQueryOf (phishURLOf d u rid).String := (Parse_shape _ v hv).2.2.2
    rw [URL.Query, hv2]
    exact hget

/-- Witness of C6: the base URL `http://example.com/a/?x=1&rid=old` sets `rid`. -/
theorem C6_recipient_parameter_overwritten_witness :
    (parseQuery (rawQueryOf (str "http://example.com/a/?x=1&rid=old"))).get
      sampleDeps.RecipientParameter = [str "old"] ∧
    (NewPhishingTemplateContext sampleDeps
      (sampleConfig "http://example.com/a/?x=1&rid=old") validationRecipient (str "t k")).1.URL =
      str "http://example.com/a/?rid=t+k&x=1" ∧
    (parseQuery (rawQueryOf (NewPhishingTemplateContext sampleDeps
      (sampleConfig "http://example.com/a/?x=1&rid=old") validationRecipient
      (str "t k")).1.URL)).get sampleDeps.RecipientParameter = [str "t k"] ∧
    ((parseQuery (rawQueryOf (NewPhishingTemplateContext sampleDeps
      (sampleConfig "http://example.com/a/?x=1&rid=old") validationRecipient
      (str "t k")).1.URL)).get sampleDeps.RecipientParameter).length = 1 :=
  ⟨by decide, by set_option maxRecDepth 100000 in decide,
   (C6_recipient_parameter_overwritten _ _ _ _ _ _ _ _ sample_steps).1,
   (C6_recipient_parameter_overwritten _ _ _ _ _ _ _ _ sample_steps).2.1⟩

/-- C7 (counterexample): for the rendered base URL `http:/%2Fevil.com/x y`, whose
path is `//evil.com/x y`, the returned landing URL is `http://evil.com/x%20y?rid=t`,
whose path is `/x y`. For `http://example.com/?a;b=1&e=%zz&x=1` the returned landing
URL is `http://example.com/?rid=t&x=1`: the pieces `a;b=1` and `e=%zz` of the
rendered query are dropped. -/
theorem C7_path_and_query_counterexample :
    Parse (str "http:/%2Fevil.com/x y") =
      .ok { Scheme := str "http", Path := str "//evil.com/x y",
            RawPath := str "/%2Fevil.com/x y", OmitHost := true } ∧
    (NewPhishingTemplateContext sampleDeps (sampleConfig "http:/%2Fevil.com/x y")
      validationRecipient (str "t")).2 = none ∧
    (NewPhishingTemplateContext sampleDeps (sampleConfig "http:/%2Fevil.com/x y")
      validationRecipient (str "t")).1.URL = str "http://evil.com/x%20y?rid=t" ∧
    rawPathOf (str "http://evil.com/x%20y?rid=t") = str "/x%20y" ∧
    Parse (str "http://evil.com/x%20y?rid=t") =
      .ok { Scheme := str "http", Host := str "evil.com", Path := str "/x y",
            RawQuery := str "rid=t" } ∧
    rawQueryOf (str "http://example.com/?a;b=1&e=%zz&x=1") = str "a;b=1&e=%zz&x=1" ∧
    (NewPhishingTemplateContext sampleDeps (sampleConfig "http://example.com/?a;b=1&e=%zz&x=1")
      validationRecipient (str "t")).2 = none ∧
    (NewPhishingTemplateContext sampleDeps (sampleConfig "http://example.com/?a;b=1&e=%zz&x=1")
      validationRecipient (str "t")).1.URL = str "http://example.com/?rid=t&x=1" := by
  set_option maxRecDepth 100000 in decide

/-- C7 (amended): in every successful build the query of the returned landing URL
text is the encoding of the parameters that `ParseQuery` reads from the query of the
rendered text, with the recipient parameter set to the token; so every parameter
that `ParseQuery` reads from the rendered text, other than the recipient parameter,
is read back from the landing URL text with the same values in the same order, also
by `Query()` of any URL that `url.Parse` returns for that text. When the rendered
base URL has a host, the landing URL text is the origin `scheme://userinfo@host`, its
path, `?`, its query and the fragment; the path that `url.Parse` reads from it is
the escaped path of the rendered URL and decodes to the same path as the path of
the rendered text; so `Path` of any URL that `url.Parse` returns for the landing URL
text is the path of the rendered URL. -/
theorem C7_landing_preserves_path_and_query (d : Deps) (cfg : TemplateContext)
    (r : BaseRecipient) (rid : GoString) (f : Address) (t : GoString) (u : URL)
    (png : List Byte) (h : BuildSteps d cfg r rid f t u png) :
    rawQueryOf (NewPhishingTemplateContext d cfg r rid).1.URL =
      ((parseQuery (rawQueryOf t)).Set d.RecipientParameter rid).Encode ∧
    (∀ k, k ≠ d.RecipientParameter →
      (parseQuery (rawQueryOf (NewPhishingTemplateContext d cfg r rid).1.URL)).get k =
        (parseQuery (rawQueryOf t)).get k) ∧
    (∀ v, Parse (NewPhishingTemplateContext d cfg r rid).1.URL = .ok v →
      ∀ k, k ≠ d.RecipientParameter → v.Query.get k = (parseQuery (rawQueryOf t)).get k) ∧
    (u.Host ≠ [] →
      (NewPhishingTemplateContext d cfg r rid).1.URL =
        u.origin ++ rawPathOf (NewPhishingTemplateContext d cfg r rid).1.URL ++
          ch '?' :: rawQueryOf (NewPhishingTemplateContext d cfg r rid).1.URL ++
          u.fragmentText ∧
      rawPathOf (NewPhishingTemplateContext d cfg r rid).1.URL = u.EscapedPath ∧
      unescape (rawPathOf t) encodePath = .ok u.Path ∧
      unescape (rawPathOf (NewPhishingTemplateContext d cfg r rid).1.URL) encodePath =
        .ok u.Path ∧
      (∀ v, Parse (NewPhishingTemplateContext d cfg r rid).1.URL = .ok v →
        v.Path = u.Path)) := by
  rw [build_of_steps h]
  have hq : rawQueryOf (phishURLOf d u rid).String =
      (u.Query.Set d.RecipientParameter rid).Encode := (rawQueryOf_built d t u rid h.parsed).1
  have hut : u.Query = parseQuery (rawQueryOf t) := by
    rw [URL.Query, (Parse_shape t u h.parsed).2.2.2]
  have hkeep : ∀ k, k ≠ d.RecipientParameter →
      (parseQuery (rawQueryOf (phishURLOf d u rid).String)).get k =
        (parseQuery (rawQueryOf t)).get k := by
    intro k hk
    rw [hq, parseQuery_Encode_get, Values.get_Set_of_ne _ _ _ _ hk, hut]
  refine ⟨?_, hkeep, ?_, ?_⟩
  · show rawQueryOf (phishURLOf d u rid).String = _
    rw [hq, hut]
  · intro v hv k hk
    have hv2 : v.RawQuery = rawQueryOf (phishURLOf d u rid).String := (Parse_shape _ v hv).2.2.2
    rw [URL.Query, hv2]
    exact hkeep k hk
  · intro hh
    obtain ⟨hl1, _, _, hl4⟩ := landing_host_text d t u rid h.parsed hh
    have hdec : unescape (rawPathOf (phishURLOf d u rid).String) encodePath = .ok u.Path := by
      rw [hl4]
      exact unescape_EscapedPath u
    refine ⟨?_, hl4, (Parse_parts t u h.parsed).2.2.2.1, hdec, ?_⟩
    · show (phishURLOf d u rid).String =
        u.origin ++ rawPathOf (phishURLOf d u rid).String ++
          ch '?' :: rawQueryOf (phishURLOf d u rid).String ++ u.fragmentText
      rw [hl4, hq]
      exact hl1
    · intro v hv
      have hp : unescape (rawPathOf (phishURLOf d u rid).String) encodePath = .ok v.Path :=
        (Parse_parts _ v hv).2.2.2.1
      rw [hdec] at hp
      exact (Except.ok.inj hp).symm

/-- Witness of C7: the path `/a/` and the parameter `x` of
`http://example.com/a/?x=1&rid=old`. -/
theorem C7_landing_preserves_path_and_query_witness :
    (parseQuery (rawQueryOf (str "http://example.com/a/?x=1&rid=old"))).get (str "x") =
      [str "1"] ∧
    sampleURL.Host ≠ [] ∧
    (NewPhishingTemplateContext sampleDeps
      (sampleConfig "http://example.com/a/?x=1&rid=old") validationRecipient (str "t k")).1.URL =
      str "http://example.com/a/?rid=t+k&x=1" ∧
    (∀ k, k ≠ sampleDeps.RecipientParameter →
      (parseQuery (rawQueryOf (NewPhishingTemplateContext sampleDeps
        (sampleConfig "http://example.com/a/?x=1&rid=old") validationRecipient
        (str "t k")).1.URL)).get k =
        (parseQuery (rawQueryOf (str "http://example.com/a/?x=1&rid=old"))).get k) ∧
    unescape (rawPathOf (NewPhishingTemplateContext sampleDeps
      (sampleConfig "http://example.com/a/?x=1&rid=old") validationRecipient
      (str "t k")).1.URL) encodePath = .ok sampleURL.Path :=
  ⟨by decide, by decide, by set_option maxRecDepth 100000 in decide,
   (C7_landing_preserves_path_and_query _ _ _ _ _ _ _ _ sample_steps).2.1,
   ((C7_landing_preserves_path_and_query _ _ _ _ _ _ _ _ sample_steps).2.2.2
     (by decide)).2.2.2.1⟩

/-- C8 (counterexample): the rendered base URL `.` parses to the relative path `.`;
the path of the tracking URL is then `track`, which does not end in `/track`, and
the returned `TrackingURL` is `track?rid=t`. For the opaque `mailto:foo@bar.com` the
returned `TrackingURL` is the landing URL itself, with no `/track` in it. For
`x/../a:b` the returned `TrackingURL` is `./a:b/track?rid=t`, whose path is
`./a:b/track`. For `http://example.com/a/../b`, with the landing path `/a/../b`, the
returned `TrackingURL` is `http://example.com/b/track?rid=t`: the landing path is
cleaned before `/track` is appended. -/
theorem C8_relative_path_counterexample :
    Parse (str ".") = .ok { Path := str "." } ∧
    (trackingURLOf sampleDeps { Path := str "." } (str "t")).Path = str "track" ∧
    ¬ (str "/track" <:+ (trackingURLOf sampleDeps { Path := str "." } (str "t")).Path) ∧
    NewPhishingTemplateContext sampleDeps (sampleConfig ".") validationRecipient (str "t") =
      (builtContext sampleDeps validationRecipient (str "t")
        ⟨str "Foo Bar", str "foo@bar.com"⟩ { Path := str "." } (str ".?rid=t"), none) ∧
    (NewPhishingTemplateContext sampleDeps (sampleConfig ".") validationRecipient
      (str "t")).1.TrackingURL = str "track?rid=t" ∧
    (NewPhishingTemplateContext sampleDeps (sampleConfig "mailto:foo@bar.com")
      validationRecipient (str "t")).1.TrackingURL = str "mailto:foo@bar.com?rid=t" ∧
    (NewPhishingTemplateContext sampleDeps (sampleConfig "x/../a:b")
      validationRecipient (str "t")).1.TrackingURL = str "./a:b/track?rid=t" ∧
    rawPathOf (str "./a:b/track?rid=t") = str "./a:b/track" ∧
    Join [str "x/../a:b", str "/track"] = str "a:b/track" ∧
    (NewPhishingTemplateContext sampleDeps (sampleConfig "http://example.com/a/../b")
      validationRecipient (str "t")).1.URL = str "http://example.com/a/../b?rid=t" ∧
    (NewPhishingTemplateContext sampleDeps (sampleConfig "http://example.com/a/../b")
      validationRecipient (str "t")).1.TrackingURL = str "http://example.com/b/track?rid=t" := by
  set_option maxRecDepth 100000 in decide

/-- C8 (amended): when the rendered base URL has a host, the returned `TrackingURL`
text of a successful build is the origin `scheme://userinfo@host`, its path, `?`,
its query and the fragment, and the path that `url.Parse` reads from it decodes to
`path.Join` of the landing path and `/track`, where the landing path is the path
that `url.Parse` reads from the returned `URL` text. That joined path is `/track`
for an empty landing path and otherwise the cleaned landing path with `/track`
appended once (`/track` alone when the cleaned path is the root); it starts with a
slash, ends in `/track` and contains no double slash. `Path` of any URL that
`url.Parse` returns for the `TrackingURL` text is that joined path. -/
theorem C8_tracking_path_joined (d : Deps) (cfg : TemplateContext) (r : BaseRecipient)
    (rid : GoString) (f : Address) (t : GoString) (u : URL) (png : List Byte)
    (h : BuildSteps d cfg r rid f t u png) (hh : u.Host ≠ []) :
    (NewPhishingTemplateContext d cfg r rid).1.TrackingURL =
      u.origin ++ rawPathOf (NewPhishingTemplateContext d cfg r rid).1.TrackingURL ++
        ch '?' :: rawQueryOf (NewPhishingTemplateContext d cfg r rid).1.TrackingURL ++
        u.fragmentText ∧
    unescape (rawPathOf (NewPhishingTemplateContext d cfg r rid).1.URL) encodePath =
      .ok u.Path ∧
    unescape (rawPathOf (NewPhishingTemplateContext d cfg r rid).1.TrackingURL) encodePath =
      .ok (Join [u.Path, str "/track"]) ∧
    (∀ v, Parse (NewPhishingTemplateContext d cfg r rid).1.TrackingURL = .ok v →
      v.Path = Join [u.Path, str "/track"]) ∧
    (u.Path = [] → Join [u.Path, str "/track"] = str "/track") ∧
    (u.Path ≠ [] → Join [u.Path, str "/track"] =
      if Clean u.Path = str "/" then str "/track" else Clean u.Path ++ str "/track") ∧
    (Join [u.Path, str "/track"]).head? = some (ch '/') ∧
    str "/track" <:+ Join [u.Path, str "/track"] ∧
    ¬ (str "//" <:+: Join [u.Path, str "/track"]) := by
  have hp := (Parse_host_props t u h.parsed hh).2
  have hjoin := Join_track_props u.Path hp
  obtain ⟨_, _, _, hl4⟩ := landing_host_text d t u rid h.parsed hh
  obtain ⟨ht1, _, _, ht4⟩ := tracking_host_text d t u rid h.parsed hh
  have hq := (rawQueryOf_built d t u rid h.parsed).2
  rw [build_of_steps h]
  have hdec : unescape (rawPathOf (trackingURLOf d u rid).String) encodePath =
      .ok (Join [u.Path, str "/track"]) := by
    rw [ht4]
    exact unescape_EscapedPath (trackingURLOf d u rid)
  refine ⟨?_, ?_, hdec, ?_, ?_, ?_, hjoin.1, hjoin.2.1, hjoin.2.2⟩
  · show (trackingURLOf d u rid).String =
      u.origin ++ rawPathOf (trackingURLOf d u rid).String ++
        ch '?' :: rawQueryOf (trackingURLOf d u rid).String ++ u.fragmentText
    rw [ht4, hq]
    exact ht1
  · show unescape (rawPathOf (phishURLOf d u rid).String) encodePath = .ok u.Path
    rw [hl4]
    exact unescape_EscapedPath u
  · intro v hv
    have hpv : unescape (rawPathOf (trackingURLOf d u rid).String) encodePath = .ok v.Path :=
      (Parse_parts _ v hv).2.2.2.1
    rw [hdec] at hpv
    exact (Except.ok.inj hpv).symm
  · intro he
    rw [he]
    decide
  · intro hne
    rcases hp with he | hr
    · exact absurd he hne
    · exact Join_track_eq u.Path hne (Clean_rooted_ne_dot _ hr)

/-- Witness of C8: the landing path `/a/` of `http://example.com/a/?x=1&rid=old`
gives the tracking path `/a/track`. -/
theorem C8_tracking_path_joined_witness :
    sampleURL.Host ≠ [] ∧
    (NewPhishingTemplateContext sampleDeps
      (sampleConfig "http://example.com/a/?x=1&rid=old") validationRecipient
      (str "t k")).1.TrackingURL = str "http://example.com/a/track?rid=t+k&x=1" ∧
    sampleURL.Path = str "/a/" ∧
    Join [sampleURL.Path, str "/track"] = str "/a/track" ∧
    unescape (rawPathOf (NewPhishingTemplateContext sampleDeps
      (sampleConfig "http://example.com/a/?x=1&rid=old") validationRecipient
      (str "t k")).1.TrackingURL) encodePath = .ok (Join [sampleURL.Path, str "/track"]) ∧
    str "/track" <:+ Join [sampleURL.Path, str "/track"] ∧
    ¬ (str "//" <:+: Join [sampleURL.Path, str "/track"]) :=
  ⟨by decide, by set_option maxRecDepth 100000 in decide, by decide, by decide,
   (C8_tracking_path_joined _ _ _ _ _ _ _ _ sample_steps (by decide)).2.2.1,
   (C8_tracking_path_joined _ _ _ _ _ _ _ _ sample_steps (by decide)).2.2.2.2.2.2.2.1,
   (C8_tracking_path_joined _ _ _ _ _ _ _ _ sample_steps (by decide)).2.2.2.2.2.2.2.2⟩

/-- C9: in the context of a successful build the `From` field is the display name
of the parsed sender address when that name is non-empty, and the bare address
otherwise. -/
theorem C9_from_is_name_or_address (d : Deps) (cfg : TemplateContext) (r : BaseRecipient)
    (rid : GoString) (f : Address) (t : GoString) (u : URL) (png : List Byte)
    (h : BuildSteps d cfg r rid f t u png) :
    (f.Name ≠ [] → (NewPhishingTemplateContext d cfg r rid).1.From = f.Name) ∧
    (f.Name = [] → (NewPhishingTemplateContext d cfg r rid).1.From = f.Address) := by
  rw [build_of_steps h]
  constructor
  · intro hn
    simp [builtContext, hn]
  · intro hn
    simp [builtContext, hn]

/-- Witness of C9: the sender `Foo Bar <foo@bar.com>` gives `Foo Bar`. -/
theorem C9_from_is_name_or_address_witness :
    (str "Foo Bar" ≠ [] →
      (NewPhishingTemplateContext sampleDeps
        (sampleConfig "http://example.com/a/?x=1&rid=old") validationRecipient
        (str "t k")).1.From = str "Foo Bar") ∧
    (str "Foo Bar" = [] →
      (NewPhishingTemplateContext sampleDeps
        (sampleConfig "http://example.com/a/?x=1&rid=old") validationRecipient
        (str "t k")).1.From = str "foo@bar.com") :=
  C9_from_is_name_or_address _ _ _ _ _ _ _ _ sample_steps

/-- C10: `ValidateTemplate` builds the context from its fixed inputs and returns the
first error: the error of the build when that is non-nil, otherwise the error of
`ExecuteTemplate` on the text with the built context; it returns nil exactly when
both errors are nil. -/
theorem C10_validate_returns_first_error (d : Deps) (text : GoString) :
    validationVC = ⟨str "foo@bar.com", str "http://example.com"⟩ ∧
    validationRecipient = ⟨str "foo@bar.com", str "Foo", str "Bar", str "Test"⟩ ∧
    validationRId = str "123456" ∧
    ValidateTemplate d text =
      (match (NewPhishingTemplateContext d validationVC.toTemplateContext validationRecipient
          validationRId).2 with
       | some err => some err
       | none =>
         (ExecuteTemplate d text (TemplateData.context
           (NewPhishingTemplateContext d validationVC.toTemplateContext validationRecipient
             validationRId).1)).2) ∧
    (ValidateTemplate d text = none ↔
      (NewPhishingTemplateContext d validationVC.toTemplateContext validationRecipient
        validationRId).2 = none ∧
      (ExecuteTemplate d text (TemplateData.context
        (NewPhishingTemplateContext d validationVC.toTemplateContext validationRecipient
          validationRId).1)).2 = none) := by
  refine ⟨rfl, rfl, rfl, ?_, ?_⟩
  · unfold ValidateTemplate
    generalize NewPhishingTemplateContext d validationVC.toTemplateContext validationRecipient
      validationRId = res
    obtain ⟨c, _ | e⟩ := res
    · simp only
      generalize ExecuteTemplate d text (TemplateData.context c) = res2
      obtain ⟨o, _ | e2⟩ := res2 <;> rfl
    · rfl
  · unfold ValidateTemplate
    generalize NewPhishingTemplateContext d validationVC.toTemplateContext validationRecipient
      validationRId = res
    obtain ⟨c, _ | e⟩ := res
    · simp only
      generalize ExecuteTemplate d text (TemplateData.context c) = res2
      obtain ⟨o, _ | e2⟩ := res2 <;> simp
    · simp

end Gophish
